import Mathlib

/-!
# zlru: a sharded LRU cache (`lru.go`)

A shallow embedding of `lru.go` and theorems about it.

Modelling decisions.

* `container/list` is a Lean list, front first.  A `*list.Element` is the natural
  number `id` carried by the node it points to; `LruCache.next` is the allocator
  (the next address `PushFront` hands out).
* A Go `map[string]*list.Element` is an association list from keys to element ids.
* `time.Now().UnixNano()` is the argument `now` of the operation that reads the clock.
* `rand.Int(rand.Reader, sr)` is an oracle `rnd`: the value drawn in sampling round
  `loop` is `rnd loop % shard`, so every oracle is a legal outcome in `[0, shard)`.
* `runtime.NumCPU()` is the argument `numCPU` of `New`.
* The mutexes are not modelled: every operation runs to completion (sequential use).
* `int64` and `int` are `Int`: the counters and the cutoff `now - t` stay within the machine
  range for the clock readings, durations and sizes of a real run.
-/

namespace Zlru

/-! ## Library code used by `lru.go` -/

/-- One bit step of the reflected CRC-32 (IEEE polynomial `0xEDB88320`). -/
def crcStep (crc : Nat) : Nat :=
  if crc % 2 = 1 then (crc / 2) ^^^ 0xEDB88320 else crc / 2

/-- Feed one byte to the CRC register. -/
def crcByte (crc b : Nat) : Nat :=
  crcStep (crcStep (crcStep (crcStep (crcStep (crcStep (crcStep (crcStep (crc ^^^ b))))))))

/-- The bytes of a Go string (UTF-8). -/
def keyBytes (key : String) : List Nat :=
  (key.data.flatMap String.utf8EncodeChar).map UInt8.toNat

/-- Go's `crc32.ChecksumIEEE([]byte(key))`. -/
def ChecksumIEEE (key : String) : Nat :=
  ((keyBytes key).foldl crcByte 0xFFFFFFFF) ^^^ 0xFFFFFFFF

/-- Round `p` to a multiple of `u`, ties to the even multiple (IEEE round-to-nearest-even). -/
def roundEven (p u : Nat) : Nat :=
  let q := p / u
  let r := p % u
  if 2 * r < u then q * u
  else if u < 2 * r then (q + 1) * u
  else if q % 2 = 0 then q * u else (q + 1) * u

/-- The position of the leading bit of `p` (`0` for `p < 2`); `fuel ≥ p` is enough. -/
def leadBit : Nat → Nat → Nat
  | 0, _ => 0
  | fuel + 1, p => if p < 2 then 0 else leadBit fuel (p / 2) + 1

/-- The spacing of `float32` values around `p` (24 bit significand), in the unit of `p`. -/
def ulp24 (p : Nat) : Nat := 2 ^ (leadBit p p - 23)

/-- Go's `float32(n)` for a non-negative integer `n`: the value is again an integer. -/
def float32OfNat (n : Nat) : Nat := roundEven n (ulp24 n)

/-- The `float32` product `x * 1.1` for an integer-valued `float32` `x`, in units of `2^-23`.
The constant `1.1` converted to `float32` is `9227469 / 2^23`. -/
def float32Mul11 (x : Nat) : Nat := roundEven (x * 9227469) (ulp24 (x * 9227469))

/-- Go's `uint32(float32(max_count) * 1.1)` for `max_count > 0`: truncation towards zero.
A product beyond the range of `uint32` is reduced modulo `2^32` (what amd64 does; Go leaves
that case to the implementation). -/
def maxLoopOf (max_count : Int) : Nat :=
  (float32Mul11 (float32OfNat max_count.toNat) / 2 ^ 23) % 2 ^ 32

/-! ## Data model -/

/-- A node of a shard's list: the `entry` of `lru.go` together with the identity `id` of the
`list.Element` that holds it. -/
structure entry (V : Type) where
  id : Nat
  last_time : Int
  key : String
  value : V
deriving DecidableEq

/-- The cache of `lru.go` (without its mutexes), plus the element allocator `next`. -/
structure LruCache (V : Type) where
  count : Int
  max : Int
  shard : Nat
  lls : List (List (entry V))
  caches : List (List (String × Nat))
  next : Nat
deriving DecidableEq

/-! ## Go maps and lists -/

/-- The lookup `cache[key]`. -/
def mapGet : List (String × Nat) → String → Option Nat
  | [], _ => none
  | (k, e) :: rest, key => if k = key then some e else mapGet rest key

/-- The statement `delete(cache, key)`. -/
def mapDelete (cache : List (String × Nat)) (key : String) : List (String × Nat) :=
  cache.filter (fun p => decide (p.1 ≠ key))

/-- The assignment `cache[key] = el`. -/
def mapSet (cache : List (String × Nat)) (key : String) (el : Nat) : List (String × Nat) :=
  (key, el) :: mapDelete cache key

/-- The element of list `ll` with identity `el`, if it is on the list. -/
def findEl {V : Type} (ll : List (entry V)) (el : Nat) : Option (entry V) :=
  ll.find? (fun e => decide (e.id = el))

/-- The call `ll.Remove(el)`: unlink the element with identity `el`. -/
def listRemove {V : Type} (ll : List (entry V)) (el : Nat) : List (entry V) :=
  ll.filter (fun e => decide (e.id ≠ el))

/-- The list of shard `i`, `m.lls[i]`. -/
def llOf {V : Type} (m : LruCache V) (i : Nat) : List (entry V) := m.lls.getD i []

/-- The index of shard `i`, `m.caches[i]`. -/
def cacheOf {V : Type} (m : LruCache V) (i : Nat) : List (String × Nat) := m.caches.getD i []

/-! ## The operations of `lru.go` -/

/-- `New(shard, max_entries)`. -/
def New {V : Type} (shard : Nat) (max_entries : Int) (numCPU : Nat) : LruCache V :=
  let shard := if shard = 0 then numCPU else shard
  { count := 0
    max := max_entries
    shard := shard
    lls := List.replicate shard []
    caches := List.replicate shard []
    next := 0 }

/-- `getMM`: the index of the shard that `key` is routed to. -/
def getMM {V : Type} (m : LruCache V) (key : String) : Nat :=
  ChecksumIEEE key % m.shard

/-- One pass of the loop body of `Clear` for shard `s`: the counter drops by the length of the
list and `m.caches[s]` becomes a fresh map.  The statement `ll = list.New()` of the source
assigns to the local variable `ll` only, so `m.lls[s]` keeps its nodes. -/
def clearShard {V : Type} (acc : LruCache V × Int) (s : Nat) : LruCache V × Int :=
  let m := acc.1
  let c : Int := ((llOf m s).length : Int)
  ({ m with count := m.count - c, caches := m.caches.set s [] }, acc.2 + c)

/-- `Clear()`: returns the new state and the number `out`. -/
def Clear {V : Type} (m : LruCache V) : LruCache V × Int :=
  (List.range m.shard).foldl clearShard (m, 0)

/-- The inner `for` loop of the age sweep of `RemoveOldest` on one shard: while the back
node is older than `lifeline`, unlink it and delete its key from the index.  `c` counts the
removals.  The loop runs at most once per node, so `fuel = ll.length` is always enough. -/
def sweepLoop {V : Type} (lifeline : Int) :
    Nat → List (entry V) → List (String × Nat) → Int → List (entry V) × List (String × Nat) × Int
  | 0, ll, cache, c => (ll, cache, c)
  | fuel + 1, ll, cache, c =>
    match ll.getLast? with
    | some kv =>
      if kv.last_time < lifeline then
        sweepLoop lifeline fuel ll.dropLast (mapDelete cache kv.key) (c + 1)
      else (ll, cache, c)
    | none => (ll, cache, c)

/-- The body of the outer loop of the age sweep for shard `s`. -/
def sweepShard {V : Type} (lifeline : Int) (acc : LruCache V × Int) (s : Nat) : LruCache V × Int :=
  let m := acc.1
  let r := sweepLoop lifeline (llOf m s).length (llOf m s) (cacheOf m s) 0
  ({ m with lls := m.lls.set s r.1, caches := m.caches.set s r.2.1,
            count := if 0 < r.2.2 then m.count - r.2.2 else m.count }, acc.2 + r.2.2)

/-- The removal in one round of the sampling loop of `RemoveOldest`: the back node `kv` of
shard `s` is unlinked, its key is deleted from the index of the shard and the counter drops
by one. -/
def removeBack {V : Type} (m : LruCache V) (s : Nat) (kv : entry V) : LruCache V :=
  { m with lls := m.lls.set s (llOf m s).dropLast,
           caches := m.caches.set s (mapDelete (cacheOf m s) kv.key),
           count := m.count - 1 }

/-- The sampling loop of `RemoveOldest`; `fuel` is `max_loop - loop`. -/
def sampleLoop {V : Type} (t lifeline max_count : Int) (rnd : Nat → Nat) :
    Nat → Nat → LruCache V → Int → LruCache V × Int
  | 0, _, m, out => (m, out)
  | fuel + 1, loop, m, out =>
    if out < max_count then
      let s := rnd loop % m.shard
      match (llOf m s).getLast? with
      | some kv =>
        if t ≤ 0 ∨ kv.last_time < lifeline then
          sampleLoop t lifeline max_count rnd fuel (loop + 1) (removeBack m s kv) (out + 1)
        else sampleLoop t lifeline max_count rnd fuel (loop + 1) m out
      | none => sampleLoop t lifeline max_count rnd fuel (loop + 1) m out
    else (m, out)

/-- `RemoveOldest(t, max_count)` called at time `now`. -/
def RemoveOldest {V : Type} (m : LruCache V) (t max_count now : Int) (rnd : Nat → Nat) :
    LruCache V × Int :=
  let lifeline := now - t
  if max_count ≤ 0 then
    if t ≤ 0 then Clear m
    else (List.range m.shard).foldl (sweepShard lifeline) (m, 0)
  else if m.count ≤ max_count then Clear m
  else
    let max_loop := if maxLoopOf max_count < m.shard then m.shard else maxLoopOf max_count
    sampleLoop t lifeline max_count rnd max_loop 0 m 0

/-- The new-key branch of `Add` up to the unlock: a fresh element holding the entry is pushed
to the front of the list of shard `i`, the index maps the key to it, the counter grows by
one. -/
def pushNew {V : Type} (m : LruCache V) (i : Nat) (key : String) (value : V) (now : Int) :
    LruCache V :=
  { m with lls := m.lls.set i (entry.mk m.next now key value :: llOf m i),
           caches := m.caches.set i (mapSet (cacheOf m i) key m.next),
           count := m.count + 1,
           next := m.next + 1 }

/-- `Add(key, value)` called at time `now`; `rnd` is the oracle of the eviction it may run.
When the index holds an element that is not on the list, `MoveToFront` does nothing and the
entry written to is not on any list: the state is unchanged (`WeakInv` shows that no reachable
state has such an index entry). -/
def Add {V : Type} (m : LruCache V) (key : String) (value : V) (now : Int) (rnd : Nat → Nat) :
    LruCache V :=
  let i := getMM m key
  match mapGet (cacheOf m i) key with
  | some el =>
    match findEl (llOf m i) el with
    | some kv =>
      let kv1 : entry V := { kv with value := value, last_time := now }
      { m with lls := m.lls.set i (kv1 :: listRemove (llOf m i) el) }
    | none => m
  | none =>
    let m1 := pushNew m i key value now
    if 0 < m1.max ∧ m1.max < m1.count then (RemoveOldest m1 0 1 now rnd).1 else m1

/-- `Get(key)` called at time `now`: the new state, the value and the flag `ok`.  The branch
of an index entry whose element is not on the list is not taken in a reachable state
(`WeakInv`). -/
def Get {V : Type} (m : LruCache V) (key : String) (now : Int) : LruCache V × Option V × Bool :=
  let i := getMM m key
  match mapGet (cacheOf m i) key with
  | some el =>
    match findEl (llOf m i) el with
    | some kv =>
      let kv1 : entry V := { kv with last_time := now }
      ({ m with lls := m.lls.set i (kv1 :: listRemove (llOf m i) el) }, some kv.value, true)
    | none => (m, none, true)
  | none => (m, none, false)

/-- `Len()`. -/
def Len {V : Type} (m : LruCache V) : Int := m.count

/-- `Remove(key)`. -/
def Remove {V : Type} (m : LruCache V) (key : String) : LruCache V :=
  let i := getMM m key
  match mapGet (cacheOf m i) key with
  | some el =>
    { m with lls := m.lls.set i (listRemove (llOf m i) el),
             caches := m.caches.set i (mapDelete (cacheOf m i) key),
             count := m.count - 1 }
  | none => m

/-- `MaxEntries()`. -/
def MaxEntries {V : Type} (m : LruCache V) : Int := m.max

/-! ## Histories of sequential calls -/

/-- A public operation together with what it reads from the clock and the random source. -/
inductive Op (V : Type) where
  | add (key : String) (value : V) (now : Int) (rnd : Nat → Nat)
  | get (key : String) (now : Int)
  | remove (key : String)
  | removeOldest (t max_count now : Int) (rnd : Nat → Nat)
  | clear

/-- The state after one public operation. -/
def step {V : Type} (m : LruCache V) : Op V → LruCache V
  | Op.add key value now rnd => Add m key value now rnd
  | Op.get key now => (Get m key now).1
  | Op.remove key => Remove m key
  | Op.removeOldest t max_count now rnd => (RemoveOldest m t max_count now rnd).1
  | Op.clear => (Clear m).1

/-- The state after a sequence of public operations, the first of the list first. -/
def run {V : Type} (m : LruCache V) (ops : List (Op V)) : LruCache V := ops.foldl step m

/-- The operations `Add`, `Get` and `Remove`. -/
def Op.basic {V : Type} : Op V → Bool
  | Op.add _ _ _ _ => true
  | Op.get _ _ => true
  | Op.remove _ => true
  | Op.removeOldest _ _ _ _ => false
  | Op.clear => false

/-- The clock reading of an operation that reads the clock. -/
def Op.clock {V : Type} : Op V → Option Int
  | Op.add _ _ now _ => some now
  | Op.get _ now => some now
  | Op.remove _ => none
  | Op.removeOldest _ _ now _ => some now
  | Op.clear => none

/-- The clock never runs backwards along the history. -/
def ClockMono {V : Type} (ops : List (Op V)) : Prop :=
  (ops.filterMap Op.clock).Pairwise (fun a b => a ≤ b)

instance instDecidableClockMono {V : Type} (ops : List (Op V)) : Decidable (ClockMono ops) := by
  unfold ClockMono; infer_instance

/-- Adding the keys of `kvs` one at a time, each with its value, clock reading and oracle. -/
def addAll {V : Type} (m : LruCache V) (kvs : List (String × V × Int × (Nat → Nat))) :
    LruCache V :=
  kvs.foldl (fun acc p => Add acc p.1 p.2.1 p.2.2.1 p.2.2.2) m

/-! ## Observations of a state -/

/-- The node that `Get(key)` finds: the element that the index of the key's shard holds
for the key. -/
def peek {V : Type} (m : LruCache V) (key : String) : Option (entry V) :=
  match mapGet (cacheOf m (getMM m key)) key with
  | some el => findEl (llOf m (getMM m key)) el
  | none => none

/-- The key is in the index of its shard and its node is older than `lifeline`. -/
def isOld {V : Type} (m : LruCache V) (lifeline : Int) (key : String) : Bool :=
  match peek m key with
  | some kv => decide (kv.last_time < lifeline)
  | none => false

/-- The keys of all the indexes, shard by shard. -/
def storedKeys {V : Type} (m : LruCache V) : List String :=
  (List.range m.shard).flatMap (fun i => (cacheOf m i).map Prod.fst)

/-! ## Invariants -/

/-- Every key of the index points to a node of the list, and that node holds the key. -/
def IndexInOrder {V : Type} (ll : List (entry V)) (cache : List (String × Nat)) : Prop :=
  ∀ k el, mapGet cache k = some el → ∃ kv, kv ∈ ll ∧ kv.id = el ∧ kv.key = k

/-- Every node of the list is the node that the index holds for the node's key. -/
def OrderInIndex {V : Type} (ll : List (entry V)) (cache : List (String × Nat)) : Prop :=
  ∀ kv, kv ∈ ll → mapGet cache kv.key = some kv.id

/-- The list is ordered by last use: from front to back `last_time` never increases. -/
def SortedByTime {V : Type} (ll : List (entry V)) : Prop :=
  ll.Pairwise (fun a b => b.last_time ≤ a.last_time)

/-- Index and recency order of every shard in lockstep, as the data model words it: the
nodes of a list are distinct elements, every key of the index points to exactly one node of
the list, that node holds the key, and every node is pointed to by exactly one key. -/
def Lockstep {V : Type} (m : LruCache V) : Prop :=
  ∀ i, i < m.shard →
    ((llOf m i).map entry.id).Nodup ∧
    (∀ k el, mapGet (cacheOf m i) k = some el →
      (∃ kv, kv ∈ llOf m i ∧ kv.id = el ∧ kv.key = k) ∧
      (∀ kv kv2, kv ∈ llOf m i → kv2 ∈ llOf m i → kv.id = el → kv2.id = el → kv = kv2)) ∧
    (∀ kv, kv ∈ llOf m i →
      (∃ k, mapGet (cacheOf m i) k = some kv.id) ∧
      (∀ k k2, mapGet (cacheOf m i) k = some kv.id → mapGet (cacheOf m i) k2 = some kv.id →
        k = k2))

/-- What every public operation keeps for one shard: element identities below the
allocator and distinct, an index without repeated keys whose entries point into the list of
the shard, and only keys that are routed to the shard. -/
def ShardOk {V : Type} (next shard i : Nat) (ll : List (entry V))
    (cache : List (String × Nat)) : Prop :=
  (∀ kv, kv ∈ ll → kv.id < next) ∧
  (ll.map entry.id).Nodup ∧
  (cache.map Prod.fst).Nodup ∧
  IndexInOrder ll cache ∧
  (∀ k el, mapGet cache k = some el → ChecksumIEEE k % shard = i)

/-- What every public operation keeps: the shape of the slices and `ShardOk` for every
shard. -/
structure WeakInv {V : Type} (m : LruCache V) : Prop where
  shard_pos : 0 < m.shard
  lls_len : m.lls.length = m.shard
  caches_len : m.caches.length = m.shard
  shards : ∀ i, ShardOk m.next m.shard i (llOf m i) (cacheOf m i)

/-- What `Add`, `Get` and `Remove` keep on top of `WeakInv`: every node is indexed and the
counter is the number of nodes. -/
structure Inv {V : Type} (m : LruCache V) : Prop where
  weak : WeakInv m
  order_in_index : ∀ i, OrderInIndex (llOf m i) (cacheOf m i)
  count_eq : m.count = (((m.lls.map List.length).sum : Nat) : Int)

/-- Every list is ordered by last use and no node was used after time `T`. -/
def TimeInv {V : Type} (T : Int) (m : LruCache V) : Prop :=
  ∀ i, SortedByTime (llOf m i) ∧ ∀ kv, kv ∈ llOf m i → kv.last_time ≤ T

/-! ## The last use of a key in a history -/

/-- The clock reading of the operation if it is an `Add` or a `Get` of `key`. -/
def Op.touch {V : Type} (key : String) : Op V → Option Int
  | Op.add k _ now _ => if k = key then some now else none
  | Op.get k now => if k = key then some now else none
  | Op.remove _ => none
  | Op.removeOldest _ _ _ _ => none
  | Op.clear => none

/-- The time of the last `Add` or `Get` of `key` in the history, if there is one. -/
def lastUse {V : Type} (ops : List (Op V)) (key : String) : Option Int :=
  (ops.filterMap (Op.touch key)).getLast?

/-! ## The last value of a key in a history -/

/-- The value of the operation if it is an `Add` of `key`. -/
def Op.addValue {V : Type} (key : String) : Op V → Option V
  | Op.add k v _ _ => if k = key then some v else none
  | Op.get _ _ => none
  | Op.remove _ => none
  | Op.removeOldest _ _ _ _ => none
  | Op.clear => none

/-- The value of the last `Add` of `key` in the history, if there is one. -/
def lastAdd {V : Type} (ops : List (Op V)) (key : String) : Option V :=
  (ops.filterMap (Op.addValue key)).getLast?

/-! ## A history longer than a `uint32` can count -/

/-- The key made of `i` letters `a`. -/
def bigKey (i : Nat) : String := String.mk (List.replicate i 'a')

/-- A history of `n` calls of `Add`, each with a key of its own. -/
def distinctAdds (n : Nat) : List (Op Nat) :=
  (List.range n).map (fun i => Op.add (bigKey i) i 0 (fun _ => 0))

/-! ## The history of `TestRemoveOldestOfTime` -/

/-- Thirteen keys `tk0 .. tk12` added at the times `0 .. 12`, then, after a pause, the keys
`tk3 .. tk12` added again at the times `300 .. 309`. -/
def testHistory : List (Op Nat) :=
  [Op.add "tk0" 0 0 (fun _ => 0), Op.add "tk1" 1 1 (fun _ => 0), Op.add "tk2" 2 2 (fun _ => 0),
   Op.add "tk3" 3 3 (fun _ => 0), Op.add "tk4" 4 4 (fun _ => 0), Op.add "tk5" 5 5 (fun _ => 0),
   Op.add "tk6" 6 6 (fun _ => 0), Op.add "tk7" 7 7 (fun _ => 0), Op.add "tk8" 8 8 (fun _ => 0),
   Op.add "tk9" 9 9 (fun _ => 0), Op.add "tk10" 10 10 (fun _ => 0),
   Op.add "tk11" 11 11 (fun _ => 0), Op.add "tk12" 12 12 (fun _ => 0),
   Op.add "tk3" 3 300 (fun _ => 0), Op.add "tk4" 4 301 (fun _ => 0),
   Op.add "tk5" 5 302 (fun _ => 0), Op.add "tk6" 6 303 (fun _ => 0),
   Op.add "tk7" 7 304 (fun _ => 0), Op.add "tk8" 8 305 (fun _ => 0),
   Op.add "tk9" 9 306 (fun _ => 0), Op.add "tk10" 10 307 (fun _ => 0),
   Op.add "tk11" 11 308 (fun _ => 0), Op.add "tk12" 12 309 (fun _ => 0)]

/-! ## Goroutines: the references that `getMM` reads before the lock

The operations above run one at a time.  Here the heap is explicit, so that a goroutine can
hold the map that `getMM` returned to it while another goroutine runs: a step is either the
call of `getMM` (line 75 or 102, before `mx.Lock()`) or a whole section between `mx.Lock()`
and `mx.Unlock()`, which the mutex of the shard makes atomic with respect to the other
sections of the shard. -/

/-- The heap of a cache: `lls[s]` lists the addresses of the elements of shard `s`, front
first (the slot `m.lls[s]` is never assigned after `New`); `caches[s]` is the address of the
map object in the slot `m.caches[s]`; `maps` are the map objects, from key to element
address; `els` are the element objects with their entries, `id` being the address. -/
structure Shared (V : Type) where
  count : Int
  max : Int
  shard : Nat
  lls : List (List Nat)
  caches : List Nat
  maps : List (List (String × Nat))
  els : List (entry V)
deriving DecidableEq

/-- `New(shard, max_entries)` on the heap: one list and one map object for every shard. -/
def NewShared {V : Type} (shard : Nat) (max_entries : Int) (numCPU : Nat) : Shared V :=
  let shard := if shard = 0 then numCPU else shard
  { count := 0
    max := max_entries
    shard := shard
    lls := List.replicate shard []
    caches := List.range shard
    maps := List.replicate shard []
    els := [] }

/-- `getMM(key)`: the index of the shard, which stands for its mutex and its list, and the
address of the map object that the slot `m.caches[i]` holds at the time of the call. -/
def getMMShared {V : Type} (m : Shared V) (key : String) : Nat × Nat :=
  (ChecksumIEEE key % m.shard, m.caches.getD (ChecksumIEEE key % m.shard) 0)

/-- `ll.MoveToFront(el)`: nothing happens when the element is not on the list. -/
def moveToFront (ll : List Nat) (el : Nat) : List Nat :=
  if el ∈ ll then el :: ll.erase el else ll

/-- The section of `Add(key, value)` between `mx.Lock()` and `mx.Unlock()`, run at time `now`
with the references `r` that `getMM` returned.  The call of `RemoveOldest` that follows the
section is made only when `m.max > 0`. -/
def AddLocked {V : Type} (m : Shared V) (r : Nat × Nat) (key : String) (value : V) (now : Int) :
    Shared V :=
  match mapGet (m.maps.getD r.2 []) key with
  | some el =>
    match m.els.get? el with
    | some kv =>
      { m with lls := m.lls.set r.1 (moveToFront (m.lls.getD r.1 []) el),
               els := m.els.set el (entry.mk kv.id now kv.key value) }
    | none => m
  | none =>
    { m with els := m.els ++ [entry.mk m.els.length now key value],
             lls := m.lls.set r.1 (m.els.length :: m.lls.getD r.1 []),
             maps := m.maps.set r.2 (mapSet (m.maps.getD r.2 []) key m.els.length),
             count := m.count + 1 }

/-- The section of `Get(key)` between `mx.Lock()` and `mx.Unlock()`, run at time `now` with
the references `r` that `getMM` returned: the new heap, the value and the flag `ok`. -/
def GetLocked {V : Type} (m : Shared V) (r : Nat × Nat) (key : String) (now : Int) :
    Shared V × Option V × Bool :=
  match mapGet (m.maps.getD r.2 []) key with
  | some el =>
    match m.els.get? el with
    | some kv =>
      ({ m with lls := m.lls.set r.1 (moveToFront (m.lls.getD r.1 []) el),
                els := m.els.set el (entry.mk kv.id now kv.key kv.value) }, some kv.value, true)
    | none => (m, none, true)
  | none => (m, none, false)

/-- The section of `Clear` for shard `s`: the counter drops by the length of the list, the
slot `m.caches[s]` receives a new, empty map object; `ll = list.New()` assigns the local
variable only. -/
def clearSharedShard {V : Type} (acc : Shared V × Int) (s : Nat) : Shared V × Int :=
  let m := acc.1
  let c : Int := (((m.lls.getD s []).length : Nat) : Int)
  ({ m with count := m.count - c,
            caches := m.caches.set s m.maps.length,
            maps := m.maps ++ [[]] }, acc.2 + c)

/-- `Clear()` run without another goroutine in between. -/
def ClearShared {V : Type} (m : Shared V) : Shared V × Int :=
  (List.range m.shard).foldl clearSharedShard (m, 0)

/-- The heap after `New(1, 0)` and a complete `Add("a", 1)` at time 0. -/
def raceAdded : Shared Nat :=
  AddLocked (NewShared 1 0 1) (getMMShared (NewShared 1 0 1 : Shared Nat) "a") "a" 1 0

/-- Goroutine G calls `Get("a")` and has run `getMM` only: the references it holds. -/
def raceRefs : Nat × Nat := getMMShared raceAdded "a"

/-- Another goroutine runs a complete `Clear()`. -/
def raceCleared : Shared Nat := (ClearShared raceAdded).1

/-- Another goroutine runs a complete `Add("a", 2)` at time 1. -/
def raceReadded : Shared Nat :=
  AddLocked raceCleared (getMMShared raceCleared "a") "a" 2 1


/-! ## Maps -/

theorem mapGet_delete_self (cache : List (String × Nat)) (k : String) :
    mapGet (mapDelete cache k) k = none := by
  induction cache with
  | nil => rfl
  | cons p rest ih =>
    obtain ⟨k1, e⟩ := p
    by_cases h : k1 = k
    · simpa [mapDelete, h] using ih
    · have : mapDelete ((k1, e) :: rest) k = (k1, e) :: mapDelete rest k := by
        simp [mapDelete, h]
      rw [this]; simp [mapGet, h, ih]

theorem mapGet_delete_ne (cache : List (String × Nat)) {k k2 : String} (h : k2 ≠ k) :
    mapGet (mapDelete cache k) k2 = mapGet cache k2 := by
  induction cache with
  | nil => rfl
  | cons p rest ih =>
    obtain ⟨k1, e⟩ := p
    by_cases h1 : k1 = k
    · have : mapDelete ((k1, e) :: rest) k = mapDelete rest k := by simp [mapDelete, h1]
      rw [this, ih]
      have : k1 ≠ k2 := by rw [h1]; exact fun h2 => h h2.symm
      simp [mapGet, this]
    · have : mapDelete ((k1, e) :: rest) k = (k1, e) :: mapDelete rest k := by
        simp [mapDelete, h1]
      rw [this]; simp [mapGet, ih]

theorem mapGet_set_self (cache : List (String × Nat)) (k : String) (el : Nat) :
    mapGet (mapSet cache k el) k = some el := by
  simp [mapSet, mapGet]

theorem mapGet_set_ne (cache : List (String × Nat)) {k k2 : String} (el : Nat) (h : k2 ≠ k) :
    mapGet (mapSet cache k el) k2 = mapGet cache k2 := by
  have h1 : k ≠ k2 := fun h2 => h h2.symm
  simp [mapSet, mapGet, h1, mapGet_delete_ne cache h]

theorem mapGet_some_mem {cache : List (String × Nat)} {k : String} {el : Nat}
    (h : mapGet cache k = some el) : (k, el) ∈ cache := by
  induction cache with
  | nil => simp [mapGet] at h
  | cons p rest ih =>
    obtain ⟨k1, e⟩ := p
    by_cases h1 : k1 = k
    · simp [mapGet, h1] at h; simp [h1, h]
    · simp [mapGet, h1] at h; exact List.mem_cons_of_mem _ (ih h)

theorem mapGet_none_iff (cache : List (String × Nat)) (k : String) :
    mapGet cache k = none ↔ k ∉ cache.map Prod.fst := by
  induction cache with
  | nil => simp [mapGet]
  | cons p rest ih =>
    obtain ⟨k1, e⟩ := p
    by_cases h1 : k1 = k
    · simp [mapGet, h1]
    · have h2 : ¬ k = k1 := fun h2 => h1 h2.symm
      simp [mapGet, h1, h2, ih]

theorem mapGet_of_mem_nodup {cache : List (String × Nat)} {k : String} {el : Nat}
    (hn : (cache.map Prod.fst).Nodup) (h : (k, el) ∈ cache) : mapGet cache k = some el := by
  induction cache with
  | nil => simp at h
  | cons p rest ih =>
    obtain ⟨k1, e⟩ := p
    simp only [List.map_cons, List.nodup_cons] at hn
    rcases List.mem_cons.1 h with h1 | h1
    · cases h1; simp [mapGet]
    · have : k1 ≠ k := by
        intro h2; apply hn.1; rw [h2]; exact List.mem_map_of_mem Prod.fst h1
      simp [mapGet, this, ih hn.2 h1]

theorem mapDelete_keys_nodup {cache : List (String × Nat)} (k : String)
    (hn : (cache.map Prod.fst).Nodup) : ((mapDelete cache k).map Prod.fst).Nodup := by
  unfold mapDelete
  exact (List.filter_sublist cache).map Prod.fst |>.nodup hn

theorem mapSet_keys_nodup {cache : List (String × Nat)} (k : String) (el : Nat)
    (hn : (cache.map Prod.fst).Nodup) : ((mapSet cache k el).map Prod.fst).Nodup := by
  unfold mapSet
  simp only [List.map_cons, List.nodup_cons]
  refine ⟨?_, mapDelete_keys_nodup k hn⟩
  rw [← mapGet_none_iff]; exact mapGet_delete_self cache k

/-! ## Lists of nodes -/

theorem findEl_some {V : Type} {ll : List (entry V)} {el : Nat} {kv : entry V}
    (h : findEl ll el = some kv) : kv ∈ ll ∧ kv.id = el := by
  unfold findEl at h
  exact ⟨List.mem_of_find?_eq_some h, by simpa using List.find?_some h⟩

theorem findEl_of_mem {V : Type} {ll : List (entry V)} {kv : entry V}
    (hn : (ll.map entry.id).Nodup) (h : kv ∈ ll) : findEl ll kv.id = some kv := by
  induction ll with
  | nil => simp at h
  | cons a rest ih =>
    simp only [List.map_cons, List.nodup_cons] at hn
    rcases List.mem_cons.1 h with h1 | h1
    · subst h1; simp [findEl]
    · have : a.id ≠ kv.id := by
        intro h2; apply hn.1; rw [h2]; exact List.mem_map_of_mem entry.id h1
      have ih1 := ih hn.2 h1
      unfold findEl at ih1 ⊢
      simp [List.find?_cons, this, ih1]

theorem findEl_none_iff {V : Type} (ll : List (entry V)) (el : Nat) :
    findEl ll el = none ↔ ∀ kv, kv ∈ ll → kv.id ≠ el := by
  unfold findEl; simp

theorem mem_listRemove {V : Type} {ll : List (entry V)} {el : Nat} {kv : entry V} :
    kv ∈ listRemove ll el ↔ kv ∈ ll ∧ kv.id ≠ el := by
  unfold listRemove; simp

theorem listRemove_sublist {V : Type} (ll : List (entry V)) (el : Nat) :
    (listRemove ll el).Sublist ll := List.filter_sublist ll

theorem listRemove_split {V : Type} {l1 l2 : List (entry V)} {kv : entry V}
    (hn : ((l1 ++ kv :: l2).map entry.id).Nodup) :
    listRemove (l1 ++ kv :: l2) kv.id = l1 ++ l2 := by
  have h1 : ∀ x ∈ l1, x.id ≠ kv.id := by
    intro x hx h
    rw [List.map_append, List.map_cons] at hn
    have := (List.nodup_append.1 hn).2.2
    exact this (List.mem_map_of_mem entry.id hx) (by rw [h]; exact List.mem_cons_self _ _)
  have h2 : ∀ x ∈ l2, x.id ≠ kv.id := by
    intro x hx h
    rw [List.map_append, List.map_cons] at hn
    have := ((List.nodup_append.1 hn).2.1)
    rw [List.nodup_cons] at this
    exact this.1 (by rw [← h]; exact List.mem_map_of_mem entry.id hx)
  unfold listRemove
  rw [List.filter_append, List.filter_cons]
  simp only [ne_eq, not_true_eq_false, decide_False, Bool.false_eq_true, ↓reduceIte]
  rw [List.filter_eq_self.2 (by simpa using h1), List.filter_eq_self.2 (by simpa using h2)]

theorem listRemove_length {V : Type} {ll : List (entry V)} {kv : entry V}
    (hn : (ll.map entry.id).Nodup) (h : kv ∈ ll) :
    (listRemove ll kv.id).length + 1 = ll.length := by
  obtain ⟨l1, l2, rfl⟩ := List.append_of_mem h
  rw [listRemove_split hn]; simp; omega


/-! ## Slices of shards -/

theorem getD_set_self {α : Type} (l : List α) (i : Nat) (x d : α) (h : i < l.length) :
    (l.set i x).getD i d = x := by
  simp [List.getD_eq_getElem?_getD, h]

theorem getD_set_ne {α : Type} (l : List α) {i j : Nat} (x d : α) (h : i ≠ j) :
    (l.set i x).getD j d = l.getD j d := by
  simp [List.getD_eq_getElem?_getD, List.getElem?_set_ne h]

theorem set_getD_self {α : Type} (l : List α) (i : Nat) (d : α) :
    l.set i (l.getD i d) = l := by
  apply List.ext_getElem?
  intro j
  by_cases h : i = j
  · subst h
    by_cases h2 : i < l.length
    · simp [List.getD_eq_getElem?_getD, h2]
    · simp [List.getElem?_eq_none (Nat.le_of_not_lt h2)]; omega
  · simp [List.getElem?_set_ne h]

theorem getD_of_le {α : Type} (l : List α) (i : Nat) (d : α) (h : l.length ≤ i) :
    l.getD i d = d := by
  simp [List.getD_eq_getElem?_getD, List.getElem?_eq_none h]

theorem sum_length_set {α : Type} (l : List (List α)) (i : Nat) (x : List α)
    (h : i < l.length) :
    ((l.set i x).map List.length).sum + (l.getD i []).length
      = (l.map List.length).sum + x.length := by
  induction l generalizing i with
  | nil => simp at h
  | cons a rest ih =>
    cases i with
    | zero => simp; omega
    | succ n =>
      have := ih n (by simpa using h)
      simp only [List.set_cons_succ, List.map_cons, List.sum_cons, List.getD_cons_succ]
      omega

/-! ## One shard under the steps of the operations -/

theorem getLast?_mem {α : Type} {l : List α} {a : α} (h : l.getLast? = some a) : a ∈ l :=
  List.mem_of_getLast?_eq_some h

theorem dropLast_append_getLast {α : Type} {l : List α} {a : α} (h : l.getLast? = some a) :
    l = l.dropLast ++ [a] := by
  have hne : l ≠ [] := by intro h0; simp [h0] at h
  have := List.dropLast_append_getLast hne
  rw [List.getLast?_eq_getLast l hne] at h
  simp only [Option.some.injEq] at h
  rw [h] at this; exact this.symm

theorem id_ne_of_mem_dropLast {V : Type} {ll : List (entry V)} {kv x : entry V}
    (hn : (ll.map entry.id).Nodup) (h : ll.getLast? = some kv) (hx : x ∈ ll.dropLast) :
    x.id ≠ kv.id := by
  have hs := dropLast_append_getLast h
  rw [hs, List.map_append] at hn
  intro he
  exact (List.nodup_append.1 hn).2.2 (List.mem_map_of_mem entry.id hx) (by simp [he])

theorem ShardOk.mono_next {V : Type} {n n2 s i : Nat} {ll : List (entry V)}
    {cache : List (String × Nat)} (h : ShardOk n s i ll cache) (hn : n ≤ n2) :
    ShardOk n2 s i ll cache :=
  ⟨fun kv hkv => Nat.lt_of_lt_of_le (h.1 kv hkv) hn, h.2⟩

theorem ShardOk.empty {V : Type} (n s i : Nat) : ShardOk n s i ([] : List (entry V)) [] :=
  ⟨by simp, by simp, by simp, by intro k el h; simp [mapGet] at h,
    by intro k el h; simp [mapGet] at h⟩

theorem ShardOk.clear {V : Type} {n s i : Nat} {ll : List (entry V)}
    {cache : List (String × Nat)} (h : ShardOk n s i ll cache) : ShardOk n s i ll [] :=
  ⟨h.1, h.2.1, by simp, by intro k el h; simp [mapGet] at h,
    by intro k el h; simp [mapGet] at h⟩

theorem ShardOk.removeBack_ok {V : Type} {n s i : Nat} {ll : List (entry V)}
    {cache : List (String × Nat)} {kv : entry V} (h : ShardOk n s i ll cache)
    (hb : ll.getLast? = some kv) : ShardOk n s i ll.dropLast (mapDelete cache kv.key) := by
  obtain ⟨h1, h2, h3, h4, h5⟩ := h
  have hsub : ll.dropLast.Sublist ll := List.dropLast_sublist ll
  refine ⟨fun x hx => h1 x (hsub.subset hx), (hsub.map entry.id).nodup h2,
    mapDelete_keys_nodup _ h3, ?_, ?_⟩
  · intro k el hk
    have hne : k ≠ kv.key := by
      intro he; rw [he, mapGet_delete_self] at hk; simp at hk
    rw [mapGet_delete_ne cache hne] at hk
    obtain ⟨x, hx, hid, hkey⟩ := h4 k el hk
    refine ⟨x, ?_, hid, hkey⟩
    have hs := dropLast_append_getLast hb
    rw [hs] at hx
    rcases List.mem_append.1 hx with hx1 | hx1
    · exact hx1
    · simp at hx1; rw [hx1] at hkey; exact absurd hkey.symm hne
  · intro k el hk
    have hne : k ≠ kv.key := by
      intro he; rw [he, mapGet_delete_self] at hk; simp at hk
    rw [mapGet_delete_ne cache hne] at hk
    exact h5 k el hk

theorem ShardOk.remove_ok {V : Type} {n s i : Nat} {ll : List (entry V)}
    {cache : List (String × Nat)} {k : String} {el : Nat} (h : ShardOk n s i ll cache)
    (hk : mapGet cache k = some el) : ShardOk n s i (listRemove ll el) (mapDelete cache k) := by
  obtain ⟨h1, h2, h3, h4, h5⟩ := h
  have hsub := listRemove_sublist ll el
  refine ⟨fun x hx => h1 x (hsub.subset hx), (hsub.map entry.id).nodup h2,
    mapDelete_keys_nodup _ h3, ?_, ?_⟩
  · intro k2 el2 hk2
    have hne : k2 ≠ k := by
      intro he; rw [he, mapGet_delete_self] at hk2; simp at hk2
    rw [mapGet_delete_ne cache hne] at hk2
    obtain ⟨x, hx, hid, hkey⟩ := h4 k2 el2 hk2
    refine ⟨x, mem_listRemove.2 ⟨hx, ?_⟩, hid, hkey⟩
    intro he
    obtain ⟨y, hy, hyid, hykey⟩ := h4 k el hk
    have hxy : findEl ll x.id = some x := findEl_of_mem h2 hx
    have hyy : findEl ll y.id = some y := findEl_of_mem h2 hy
    rw [he, ← hyid, hyy] at hxy
    simp only [Option.some.injEq] at hxy
    rw [← hxy, hykey] at hkey
    exact hne hkey.symm
  · intro k2 el2 hk2
    have hne : k2 ≠ k := by
      intro he; rw [he, mapGet_delete_self] at hk2; simp at hk2
    rw [mapGet_delete_ne cache hne] at hk2
    exact h5 k2 el2 hk2

theorem ShardOk.touch_ok {V : Type} {n s i : Nat} {ll : List (entry V)}
    {cache : List (String × Nat)} {el : Nat} {kv kv1 : entry V} (h : ShardOk n s i ll cache)
    (hf : findEl ll el = some kv) (hid : kv1.id = kv.id) (hkey : kv1.key = kv.key) :
    ShardOk n s i (kv1 :: listRemove ll el) cache := by
  obtain ⟨h1, h2, h3, h4, h5⟩ := h
  obtain ⟨hmem, hkid⟩ := findEl_some hf
  have hsub := listRemove_sublist ll el
  refine ⟨?_, ?_, h3, ?_, h5⟩
  · intro x hx
    rcases List.mem_cons.1 hx with hx1 | hx1
    · rw [hx1, hid]; exact h1 kv hmem
    · exact h1 x (hsub.subset hx1)
  · simp only [List.map_cons, List.nodup_cons]
    refine ⟨?_, (hsub.map entry.id).nodup h2⟩
    intro hc
    obtain ⟨x, hx, hxid⟩ := List.mem_map.1 hc
    have := (mem_listRemove.1 hx).2
    rw [hxid, hid, hkid] at this
    exact this rfl
  · intro k el2 hk
    obtain ⟨x, hx, hxid, hxkey⟩ := h4 k el2 hk
    by_cases he : x.id = el
    · have hxx : findEl ll x.id = some x := findEl_of_mem h2 hx
      rw [he, hf] at hxx
      simp only [Option.some.injEq] at hxx
      refine ⟨kv1, List.mem_cons_self _ _, ?_, ?_⟩
      · rw [hid, hxx]; exact hxid
      · rw [hkey, hxx]; exact hxkey
    · exact ⟨x, List.mem_cons_of_mem _ (mem_listRemove.2 ⟨hx, he⟩), hxid, hxkey⟩

theorem ShardOk.push_ok {V : Type} {n s i : Nat} {ll : List (entry V)}
    {cache : List (String × Nat)} {e : entry V} (h : ShardOk n s i ll cache)
    (hid : e.id = n) (hr : ChecksumIEEE e.key % s = i) :
    ShardOk (n + 1) s i (e :: ll) (mapSet cache e.key n) := by
  obtain ⟨h1, h2, h3, h4, h5⟩ := h
  refine ⟨?_, ?_, mapSet_keys_nodup _ _ h3, ?_, ?_⟩
  · intro x hx
    rcases List.mem_cons.1 hx with hx1 | hx1
    · rw [hx1, hid]; exact Nat.lt_succ_self n
    · exact Nat.lt_succ_of_lt (h1 x hx1)
  · simp only [List.map_cons, List.nodup_cons]
    refine ⟨?_, h2⟩
    intro hc
    obtain ⟨x, hx, hxid⟩ := List.mem_map.1 hc
    have := h1 x hx
    rw [hxid, hid] at this
    exact Nat.lt_irrefl _ this
  · intro k el hk
    by_cases hkk : k = e.key
    · rw [hkk, mapGet_set_self] at hk
      simp only [Option.some.injEq] at hk
      exact ⟨e, List.mem_cons_self _ _, by rw [hid, hk], hkk.symm⟩
    · rw [mapGet_set_ne cache n hkk] at hk
      obtain ⟨x, hx, hxid, hxkey⟩ := h4 k el hk
      exact ⟨x, List.mem_cons_of_mem _ hx, hxid, hxkey⟩
  · intro k el hk
    by_cases hkk : k = e.key
    · rw [hkk]; exact hr
    · rw [mapGet_set_ne cache n hkk] at hk
      exact h5 k el hk


/-! ## The branches of the operations -/

theorem Get_miss {V : Type} {m : LruCache V} {k : String} (now : Int)
    (hg : mapGet (cacheOf m (getMM m k)) k = none) : Get m k now = (m, none, false) := by
  simp only [Get, hg]

theorem Get_dangling {V : Type} {m : LruCache V} {k : String} {el : Nat} (now : Int)
    (hg : mapGet (cacheOf m (getMM m k)) k = some el)
    (hf : findEl (llOf m (getMM m k)) el = none) : Get m k now = (m, none, true) := by
  simp only [Get, hg, hf]

theorem Get_hit {V : Type} {m : LruCache V} {k : String} {el : Nat} {kv : entry V} (now : Int)
    (hg : mapGet (cacheOf m (getMM m k)) k = some el)
    (hf : findEl (llOf m (getMM m k)) el = some kv) :
    Get m k now =
      ({ m with
          lls := m.lls.set (getMM m k) (entry.mk kv.id now kv.key kv.value :: listRemove (llOf m (getMM m k)) el) },
        some kv.value, true) := by
  simp only [Get, hg, hf]

theorem Remove_miss {V : Type} {m : LruCache V} {k : String}
    (hg : mapGet (cacheOf m (getMM m k)) k = none) : Remove m k = m := by
  simp only [Remove, hg]

theorem Remove_hit {V : Type} {m : LruCache V} {k : String} {el : Nat}
    (hg : mapGet (cacheOf m (getMM m k)) k = some el) :
    Remove m k =
      { m with
        lls := m.lls.set (getMM m k) (listRemove (llOf m (getMM m k)) el),
        caches := m.caches.set (getMM m k) (mapDelete (cacheOf m (getMM m k)) k),
        count := m.count - 1 } := by
  simp only [Remove, hg]

theorem Add_dangling {V : Type} {m : LruCache V} {k : String} {el : Nat} (v : V) (now : Int)
    (rnd : Nat → Nat) (hg : mapGet (cacheOf m (getMM m k)) k = some el)
    (hf : findEl (llOf m (getMM m k)) el = none) : Add m k v now rnd = m := by
  simp only [Add, hg, hf]

theorem Add_hit {V : Type} {m : LruCache V} {k : String} {el : Nat} {kv : entry V} (v : V)
    (now : Int) (rnd : Nat → Nat) (hg : mapGet (cacheOf m (getMM m k)) k = some el)
    (hf : findEl (llOf m (getMM m k)) el = some kv) :
    Add m k v now rnd =
      { m with
        lls := m.lls.set (getMM m k) (entry.mk kv.id now kv.key v :: listRemove (llOf m (getMM m k)) el) } := by
  simp only [Add, hg, hf]

theorem Add_new {V : Type} {m : LruCache V} {k : String} (v : V) (now : Int) (rnd : Nat → Nat)
    (hg : mapGet (cacheOf m (getMM m k)) k = none) :
    Add m k v now rnd =
      if 0 < m.max ∧ m.max < m.count + 1 then
        (RemoveOldest (pushNew m (getMM m k) k v now) 0 1 now rnd).1
      else pushNew m (getMM m k) k v now := by
  simp only [Add, hg, pushNew]

/-! ## `WeakInv` holds in every reachable state -/

theorem llOf_of_set {V : Type} {m m2 : LruCache V} {i : Nat} {ll2 : List (entry V)}
    (hl : m2.lls = m.lls.set i ll2) (j : Nat) :
    llOf m2 j = if i = j ∧ i < m.lls.length then ll2 else llOf m j := by
  unfold llOf; rw [hl]
  by_cases h : i = j
  · subst h
    by_cases h2 : i < m.lls.length
    · simp [h2, getD_set_self]
    · rw [List.set_eq_of_length_le (Nat.le_of_not_lt h2)]; simp [h2]
  · simp [h, getD_set_ne]

theorem cacheOf_of_set {V : Type} {m m2 : LruCache V} {i : Nat} {c2 : List (String × Nat)}
    (hc : m2.caches = m.caches.set i c2) (j : Nat) :
    cacheOf m2 j = if i = j ∧ i < m.caches.length then c2 else cacheOf m j := by
  unfold cacheOf; rw [hc]
  by_cases h : i = j
  · subst h
    by_cases h2 : i < m.caches.length
    · simp [h2, getD_set_self]
    · rw [List.set_eq_of_length_le (Nat.le_of_not_lt h2)]; simp [h2]
  · simp [h, getD_set_ne]

theorem WeakInv.update_weak {V : Type} {m m2 : LruCache V} (h : WeakInv m) {i : Nat}
    {l : List (entry V)} {c : List (String × Nat)}
    (hs : m2.shard = m.shard) (hl : m2.lls = m.lls.set i l)
    (hc : m2.caches = m.caches.set i c) (hn : m.next ≤ m2.next)
    (hok : ShardOk m2.next m.shard i l c) : WeakInv m2 := by
  refine ⟨by rw [hs]; exact h.shard_pos, by rw [hl, hs]; simp [h.lls_len],
    by rw [hc, hs]; simp [h.caches_len], ?_⟩
  intro j
  rw [llOf_of_set hl, cacheOf_of_set hc, hs, h.lls_len, h.caches_len]
  by_cases hj : i = j ∧ i < m.shard
  · rw [if_pos hj, if_pos hj, ← hj.1]; exact hok
  · rw [if_neg hj, if_neg hj]; exact (h.shards j).mono_next hn

theorem llOf_eq_nil {V : Type} {m : LruCache V} (h : WeakInv m) {i : Nat} (hi : m.shard ≤ i) :
    llOf m i = [] := by
  unfold llOf; exact getD_of_le _ _ _ (by rw [h.lls_len]; exact hi)

theorem getMM_lt {V : Type} {m : LruCache V} (h : WeakInv m) (k : String) :
    getMM m k < m.shard := Nat.mod_lt _ h.shard_pos

theorem weakInv_New {V : Type} (shard : Nat) (max_entries : Int) (numCPU : Nat)
    (h : 0 < numCPU) : WeakInv (New shard max_entries numCPU : LruCache V) := by
  refine ⟨?_, by simp [New], by simp [New], ?_⟩
  · simp only [New]; split <;> omega
  · intro i
    have h1 : llOf (New shard max_entries numCPU : LruCache V) i = [] := by
      simp only [llOf, New, List.getD_eq_getElem?_getD, List.getElem?_replicate]
      split <;> split <;> rfl
    have h2 : cacheOf (New shard max_entries numCPU : LruCache V) i = [] := by
      simp only [cacheOf, New, List.getD_eq_getElem?_getD, List.getElem?_replicate]
      split <;> split <;> rfl
    rw [h1, h2]; exact ShardOk.empty _ _ _

theorem weakInv_Get {V : Type} {m : LruCache V} (h : WeakInv m) (k : String) (now : Int) :
    WeakInv (Get m k now).1 := by
  cases hg : mapGet (cacheOf m (getMM m k)) k with
  | none => rw [Get_miss now hg]; exact h
  | some el =>
    cases hf : findEl (llOf m (getMM m k)) el with
    | none => rw [Get_dangling now hg hf]; exact h
    | some kv =>
      rw [Get_hit now hg hf]
      refine h.update_weak (i := getMM m k) (c := cacheOf m (getMM m k)) rfl rfl ?_ (Nat.le_refl _) ?_
      · exact (set_getD_self m.caches (getMM m k) []).symm
      · exact (h.shards _).touch_ok hf rfl rfl

theorem weakInv_Remove {V : Type} {m : LruCache V} (h : WeakInv m) (k : String) :
    WeakInv (Remove m k) := by
  cases hg : mapGet (cacheOf m (getMM m k)) k with
  | none => rw [Remove_miss hg]; exact h
  | some el =>
    rw [Remove_hit hg]
    exact h.update_weak (i := getMM m k) rfl rfl rfl (Nat.le_refl _) ((h.shards _).remove_ok hg)

theorem weakInv_clearShard {V : Type} {acc : LruCache V × Int} (h : WeakInv acc.1) (s : Nat) :
    WeakInv (clearShard acc s).1 := by
  unfold clearShard
  refine h.update_weak (i := s) (l := llOf acc.1 s) rfl ?_ rfl (Nat.le_refl _) (h.shards s).clear
  exact (set_getD_self acc.1.lls s []).symm

theorem weakInv_foldl_clearShard {V : Type} (l : List Nat) {acc : LruCache V × Int}
    (h : WeakInv acc.1) : WeakInv (l.foldl clearShard acc).1 := by
  induction l generalizing acc with
  | nil => exact h
  | cons s rest ih => exact ih (weakInv_clearShard h s)

theorem weakInv_Clear {V : Type} {m : LruCache V} (h : WeakInv m) : WeakInv (Clear m).1 :=
  weakInv_foldl_clearShard _ h

theorem shardOk_sweepLoop {V : Type} (lifeline : Int) {n s i : Nat} (fuel : Nat)
    {ll : List (entry V)} {cache : List (String × Nat)} (c : Int)
    (h : ShardOk n s i ll cache) :
    ShardOk n s i (sweepLoop lifeline fuel ll cache c).1 (sweepLoop lifeline fuel ll cache c).2.1 := by
  induction fuel generalizing ll cache c with
  | zero => exact h
  | succ f ih =>
    unfold sweepLoop
    cases hb : ll.getLast? with
    | none => exact h
    | some kv =>
      by_cases ho : kv.last_time < lifeline
      · simp only [ho, if_true]; exact ih _ (h.removeBack_ok hb)
      · simp only [ho, if_false]; exact h

theorem weakInv_sweepShard {V : Type} (lifeline : Int) {acc : LruCache V × Int}
    (h : WeakInv acc.1) (s : Nat) : WeakInv (sweepShard lifeline acc s).1 := by
  unfold sweepShard
  exact h.update_weak (i := s) rfl rfl rfl (Nat.le_refl _) (shardOk_sweepLoop _ _ _ (h.shards s))

theorem weakInv_foldl_sweepShard {V : Type} (lifeline : Int) (l : List Nat)
    {acc : LruCache V × Int} (h : WeakInv acc.1) :
    WeakInv (l.foldl (sweepShard lifeline) acc).1 := by
  induction l generalizing acc with
  | nil => exact h
  | cons s rest ih => exact ih (weakInv_sweepShard lifeline h s)

theorem weakInv_removeBack {V : Type} {m : LruCache V} (h : WeakInv m) {s : Nat}
    {kv : entry V} (hb : (llOf m s).getLast? = some kv) : WeakInv (removeBack m s kv) :=
  h.update_weak (i := s) rfl rfl rfl (Nat.le_refl _) ((h.shards _).removeBack_ok hb)

theorem weakInv_pushNew {V : Type} {m : LruCache V} (h : WeakInv m) (k : String) (v : V)
    (now : Int) : WeakInv (pushNew m (getMM m k) k v now) :=
  h.update_weak (i := getMM m k) rfl rfl rfl (Nat.le_succ _)
    ((h.shards _).push_ok (e := entry.mk m.next now k v) rfl rfl)

theorem weakInv_sampleLoop {V : Type} (t lifeline max_count : Int) (rnd : Nat → Nat)
    (fuel loop : Nat) {m : LruCache V} (out : Int) (h : WeakInv m) :
    WeakInv (sampleLoop t lifeline max_count rnd fuel loop m out).1 := by
  induction fuel generalizing loop m out with
  | zero => exact h
  | succ f ih =>
    unfold sampleLoop
    by_cases ho : out < max_count
    · simp only [ho, if_true]
      cases hb : (llOf m (rnd loop % m.shard)).getLast? with
      | none => exact ih _ _ h
      | some kv =>
        by_cases hc : t ≤ 0 ∨ kv.last_time < lifeline
        · simp only [hc, if_true]
          exact ih _ _ (weakInv_removeBack h hb)
        · simp only [hc, if_false]; exact ih _ _ h
    · simp only [ho, if_false]; exact h

theorem weakInv_RemoveOldest {V : Type} {m : LruCache V} (h : WeakInv m)
    (t max_count now : Int) (rnd : Nat → Nat) :
    WeakInv (RemoveOldest m t max_count now rnd).1 := by
  unfold RemoveOldest
  by_cases h1 : max_count ≤ 0
  · by_cases h2 : t ≤ 0
    · simp only [h1, h2, if_true]; exact weakInv_Clear h
    · simp only [h1, h2, if_true, if_false]; exact weakInv_foldl_sweepShard _ _ h
  · by_cases h3 : m.count ≤ max_count
    · simp only [h1, h3, if_true, if_false]; exact weakInv_Clear h
    · simp only [h1, h3, if_false]; exact weakInv_sampleLoop _ _ _ _ _ _ _ h

theorem weakInv_Add {V : Type} {m : LruCache V} (h : WeakInv m) (k : String) (v : V)
    (now : Int) (rnd : Nat → Nat) : WeakInv (Add m k v now rnd) := by
  cases hg : mapGet (cacheOf m (getMM m k)) k with
  | some el =>
    cases hf : findEl (llOf m (getMM m k)) el with
    | none => rw [Add_dangling v now rnd hg hf]; exact h
    | some kv =>
      rw [Add_hit v now rnd hg hf]
      refine h.update_weak (i := getMM m k) (c := cacheOf m (getMM m k)) rfl rfl ?_ (Nat.le_refl _) ?_
      · exact (set_getD_self m.caches (getMM m k) []).symm
      · exact (h.shards _).touch_ok hf rfl rfl
  | none =>
    have hpush := weakInv_pushNew h k v now
    rw [Add_new v now rnd hg]
    split
    · exact weakInv_RemoveOldest hpush _ _ _ _
    · exact hpush

theorem weakInv_step {V : Type} {m : LruCache V} (h : WeakInv m) (op : Op V) :
    WeakInv (step m op) := by
  cases op with
  | add k v now rnd => exact weakInv_Add h k v now rnd
  | get k now => exact weakInv_Get h k now
  | remove k => exact weakInv_Remove h k
  | removeOldest t c now rnd => exact weakInv_RemoveOldest h t c now rnd
  | clear => exact weakInv_Clear h

theorem weakInv_run {V : Type} {m : LruCache V} (h : WeakInv m) (ops : List (Op V)) :
    WeakInv (run m ops) := by
  induction ops generalizing m with
  | nil => exact h
  | cons op rest ih => exact ih (weakInv_step h op)


/-! ## What `Get` returns -/

theorem Get_snd {V : Type} {m : LruCache V} (h : WeakInv m) (k : String) (now : Int) :
    (Get m k now).2 = match peek m k with
      | some kv => (some kv.value, true)
      | none => (none, false) := by
  unfold peek
  cases hg : mapGet (cacheOf m (getMM m k)) k with
  | none => rw [Get_miss now hg]
  | some el =>
    obtain ⟨kv, hkv, hid, _⟩ := (h.shards (getMM m k)).2.2.2.1 k el hg
    have hf : findEl (llOf m (getMM m k)) el = some kv := by
      rw [← hid]; exact findEl_of_mem (h.shards _).2.1 hkv
    rw [Get_hit now hg hf]; simp only [hf]

theorem peek_some {V : Type} {m : LruCache V} (h : WeakInv m) {k : String} {kv : entry V}
    (hp : peek m k = some kv) :
    kv ∈ llOf m (getMM m k) ∧ kv.key = k ∧ mapGet (cacheOf m (getMM m k)) k = some kv.id := by
  unfold peek at hp
  cases hg : mapGet (cacheOf m (getMM m k)) k with
  | none => rw [hg] at hp; simp at hp
  | some el =>
    rw [hg] at hp
    simp only at hp
    obtain ⟨hmem, hid⟩ := findEl_some hp
    obtain ⟨x, hx, hxid, hxkey⟩ := (h.shards (getMM m k)).2.2.2.1 k el hg
    have hx2 := findEl_of_mem (h.shards (getMM m k)).2.1 hx
    rw [hxid, hp] at hx2
    simp only [Option.some.injEq] at hx2
    rw [hx2]
    exact ⟨hx, hxkey, by rw [hxid]⟩

theorem peek_none {V : Type} {m : LruCache V} (h : WeakInv m) {k : String}
    (hp : peek m k = none) : mapGet (cacheOf m (getMM m k)) k = none := by
  unfold peek at hp
  cases hg : mapGet (cacheOf m (getMM m k)) k with
  | none => rfl
  | some el =>
    rw [hg] at hp
    simp only at hp
    obtain ⟨x, hx, hxid, _⟩ := (h.shards (getMM m k)).2.2.2.1 k el hg
    have := (findEl_none_iff _ _).1 hp x hx
    exact absurd hxid this

theorem peek_of_miss {V : Type} {m : LruCache V} {k : String}
    (hg : mapGet (cacheOf m (getMM m k)) k = none) : peek m k = none := by
  simp only [peek, hg]

theorem findEl_listRemove_ne {V : Type} (ll : List (entry V)) {el el2 : Nat} (h : el2 ≠ el) :
    findEl (listRemove ll el) el2 = findEl ll el2 := by
  induction ll with
  | nil => rfl
  | cons a rest ih =>
    unfold findEl listRemove at ih ⊢
    by_cases h1 : a.id = el
    · have h2 : a.id ≠ el2 := by rw [h1]; exact fun h3 => h h3.symm
      rw [List.filter_cons_of_neg (by simp [h1]), List.find?_cons_of_neg _ (by simp [h2])]
      exact ih
    · rw [List.filter_cons_of_pos (by simp [h1])]
      by_cases h2 : a.id = el2
      · rw [List.find?_cons_of_pos _ (by simp [h2]), List.find?_cons_of_pos _ (by simp [h2])]
      · rw [List.find?_cons_of_neg _ (by simp [h2]), List.find?_cons_of_neg _ (by simp [h2])]
        exact ih

theorem findEl_listRemove_self {V : Type} (ll : List (entry V)) (el : Nat) :
    findEl (listRemove ll el) el = none := by
  rw [findEl_none_iff]
  intro kv hkv
  exact (mem_listRemove.1 hkv).2

/-- The node found for a key after a state change that leaves the indexes alone and
replaces the list of shard `i`. -/
theorem peek_of_lls_set {V : Type} {m m2 : LruCache V} (h : WeakInv m) {i : Nat}
    {ll2 : List (entry V)} (hs : m2.shard = m.shard) (hl : m2.lls = m.lls.set i ll2)
    (hc : m2.caches = m.caches) (k : String) :
    peek m2 k = match mapGet (cacheOf m (getMM m k)) k with
      | some el => if getMM m k = i then findEl ll2 el else findEl (llOf m (getMM m k)) el
      | none => none := by
  have hmm : getMM m2 k = getMM m k := by unfold getMM; rw [hs]
  have hcc : cacheOf m2 (getMM m k) = cacheOf m (getMM m k) := by unfold cacheOf; rw [hc]
  unfold peek
  rw [hmm, hcc]
  cases hg : mapGet (cacheOf m (getMM m k)) k with
  | none => rfl
  | some el =>
    simp only
    rw [llOf_of_set hl, h.lls_len]
    by_cases hi : getMM m k = i
    · rw [if_pos hi, if_pos ⟨hi.symm, by rw [← hi]; exact getMM_lt h k⟩]
    · rw [if_neg hi, if_neg (fun hh => hi hh.1.symm)]


/-! ## Removing, clearing and re-adding a key -/

theorem weakInv_reach {V : Type} (shard : Nat) (max_entries : Int) (numCPU : Nat)
    (hcpu : 0 < numCPU) (ops : List (Op V)) :
    WeakInv (run (New shard max_entries numCPU) ops) :=
  weakInv_run (weakInv_New shard max_entries numCPU hcpu) ops

theorem Get_Remove_self {V : Type} {m : LruCache V} (h : WeakInv m) (k : String) (now : Int) :
    (Get (Remove m k) k now).2 = (none, false) := by
  cases hg : mapGet (cacheOf m (getMM m k)) k with
  | none => rw [Remove_miss hg, Get_miss now hg]
  | some el =>
    rw [Remove_hit hg]
    apply congrArg Prod.snd (Get_miss now _)
    show mapGet ((m.caches.set (getMM m k) (mapDelete (cacheOf m (getMM m k)) k)).getD
      (getMM m k) []) k = none
    rw [getD_set_self _ _ _ _ (by rw [h.caches_len]; exact getMM_lt h k)]
    exact mapGet_delete_self _ _

/-- C3: in every state reachable from `New` by public operations, `Remove(k)` followed by
`Get(k)` returns no value and `found = false`, whether or not `k` was stored before. -/
theorem remove_then_get_not_found {V : Type} (shard : Nat) (max_entries : Int) (numCPU : Nat)
    (hcpu : 0 < numCPU) (ops : List (Op V)) (k : String) (now : Int) :
    (Get (Remove (run (New shard max_entries numCPU) ops) k) k now).2 = (none, false) :=
  Get_Remove_self (weakInv_reach shard max_entries numCPU hcpu ops) k now

theorem remove_then_get_not_found_witness :
    0 < 4 ∧
    (Get (run (New 2 0 4) [Op.add "d" 7 10 (fun _ => 0), Op.add "a" 8 11 (fun _ => 0)])
      "a" 12).2 = (some 8, true) ∧
    (Get (Remove (run (New 2 0 4) [Op.add "d" 7 10 (fun _ => 0), Op.add "a" 8 11 (fun _ => 0)])
      "a") "a" 12).2 = (none, false) :=
  ⟨by decide, by decide,
    remove_then_get_not_found 2 0 4 (by decide)
      [Op.add "d" 7 10 (fun _ => 0), Op.add "a" 8 11 (fun _ => 0)] "a" 12⟩

/-- C4 (failing input): `New(1, 0)`, `Add("a", 1)`, `Clear()`, `Clear()`.  The first `Clear`
leaves the node of `"a"` on the list of shard 0, so the second one subtracts its length
again: `Len()` is `-1`, not `0`. -/
theorem clear_twice_len_negative :
    Len (Clear (Clear (Add (New 1 0 1 : LruCache Nat) "a" 1 0 (fun _ => 0))).1).1 = -1 ∧
    llOf (Clear (Add (New 1 0 1 : LruCache Nat) "a" 1 0 (fun _ => 0))).1 0
      = [entry.mk 0 0 "a" 1] ∧
    cacheOf (Clear (Add (New 1 0 1 : LruCache Nat) "a" 1 0 (fun _ => 0))).1 0 = [] := by
  decide

/-- C6 (failing input): after `New(1, 0)`, `Add("a", 1)`, `Clear()` the list of shard 0 still
holds the node of `"a"` while the index of shard 0 is empty: index and order are not in
lockstep. -/
theorem clear_breaks_lockstep :
    ¬ Lockstep (run (New 1 0 1 : LruCache Nat) [Op.add "a" 1 0 (fun _ => 0), Op.clear]) := by
  intro h
  have h0 := (h 0 (by decide)).2.2 (entry.mk 0 0 "a" 1) (by decide)
  obtain ⟨k, hk⟩ := h0.1
  have hc : cacheOf (run (New 1 0 1 : LruCache Nat) [Op.add "a" 1 0 (fun _ => 0), Op.clear]) 0
      = [] := by decide
  rw [hc] at hk
  simp [mapGet] at hk

/-- C9 (failing input): `New(1, 0)`, `Add("a", 1)` at time 100, then `RemoveOldest(50, 1)` at
time 100.  The key was used at the cutoff `100 - 50` or later, yet `max_count >= count` sends
the call to `Clear()`, which removes it: the call returns 1 and `Get("a")` finds nothing. -/
theorem removeOldest_bounded_removes_fresh :
    (RemoveOldest (Add (New 1 0 1 : LruCache Nat) "a" 1 100 (fun _ => 0)) 50 1 100
      (fun _ => 0)).2 = 1 ∧
    peek (Add (New 1 0 1 : LruCache Nat) "a" 1 100 (fun _ => 0)) "a"
      = some (entry.mk 0 100 "a" 1) ∧
    (Get (RemoveOldest (Add (New 1 0 1 : LruCache Nat) "a" 1 100 (fun _ => 0)) 50 1 100
      (fun _ => 0)).1 "a" 101).2 = (none, false) := by
  decide


/-! ## `Add` of a key that is stored -/

theorem findEl_cons_self {V : Type} (kv : entry V) (ll : List (entry V)) :
    findEl (kv :: ll) kv.id = some kv := by
  unfold findEl; exact List.find?_cons_of_pos _ (by simp)

theorem findEl_cons_ne {V : Type} {kv : entry V} (ll : List (entry V)) {el : Nat}
    (h : kv.id ≠ el) : findEl (kv :: ll) el = findEl ll el := by
  unfold findEl; exact List.find?_cons_of_neg _ (by simp [h])

/-- The node found for a key after the node `kv` of key `k` was moved to the front of its
list as `kv1`. -/
theorem peek_touch {V : Type} {m m2 : LruCache V} (h : WeakInv m) {k : String}
    {kv kv1 : entry V} (hp : peek m k = some kv) (hid : kv1.id = kv.id)
    (hs : m2.shard = m.shard)
    (hl : m2.lls = m.lls.set (getMM m k) (kv1 :: listRemove (llOf m (getMM m k)) kv.id))
    (hc : m2.caches = m.caches) (k2 : String) :
    peek m2 k2 = if k2 = k then some kv1 else peek m k2 := by
  obtain ⟨hmem, hkey, hg⟩ := peek_some h hp
  rw [peek_of_lls_set h hs hl hc k2]
  by_cases hk : k2 = k
  · subst hk
    rw [if_pos rfl, hg]
    simp only [if_true]
    rw [← hid]; exact findEl_cons_self _ _
  · rw [if_neg hk]
    unfold peek
    cases hg2 : mapGet (cacheOf m (getMM m k2)) k2 with
    | none => rfl
    | some el =>
      simp only
      by_cases hi : getMM m k2 = getMM m k
      · rw [if_pos hi]
        have hne : el ≠ kv.id := by
          intro he
          obtain ⟨x, hx, hxid, hxkey⟩ := (h.shards (getMM m k2)).2.2.2.1 k2 el hg2
          rw [hi] at hx
          have h1 := findEl_of_mem (h.shards (getMM m k)).2.1 hx
          have h2 := findEl_of_mem (h.shards (getMM m k)).2.1 hmem
          rw [hxid, he, h2] at h1
          simp only [Option.some.injEq] at h1
          rw [← h1, hkey] at hxkey
          exact hk hxkey.symm
        rw [findEl_cons_ne _ (by rw [hid]; exact fun h3 => hne h3.symm),
          findEl_listRemove_ne _ hne, hi]
      · rw [if_neg hi]

theorem Add_present {V : Type} {m : LruCache V} (h : WeakInv m) {k : String} (v2 : V)
    (now : Int) (rnd : Nat → Nat) (t0 : Int) (hk : (Get m k t0).2.2 = true) :
    Len (Add m k v2 now rnd) = Len m ∧
    (Add m k v2 now rnd).caches = m.caches ∧
    (∀ k2 t, (Get (Add m k v2 now rnd) k2 t).2.2 = (Get m k2 t).2.2) ∧
    (∀ k2 t, k2 ≠ k → (Get (Add m k v2 now rnd) k2 t).2 = (Get m k2 t).2) ∧
    (∀ t, (Get (Add m k v2 now rnd) k t).2 = (some v2, true)) ∧
    (∃ l1 kv l2, llOf m (getMM m k) = l1 ++ kv :: l2 ∧ kv.key = k ∧
      llOf (Add m k v2 now rnd) (getMM m k) = entry.mk kv.id now k v2 :: (l1 ++ l2)) ∧
    (∀ j, j ≠ getMM m k → llOf (Add m k v2 now rnd) j = llOf m j) := by
  have h2 := weakInv_Add h k v2 now rnd
  rw [Get_snd h] at hk
  cases hp : peek m k with
  | none => rw [hp] at hk; simp at hk
  | some kv =>
    obtain ⟨hmem, hkey, hg⟩ := peek_some h hp
    have hf := findEl_of_mem (h.shards (getMM m k)).2.1 hmem
    have hadd := Add_hit v2 now rnd hg hf
    have hpk : ∀ k2, peek (Add m k v2 now rnd) k2
        = if k2 = k then some (entry.mk kv.id now kv.key v2) else peek m k2 := by
      intro k2
      exact @peek_touch V m (Add m k v2 now rnd) h k kv (entry.mk kv.id now kv.key v2) hp rfl
        (by rw [hadd]) (by rw [hadd]) (by rw [hadd]) k2
    refine ⟨by rw [hadd]; rfl, by rw [hadd], ?_, ?_, ?_, ?_, ?_⟩
    · intro k2 t
      rw [Get_snd h2, Get_snd h, hpk]
      by_cases hk2 : k2 = k
      · rw [if_pos hk2, hk2, hp]
      · rw [if_neg hk2]
    · intro k2 t hk2
      rw [Get_snd h2, Get_snd h, hpk, if_neg hk2]
    · intro t
      rw [Get_snd h2, hpk, if_pos rfl]
    · obtain ⟨l1, l2, hsplit⟩ := List.append_of_mem hmem
      refine ⟨l1, kv, l2, hsplit, hkey, ?_⟩
      rw [llOf_of_set (by rw [hadd]), if_pos ⟨rfl, by rw [h.lls_len]; exact getMM_lt h k⟩,
        hkey, hsplit]
      rw [listRemove_split (by rw [← hsplit]; exact (h.shards (getMM m k)).2.1)]
    · intro j hj
      rw [llOf_of_set (by rw [hadd]), if_neg (fun hh => hj hh.1.symm)]

/-- C10: in every state reachable from `New` by public operations, `Add(k, v2)` of a key
that is stored (`Get(k)` finds it) leaves `Len()` and every index unchanged, so the same keys
are found afterwards; every other key keeps its value; `Get(k)` returns `(v2, true)`; the
node of `k` is the front of the list of its shard with the other nodes behind it in their
old order; the lists of the other shards are unchanged. -/
theorem add_present_key_frame {V : Type} (shard : Nat) (max_entries : Int) (numCPU : Nat)
    (hcpu : 0 < numCPU) (ops : List (Op V)) (k : String) (v2 : V) (now : Int)
    (rnd : Nat → Nat) (t0 : Int)
    (hk : (Get (run (New shard max_entries numCPU) ops) k t0).2.2 = true) :
    Len (Add (run (New shard max_entries numCPU) ops) k v2 now rnd)
      = Len (run (New shard max_entries numCPU) ops) ∧
    (Add (run (New shard max_entries numCPU) ops) k v2 now rnd).caches
      = (run (New shard max_entries numCPU) ops).caches ∧
    (∀ k2 t, (Get (Add (run (New shard max_entries numCPU) ops) k v2 now rnd) k2 t).2.2
      = (Get (run (New shard max_entries numCPU) ops) k2 t).2.2) ∧
    (∀ k2 t, k2 ≠ k → (Get (Add (run (New shard max_entries numCPU) ops) k v2 now rnd) k2 t).2
      = (Get (run (New shard max_entries numCPU) ops) k2 t).2) ∧
    (∀ t, (Get (Add (run (New shard max_entries numCPU) ops) k v2 now rnd) k t).2
      = (some v2, true)) ∧
    (∃ l1 kv l2,
      llOf (run (New shard max_entries numCPU) ops)
        (getMM (run (New shard max_entries numCPU) ops) k) = l1 ++ kv :: l2 ∧
      kv.key = k ∧
      llOf (Add (run (New shard max_entries numCPU) ops) k v2 now rnd)
        (getMM (run (New shard max_entries numCPU) ops) k)
          = entry.mk kv.id now k v2 :: (l1 ++ l2)) ∧
    (∀ j, j ≠ getMM (run (New shard max_entries numCPU) ops) k →
      llOf (Add (run (New shard max_entries numCPU) ops) k v2 now rnd) j
        = llOf (run (New shard max_entries numCPU) ops) j) :=
  Add_present (weakInv_reach shard max_entries numCPU hcpu ops) v2 now rnd t0 hk

theorem add_present_key_frame_witness :
    llOf (run (New 1 2 1 : LruCache Nat)
        [Op.add "a" 1 10 (fun _ => 0), Op.add "b" 2 11 (fun _ => 0)]) 0
      = [entry.mk 1 11 "b" 2, entry.mk 0 10 "a" 1] ∧
    llOf (Add (run (New 1 2 1 : LruCache Nat)
        [Op.add "a" 1 10 (fun _ => 0), Op.add "b" 2 11 (fun _ => 0)]) "a" 5 12 (fun _ => 0)) 0
      = [entry.mk 0 12 "a" 5, entry.mk 1 11 "b" 2] ∧
    (Get (Add (run (New 1 2 1 : LruCache Nat)
        [Op.add "a" 1 10 (fun _ => 0), Op.add "b" 2 11 (fun _ => 0)]) "a" 5 12 (fun _ => 0))
        "a" 13).2 = (some 5, true) :=
  ⟨by decide, by decide,
    (add_present_key_frame 1 2 1 (by decide)
      [Op.add "a" 1 10 (fun _ => 0), Op.add "b" 2 11 (fun _ => 0)] "a" 5 12 (fun _ => 0) 0
      (by decide)).2.2.2.2.1 13⟩


/-! ## `Inv` holds along histories of `Add`, `Get` and `Remove` -/

theorem OrderInIndex.push_indexed {V : Type} {ll : List (entry V)} {cache : List (String × Nat)}
    {e : entry V} (h : OrderInIndex ll cache) (hk : mapGet cache e.key = none) :
    OrderInIndex (e :: ll) (mapSet cache e.key e.id) := by
  intro x hx
  rcases List.mem_cons.1 hx with hx1 | hx1
  · rw [hx1]; exact mapGet_set_self _ _ _
  · have hne : x.key ≠ e.key := by
      intro he; have := h x hx1; rw [he, hk] at this; simp at this
    rw [mapGet_set_ne _ _ hne]; exact h x hx1

theorem OrderInIndex.touch_indexed {V : Type} {ll : List (entry V)} {cache : List (String × Nat)}
    {el : Nat} {kv kv1 : entry V} (h : OrderInIndex ll cache)
    (hf : findEl ll el = some kv) (hid : kv1.id = kv.id) (hkey : kv1.key = kv.key) :
    OrderInIndex (kv1 :: listRemove ll el) cache := by
  intro x hx
  rcases List.mem_cons.1 hx with hx1 | hx1
  · rw [hx1, hid, hkey]; exact h kv (findEl_some hf).1
  · exact h x (mem_listRemove.1 hx1).1

theorem OrderInIndex.remove_indexed {V : Type} {ll : List (entry V)} {cache : List (String × Nat)}
    {k : String} {el : Nat} (h : OrderInIndex ll cache) (hk : mapGet cache k = some el) :
    OrderInIndex (listRemove ll el) (mapDelete cache k) := by
  intro x hx
  obtain ⟨hx1, hx2⟩ := mem_listRemove.1 hx
  have hne : x.key ≠ k := by
    intro he; have := h x hx1; rw [he, hk] at this
    simp only [Option.some.injEq] at this; exact hx2 this.symm
  rw [mapGet_delete_ne _ hne]; exact h x hx1

theorem OrderInIndex.removeBack_indexed {V : Type} {ll : List (entry V)}
    {cache : List (String × Nat)} {kv : entry V} (h : OrderInIndex ll cache)
    (hn : (ll.map entry.id).Nodup) (hb : ll.getLast? = some kv) :
    OrderInIndex ll.dropLast (mapDelete cache kv.key) := by
  intro x hx
  have hx1 : x ∈ ll := (List.dropLast_sublist ll).subset hx
  have hne : x.key ≠ kv.key := by
    intro he
    have h1 := h x hx1
    have h2 := h kv (getLast?_mem hb)
    rw [he, h2] at h1
    simp only [Option.some.injEq] at h1
    exact id_ne_of_mem_dropLast hn hb hx h1.symm
  rw [mapGet_delete_ne _ hne]; exact h x hx1

theorem Inv.update_inv {V : Type} {m m2 : LruCache V} (h : Inv m) {i : Nat}
    {l : List (entry V)} {c : List (String × Nat)} (hi : i < m.shard)
    (hs : m2.shard = m.shard) (hl : m2.lls = m.lls.set i l)
    (hc : m2.caches = m.caches.set i c) (hn : m.next ≤ m2.next)
    (hok : ShardOk m2.next m.shard i l c) (hoi : OrderInIndex l c)
    (hcount : m2.count + ((llOf m i).length : Int) = m.count + (l.length : Int)) : Inv m2 := by
  refine ⟨h.weak.update_weak hs hl hc hn hok, ?_, ?_⟩
  · intro j
    rw [llOf_of_set hl, cacheOf_of_set hc, h.weak.lls_len, h.weak.caches_len]
    by_cases hj : i = j ∧ i < m.shard
    · rw [if_pos hj, if_pos hj]; exact hoi
    · rw [if_neg hj, if_neg hj]; exact h.order_in_index j
  · have hsum := sum_length_set m.lls i l (by rw [h.weak.lls_len]; exact hi)
    rw [hl]
    have hcnt := h.count_eq
    unfold llOf at hcount
    omega

theorem inv_New {V : Type} (shard : Nat) (max_entries : Int) (numCPU : Nat)
    (h : 0 < numCPU) : Inv (New shard max_entries numCPU : LruCache V) := by
  have hw := weakInv_New (V := V) shard max_entries numCPU h
  refine ⟨hw, ?_, ?_⟩
  · intro i kv hkv
    have h1 : llOf (New shard max_entries numCPU : LruCache V) i = [] := by
      simp only [llOf, New, List.getD_eq_getElem?_getD, List.getElem?_replicate]
      split <;> split <;> rfl
    rw [h1] at hkv; simp at hkv
  · simp [New]

theorem inv_Get {V : Type} {m : LruCache V} (h : Inv m) (k : String) (now : Int) :
    Inv (Get m k now).1 := by
  cases hg : mapGet (cacheOf m (getMM m k)) k with
  | none => rw [Get_miss now hg]; exact h
  | some el =>
    cases hf : findEl (llOf m (getMM m k)) el with
    | none => rw [Get_dangling now hg hf]; exact h
    | some kv =>
      rw [Get_hit now hg hf]
      have hlen := listRemove_length (h.weak.shards (getMM m k)).2.1 (findEl_some hf).1
      rw [(findEl_some hf).2] at hlen
      refine h.update_inv (i := getMM m k) (c := cacheOf m (getMM m k)) (getMM_lt h.weak k)
        rfl rfl ?_ (Nat.le_refl _) ?_ ?_ ?_
      · exact (set_getD_self m.caches (getMM m k) []).symm
      · exact (h.weak.shards _).touch_ok hf rfl rfl
      · exact (h.order_in_index _).touch_indexed hf rfl rfl
      · simp only [List.length_cons]; omega

theorem inv_Remove {V : Type} {m : LruCache V} (h : Inv m) (k : String) :
    Inv (Remove m k) := by
  cases hg : mapGet (cacheOf m (getMM m k)) k with
  | none => rw [Remove_miss hg]; exact h
  | some el =>
    rw [Remove_hit hg]
    obtain ⟨kv, hkv, hid, _⟩ := (h.weak.shards (getMM m k)).2.2.2.1 k el hg
    have hlen := listRemove_length (h.weak.shards (getMM m k)).2.1 hkv
    rw [hid] at hlen
    refine h.update_inv (i := getMM m k) (getMM_lt h.weak k) rfl rfl rfl (Nat.le_refl _)
      ((h.weak.shards _).remove_ok hg) ((h.order_in_index _).remove_indexed hg) ?_
    simp only; omega

theorem inv_pushNew {V : Type} {m : LruCache V} (h : Inv m) (k : String) (v : V) (now : Int)
    (hg : mapGet (cacheOf m (getMM m k)) k = none) : Inv (pushNew m (getMM m k) k v now) := by
  refine h.update_inv (i := getMM m k) (getMM_lt h.weak k) rfl rfl rfl (Nat.le_succ _)
    ((h.weak.shards _).push_ok (e := entry.mk m.next now k v) rfl rfl)
    ((h.order_in_index _).push_indexed (e := entry.mk m.next now k v) hg) ?_
  simp only [pushNew, List.length_cons]; omega

theorem getLast?_lt_shard {V : Type} {m : LruCache V} (h : WeakInv m) {s : Nat} {kv : entry V}
    (hb : (llOf m s).getLast? = some kv) : s < m.shard := by
  by_contra hs
  rw [llOf_eq_nil h (Nat.le_of_not_lt hs)] at hb
  simp at hb

theorem inv_removeBack {V : Type} {m : LruCache V} (h : Inv m) {s : Nat} {kv : entry V}
    (hb : (llOf m s).getLast? = some kv) : Inv (removeBack m s kv) := by
  have hlen : (llOf m s).dropLast.length + 1 = (llOf m s).length := by
    have := dropLast_append_getLast hb
    conv_rhs => rw [this]
    simp
  refine h.update_inv (i := s) (getLast?_lt_shard h.weak hb) rfl rfl rfl (Nat.le_refl _)
    ((h.weak.shards _).removeBack_ok hb)
    ((h.order_in_index _).removeBack_indexed (h.weak.shards s).2.1 hb) ?_
  simp only [removeBack]; omega

theorem inv_sampleLoop {V : Type} (t lifeline max_count : Int) (rnd : Nat → Nat)
    (fuel loop : Nat) {m : LruCache V} (out : Int) (h : Inv m) :
    Inv (sampleLoop t lifeline max_count rnd fuel loop m out).1 := by
  induction fuel generalizing loop m out with
  | zero => exact h
  | succ f ih =>
    unfold sampleLoop
    by_cases ho : out < max_count
    · simp only [ho, if_true]
      cases hb : (llOf m (rnd loop % m.shard)).getLast? with
      | none => exact ih _ _ h
      | some kv =>
        by_cases hc : t ≤ 0 ∨ kv.last_time < lifeline
        · simp only [hc, if_true]; exact ih _ _ (inv_removeBack h hb)
        · simp only [hc, if_false]; exact ih _ _ h
    · simp only [ho, if_false]; exact h

/-- The eviction that `Add` runs never takes the `Clear` branch of `RemoveOldest`. -/
theorem RemoveOldest_evict {V : Type} (m : LruCache V) (now : Int) (rnd : Nat → Nat)
    (h : 1 < m.count) :
    RemoveOldest m 0 1 now rnd
      = sampleLoop 0 (now - 0) 1 rnd (if maxLoopOf 1 < m.shard then m.shard else maxLoopOf 1)
          0 m 0 := by
  unfold RemoveOldest
  have h1 : ¬ ((1 : Int) ≤ 0) := by decide
  have h2 : ¬ (m.count ≤ 1) := by omega
  simp only [h1, h2, if_false]

theorem inv_Add {V : Type} {m : LruCache V} (h : Inv m) (k : String) (v : V)
    (now : Int) (rnd : Nat → Nat) : Inv (Add m k v now rnd) := by
  cases hg : mapGet (cacheOf m (getMM m k)) k with
  | some el =>
    cases hf : findEl (llOf m (getMM m k)) el with
    | none => rw [Add_dangling v now rnd hg hf]; exact h
    | some kv =>
      rw [Add_hit v now rnd hg hf]
      have hlen := listRemove_length (h.weak.shards (getMM m k)).2.1 (findEl_some hf).1
      rw [(findEl_some hf).2] at hlen
      refine h.update_inv (i := getMM m k) (c := cacheOf m (getMM m k)) (getMM_lt h.weak k)
        rfl rfl ?_ (Nat.le_refl _) ?_ ?_ ?_
      · exact (set_getD_self m.caches (getMM m k) []).symm
      · exact (h.weak.shards _).touch_ok hf rfl rfl
      · exact (h.order_in_index _).touch_indexed hf rfl rfl
      · simp only [List.length_cons]; omega
  | none =>
    have hpush := inv_pushNew h k v now hg
    rw [Add_new v now rnd hg]
    split
    · rename_i hmax
      rw [RemoveOldest_evict _ _ _ (by simp only [pushNew]; omega)]
      exact inv_sampleLoop _ _ _ _ _ _ _ hpush
    · exact hpush

theorem inv_run {V : Type} {m : LruCache V} (h : Inv m) (ops : List (Op V))
    (hb : ops.all Op.basic = true) : Inv (run m ops) := by
  induction ops generalizing m with
  | nil => exact h
  | cons op rest ih =>
    simp only [List.all_cons, Bool.and_eq_true] at hb
    apply ih _ hb.2
    cases op with
    | add k v now rnd => exact inv_Add h k v now rnd
    | get k now => exact inv_Get h k now
    | remove k => exact inv_Remove h k
    | removeOldest t c now rnd => simp [Op.basic] at hb
    | clear => simp [Op.basic] at hb

theorem inv_built {V : Type} (shard : Nat) (max_entries : Int) (numCPU : Nat)
    (hcpu : 0 < numCPU) (ops : List (Op V)) (hb : ops.all Op.basic = true) :
    Inv (run (New shard max_entries numCPU) ops) :=
  inv_run (inv_New shard max_entries numCPU hcpu) ops hb


/-! ## The eviction of one entry -/

theorem sampleLoop_done {V : Type} (t lifeline max_count : Int) (rnd : Nat → Nat)
    (fuel loop : Nat) (m : LruCache V) (out : Int) (h : ¬ out < max_count) :
    sampleLoop t lifeline max_count rnd fuel loop m out = (m, out) := by
  cases fuel with
  | zero => rfl
  | succ f => unfold sampleLoop; simp only [h, if_false]

/-- With `t = 0` and `max_count = 1` the sampling loop either finds only empty shards and
changes nothing, or removes the back node of the first non-empty shard it samples. -/
theorem sampleLoop_one {V : Type} (lifeline : Int) (rnd : Nat → Nat) (fuel loop : Nat)
    (m : LruCache V) :
    sampleLoop 0 lifeline 1 rnd fuel loop m 0 = (m, 0) ∨
    ∃ j kv, (llOf m (rnd j % m.shard)).getLast? = some kv ∧
      sampleLoop 0 lifeline 1 rnd fuel loop m 0 = (removeBack m (rnd j % m.shard) kv, 1) := by
  induction fuel generalizing loop with
  | zero => left; rfl
  | succ f ih =>
    unfold sampleLoop
    have h01 : (0 : Int) < 1 := by decide
    simp only [h01, if_true]
    cases hb : (llOf m (rnd loop % m.shard)).getLast? with
    | none => exact ih (loop + 1)
    | some kv =>
      right
      refine ⟨loop, kv, hb, ?_⟩
      have h00 : ((0 : Int) ≤ 0 ∨ kv.last_time < lifeline) := Or.inl (le_refl _)
      simp only [h00, if_true]
      exact sampleLoop_done _ _ _ _ _ _ _ _ (by decide)

/-- The sampling loop with `t = 0`, `max_count = 1` and at least one round removes the back
node of the shard sampled first when that shard is not empty. -/
theorem sampleLoop_one_hit {V : Type} (lifeline : Int) (rnd : Nat → Nat) (fuel loop : Nat)
    (m : LruCache V) {kv : entry V} (hb : (llOf m (rnd loop % m.shard)).getLast? = some kv) :
    sampleLoop 0 lifeline 1 rnd (fuel + 1) loop m 0
      = (removeBack m (rnd loop % m.shard) kv, 1) := by
  unfold sampleLoop
  have h01 : (0 : Int) < 1 := by decide
  have h00 : ((0 : Int) ≤ 0 ∨ kv.last_time < lifeline) := Or.inl (le_refl _)
  simp only [h01, if_true, hb, h00]
  exact sampleLoop_done _ _ _ _ _ _ _ _ (by decide)

theorem maxLoopOf_one : maxLoopOf 1 = 1 := by decide

/-! ## The node found for a key after a step -/

theorem peek_of_set {V : Type} {m m2 : LruCache V} (h : WeakInv m) {s : Nat}
    {l : List (entry V)} {c : List (String × Nat)} (hlt : s < m.shard)
    (hs : m2.shard = m.shard) (hl : m2.lls = m.lls.set s l)
    (hc : m2.caches = m.caches.set s c) (k : String) :
    peek m2 k = if getMM m k = s then
        (match mapGet c k with
          | some el => findEl l el
          | none => none)
      else peek m k := by
  have hmm : getMM m2 k = getMM m k := by unfold getMM; rw [hs]
  unfold peek
  rw [hmm, llOf_of_set hl, cacheOf_of_set hc, h.lls_len, h.caches_len]
  by_cases hi : getMM m k = s
  · rw [if_pos hi, if_pos ⟨hi.symm, hlt⟩, if_pos ⟨hi.symm, hlt⟩]
  · rw [if_neg hi, if_neg (fun hh => hi hh.1.symm), if_neg (fun hh => hi hh.1.symm)]

theorem peek_pushNew {V : Type} {m : LruCache V} (h : WeakInv m) {k : String} (v : V)
    (now : Int) (hg : mapGet (cacheOf m (getMM m k)) k = none) (k2 : String) :
    peek (pushNew m (getMM m k) k v now) k2
      = if k2 = k then some (entry.mk m.next now k v) else peek m k2 := by
  rw [@peek_of_set V m (pushNew m (getMM m k) k v now) h (getMM m k) _ _ (getMM_lt h k)
    rfl rfl rfl k2]
  by_cases hk : k2 = k
  · subst hk
    rw [if_pos rfl, if_pos rfl, mapGet_set_self]
    exact findEl_cons_self (entry.mk m.next now k2 v) _
  · rw [if_neg hk]
    by_cases hi : getMM m k2 = getMM m k
    · rw [if_pos hi, mapGet_set_ne _ _ hk]
      unfold peek
      rw [hi]
      cases hg2 : mapGet (cacheOf m (getMM m k)) k2 with
      | none => rfl
      | some el =>
        simp only
        obtain ⟨x, hx, hxid, _⟩ := (h.shards (getMM m k)).2.2.2.1 k2 el hg2
        have hlt := (h.shards (getMM m k)).1 x hx
        rw [hxid] at hlt
        exact findEl_cons_ne _ (by simp only; omega)
    · rw [if_neg hi]

theorem findEl_dropLast {V : Type} {ll : List (entry V)} {kv x : entry V}
    (hn : (ll.map entry.id).Nodup) (hb : ll.getLast? = some kv) (hx : x ∈ ll)
    (hne : x ≠ kv) : findEl ll.dropLast x.id = some x := by
  have hs := dropLast_append_getLast hb
  have hx2 : x ∈ ll.dropLast := by
    rw [hs] at hx
    rcases List.mem_append.1 hx with h1 | h1
    · exact h1
    · simp at h1; exact absurd h1 hne
  exact findEl_of_mem (((List.dropLast_sublist ll).map entry.id).nodup hn) hx2

theorem peek_removeBack_ne {V : Type} {m : LruCache V} (h : WeakInv m) {s : Nat}
    {kv : entry V} (hb : (llOf m s).getLast? = some kv) {k2 : String} (hk : k2 ≠ kv.key) :
    peek (removeBack m s kv) k2 = peek m k2 := by
  rw [@peek_of_set V m (removeBack m s kv) h s _ _ (getLast?_lt_shard h hb) rfl rfl rfl k2]
  by_cases hi : getMM m k2 = s
  · rw [if_pos hi, mapGet_delete_ne _ hk]
    unfold peek
    rw [hi]
    cases hg2 : mapGet (cacheOf m s) k2 with
    | none => rfl
    | some el =>
      simp only
      obtain ⟨x, hx, hxid, hxkey⟩ := (h.shards s).2.2.2.1 k2 el hg2
      have hne : x ≠ kv := by intro he; rw [he] at hxkey; exact hk hxkey.symm
      rw [← hxid, findEl_dropLast (h.shards s).2.1 hb hx hne,
        findEl_of_mem (h.shards s).2.1 hx]
  · rw [if_neg hi]

theorem peek_removeBack_self {V : Type} {m : LruCache V} (h : WeakInv m) {s : Nat}
    {kv : entry V} (hb : (llOf m s).getLast? = some kv) (hr : getMM m kv.key = s) :
    peek (removeBack m s kv) kv.key = none := by
  rw [@peek_of_set V m (removeBack m s kv) h s _ _ (getLast?_lt_shard h hb) rfl rfl rfl kv.key,
    if_pos hr, mapGet_delete_self]

/-- In a state with `Inv` every node is the node found for its key. -/
theorem peek_of_mem {V : Type} {m : LruCache V} (h : Inv m) {s : Nat} {kv : entry V}
    (hkv : kv ∈ llOf m s) : getMM m kv.key = s ∧ peek m kv.key = some kv := by
  have hg := h.order_in_index s kv hkv
  have hr : getMM m kv.key = s := (h.weak.shards s).2.2.2.2 kv.key kv.id hg
  refine ⟨hr, ?_⟩
  unfold peek
  rw [hr, hg]
  exact findEl_of_mem (h.weak.shards s).2.1 hkv


/-! ## `Add` of a key that is not stored -/

theorem getLast?_cons_of_ne_nil {α : Type} (a : α) {l : List α} (h : l ≠ []) :
    (a :: l).getLast? = l.getLast? := by
  cases l with
  | nil => exact absurd rfl h
  | cons b r => exact List.getLast?_cons_cons

theorem llOf_pushNew_self {V : Type} {m : LruCache V} (h : WeakInv m) {i : Nat}
    (hi : i < m.shard) (k : String) (v : V) (now : Int) :
    llOf (pushNew m i k v now) i = entry.mk m.next now k v :: llOf m i := by
  rw [@llOf_of_set V m (pushNew m i k v now) i _ rfl i, if_pos ⟨rfl, by rw [h.lls_len]; exact hi⟩]

theorem llOf_removeBack_self {V : Type} {m : LruCache V} (h : WeakInv m) {s : Nat}
    (hs : s < m.shard) (kv : entry V) :
    llOf (removeBack m s kv) s = (llOf m s).dropLast := by
  rw [@llOf_of_set V m (removeBack m s kv) s _ rfl s, if_pos ⟨rfl, by rw [h.lls_len]; exact hs⟩]

/-- What `Add` of a key that is not stored does in a state with `Inv`: it links the new node
in, and when the bound is exceeded the eviction either samples only empty shards or removes
the back node of one shard. -/
theorem Add_absent_cases {V : Type} {m : LruCache V} {k : String} (v : V)
    (now : Int) (rnd : Nat → Nat) (hg : mapGet (cacheOf m (getMM m k)) k = none) :
    Add m k v now rnd = pushNew m (getMM m k) k v now ∨
    ∃ s kv, (0 < m.max ∧ m.max < m.count + 1) ∧
      (llOf (pushNew m (getMM m k) k v now) s).getLast? = some kv ∧
      Add m k v now rnd = removeBack (pushNew m (getMM m k) k v now) s kv := by
  rw [Add_new v now rnd hg]
  by_cases htr : 0 < m.max ∧ m.max < m.count + 1
  · rw [if_pos htr, RemoveOldest_evict _ _ _ (by simp only [pushNew]; omega)]
    rcases sampleLoop_one (now - 0) rnd
      (if maxLoopOf 1 < (pushNew m (getMM m k) k v now).shard
        then (pushNew m (getMM m k) k v now).shard else maxLoopOf 1) 0
      (pushNew m (getMM m k) k v now) with h1 | ⟨j, kv, hb, h1⟩
    · left; rw [h1]
    · right; exact ⟨_, kv, htr, hb, by rw [h1]⟩
  · rw [if_neg htr]; left; rfl

/-- With one shard the eviction always removes the back node of shard 0. -/
theorem Add_absent_one_shard {V : Type} {m : LruCache V} (h : WeakInv m) (hs : m.shard = 1)
    {k : String} (v : V) (now : Int) (rnd : Nat → Nat)
    (hg : mapGet (cacheOf m (getMM m k)) k = none)
    (htr : 0 < m.max ∧ m.max < m.count + 1) :
    ∃ kv, (entry.mk m.next now k v :: llOf m 0).getLast? = some kv ∧
      Add m k v now rnd = removeBack (pushNew m 0 k v now) 0 kv := by
  have hmm : getMM m k = 0 := by unfold getMM; rw [hs]; exact Nat.mod_one _
  rw [hmm] at hg
  have hll := llOf_pushNew_self h (by rw [hs]; exact Nat.one_pos) k v now
  cases hb : (entry.mk m.next now k v :: llOf m 0).getLast? with
  | none => simp at hb
  | some kv =>
    refine ⟨kv, rfl, ?_⟩
    rw [Add_new v now rnd (by rw [hmm]; exact hg), if_pos htr, hmm,
      RemoveOldest_evict _ _ _ (by simp only [pushNew]; omega)]
    have hsh : (pushNew m 0 k v now).shard = 1 := hs
    have hml : (if maxLoopOf 1 < (pushNew m 0 k v now).shard
        then (pushNew m 0 k v now).shard else maxLoopOf 1) = 0 + 1 := by
      rw [hsh, maxLoopOf_one]; rfl
    rw [hml]
    have hr : (0 : Nat → Nat) = 0 := rfl
    have hb2 : (llOf (pushNew m 0 k v now) (rnd 0 % (pushNew m 0 k v now).shard)).getLast?
        = some kv := by
      rw [hsh, Nat.mod_one, hll]; exact hb
    rw [sampleLoop_one_hit (now - 0) rnd 0 0 (pushNew m 0 k v now) hb2, hsh, Nat.mod_one]

theorem Add_absent_get {V : Type} {m : LruCache V} (h : WeakInv m) {k : String} (v : V)
    (now : Int) (rnd : Nat → Nat) (hg : mapGet (cacheOf m (getMM m k)) k = none)
    (hcase : ¬ (0 < m.max ∧ m.max < m.count + 1) ∨ (Inv m ∧ llOf m (getMM m k) ≠ []))
    (t : Int) : (Get (Add m k v now rnd) k t).2 = (some v, true) := by
  have hw2 := weakInv_Add h k v now rnd
  have hw1 := weakInv_pushNew h k v now
  have hp1 := peek_pushNew h v now hg k
  rw [if_pos rfl] at hp1
  rw [Get_snd hw2]
  rcases Add_absent_cases v now rnd hg with h1 | ⟨s, kv, htr, hb, h1⟩
  · rw [h1, hp1]
  · rcases hcase with h2 | ⟨hinv, hne⟩
    · exact absurd htr h2
    · have hinv1 := inv_pushNew hinv k v now hg
      have hmem := getLast?_mem hb
      obtain ⟨hr, hpk⟩ := peek_of_mem hinv1 hmem
      have hkne : k ≠ kv.key := by
        intro he
        rw [← he, hp1] at hpk
        simp only [Option.some.injEq] at hpk
        have hs : s = getMM m k := by
          rw [← hr, ← he]; rfl
        rw [hs, llOf_pushNew_self h (getMM_lt h k)] at hb
        rw [getLast?_cons_of_ne_nil _ hne] at hb
        have hlt := (h.shards (getMM m k)).1 kv (getLast?_mem hb)
        rw [← hpk] at hlt
        exact Nat.lt_irrefl _ hlt
      rw [h1, peek_removeBack_ne hw1 hb hkne, hp1]


/-! ## Round trip of `Add` and `Get`, and the bound on `Len` -/

/-- C1 (counterexample): `New(2, 1)`, `Add("d", 0)` (routed to shard 0), then `Add("a", 5)`
(routed to shard 1) with the eviction sampling shard 1: the back node of shard 1 is the node
of `"a"` itself, so `Get("a")` right after the `Add` finds nothing. -/
theorem add_then_get_evicted :
    getMM (New 2 1 1 : LruCache Nat) "d" = 0 ∧ getMM (New 2 1 1 : LruCache Nat) "a" = 1 ∧
    (Get (Add (Add (New 2 1 1 : LruCache Nat) "d" 0 0 (fun _ => 1)) "a" 5 1 (fun _ => 1))
      "a" 2).2 = (none, false) := by
  decide

theorem Add_Get_self {V : Type} {m : LruCache V} (h : WeakInv m) (k : String) (v : V)
    (now : Int) (rnd : Nat → Nat) (t0 : Int)
    (hcase : (Get m k t0).2.2 = true ∨ ¬ (0 < m.max ∧ m.max < m.count + 1) ∨
      (Inv m ∧ llOf m (getMM m k) ≠ [])) (t : Int) :
    (Get (Add m k v now rnd) k t).2 = (some v, true) := by
  by_cases hp : (Get m k t0).2.2 = true
  · exact (Add_present h v now rnd t0 hp).2.2.2.2.1 t
  · have hg : mapGet (cacheOf m (getMM m k)) k = none := by
      apply peek_none h
      rw [Get_snd h] at hp
      cases hpk : peek m k with
      | none => rfl
      | some kv => rw [hpk] at hp; simp at hp
    rcases hcase with h1 | h1 | h1
    · exact absurd h1 hp
    · exact Add_absent_get h v now rnd hg (Or.inl h1) t
    · exact Add_absent_get h v now rnd hg (Or.inr h1) t

/-- C1 (amended): in every state reachable from `New` by public operations, `Add(k, v)`
followed by `Get(k)` returns `(v, true)` when `k` is already stored, or when the `Add` does
not trigger the eviction (`max_entries <= 0` or the new count does not exceed it), or when
the state was built by `Add`, `Get` and `Remove` only and the shard of `k` holds another
entry; whatever shards the eviction samples. -/
theorem add_then_get_roundtrip {V : Type} (shard : Nat) (max_entries : Int) (numCPU : Nat)
    (hcpu : 0 < numCPU) (ops : List (Op V)) (k : String) (v : V) (now : Int)
    (rnd : Nat → Nat) (t0 : Int)
    (hcase : (Get (run (New shard max_entries numCPU) ops) k t0).2.2 = true ∨
      ¬ (0 < MaxEntries (run (New shard max_entries numCPU) ops) ∧
          MaxEntries (run (New shard max_entries numCPU) ops)
            < Len (run (New shard max_entries numCPU) ops) + 1) ∨
      (ops.all Op.basic = true ∧
        llOf (run (New shard max_entries numCPU) ops)
          (getMM (run (New shard max_entries numCPU) ops) k) ≠ []))
    (t : Int) :
    (Get (Add (run (New shard max_entries numCPU) ops) k v now rnd) k t).2 = (some v, true) := by
  refine Add_Get_self (weakInv_reach shard max_entries numCPU hcpu ops) k v now rnd t0 ?_ t
  rcases hcase with h1 | h1 | h1
  · exact Or.inl h1
  · exact Or.inr (Or.inl h1)
  · exact Or.inr (Or.inr ⟨inv_built shard max_entries numCPU hcpu ops h1.1, h1.2⟩)

theorem add_then_get_roundtrip_witness :
    (0 < MaxEntries (run (New 2 1 1 : LruCache Nat) [Op.add "a" 1 0 (fun _ => 1)]) ∧
      MaxEntries (run (New 2 1 1 : LruCache Nat) [Op.add "a" 1 0 (fun _ => 1)])
        < Len (run (New 2 1 1 : LruCache Nat) [Op.add "a" 1 0 (fun _ => 1)]) + 1) ∧
    getMM (run (New 2 1 1 : LruCache Nat) [Op.add "a" 1 0 (fun _ => 1)]) "b" = 1 ∧
    (Get (Add (run (New 2 1 1 : LruCache Nat) [Op.add "a" 1 0 (fun _ => 1)]) "a" 7 1
      (fun _ => 1)) "a" 3).2 = (some 7, true) ∧
    (Get (Add (run (New 2 1 1 : LruCache Nat) [Op.add "a" 1 0 (fun _ => 1)]) "b" 2 1
      (fun _ => 1)) "b" 3).2 = (some 2, true) :=
  ⟨by decide, by decide,
    add_then_get_roundtrip 2 1 1 (by decide) [Op.add "a" 1 0 (fun _ => 1)] "a" 7 1
      (fun _ => 1) 0 (Or.inl (by decide)) 3,
    add_then_get_roundtrip 2 1 1 (by decide) [Op.add "a" 1 0 (fun _ => 1)] "b" 2 1
      (fun _ => 1) 0 (Or.inr (Or.inr ⟨by decide, by decide⟩)) 3⟩

/-- C2 (failing input): `New(2, 1)`, then `Add("a", 1)` and `Add("b", 2)`, both routed to
shard 1, with the eviction sampling shard 0 in both of its rounds: shard 0 is empty, no key
is deleted and `Len()` is 2, above `max_entries = 1`, although the comment in `Add` says that
one key is deleted from the tail when the maximum is exceeded. -/
theorem capacity_exceeded_two_shards :
    getMM (New 2 1 1 : LruCache Nat) "a" = 1 ∧ getMM (New 2 1 1 : LruCache Nat) "b" = 1 ∧
    Len (addAll (New 2 1 1 : LruCache Nat) [("a", 1, 0, fun _ => 0), ("b", 2, 1, fun _ => 0)])
      = 2 ∧
    ¬ (Len (addAll (New 2 1 1 : LruCache Nat)
        [("a", 1, 0, fun _ => 0), ("b", 2, 1, fun _ => 0)]) ≤ 1) := by
  decide

theorem Add_absent_step_one_shard {V : Type} {m : LruCache V} (h : Inv m) (hs : m.shard = 1)
    {k : String} (v : V) (now : Int) (rnd : Nat → Nat) (hp : peek m k = none)
    (hcnt : m.count ≤ m.max) (hmax : 0 < m.max) :
    Inv (Add m k v now rnd) ∧ (Add m k v now rnd).shard = 1 ∧
    (Add m k v now rnd).max = m.max ∧
    (Add m k v now rnd).count = min (m.count + 1) m.max ∧
    (∀ k2, peek (Add m k v now rnd) k2 ≠ none → k2 = k ∨ peek m k2 ≠ none) := by
  have hg := peek_none h.weak hp
  have hinv2 := inv_Add h k v now rnd
  have hmm : getMM m k = 0 := by unfold getMM; rw [hs]; exact Nat.mod_one _
  have hp1 := peek_pushNew h.weak v now hg
  rw [hmm] at hp1
  by_cases htr : 0 < m.max ∧ m.max < m.count + 1
  · obtain ⟨kv, hb, hadd⟩ := Add_absent_one_shard h.weak hs v now rnd hg htr
    have hinv1 := inv_pushNew h k v now hg
    rw [hmm] at hinv1
    have hb1 : (llOf (pushNew m 0 k v now) 0).getLast? = some kv := by
      rw [llOf_pushNew_self h.weak (by rw [hs]; exact Nat.one_pos)]; exact hb
    refine ⟨hinv2, by rw [hadd]; exact hs, by rw [hadd]; rfl, ?_, ?_⟩
    · rw [hadd]
      show m.count + 1 - 1 = min (m.count + 1) m.max
      omega
    · intro k2 hk2
      rw [hadd] at hk2
      by_cases hkk : k2 = kv.key
      · exfalso
        apply hk2
        rw [hkk]
        exact peek_removeBack_self hinv1.weak hb1 (peek_of_mem hinv1 (getLast?_mem hb1)).1
      · rw [peek_removeBack_ne hinv1.weak hb1 hkk, hp1] at hk2
        by_cases hk : k2 = k
        · exact Or.inl hk
        · rw [if_neg hk] at hk2; exact Or.inr hk2
  · have hadd : Add m k v now rnd = pushNew m 0 k v now := by
      rw [Add_new v now rnd hg, if_neg htr, hmm]
    refine ⟨hinv2, by rw [hadd]; exact hs, by rw [hadd]; rfl, ?_, ?_⟩
    · rw [hadd]
      show m.count + 1 = min (m.count + 1) m.max
      omega
    · intro k2 hk2
      rw [hadd, hp1] at hk2
      by_cases hk : k2 = k
      · exact Or.inl hk
      · rw [if_neg hk] at hk2; exact Or.inr hk2

theorem addAll_one_shard {V : Type} (kvs : List (String × V × Int × (Nat → Nat)))
    (seen : List String) (m : LruCache V) (h : Inv m) (hs : m.shard = 1) (hmax : 0 < m.max)
    (hcnt : m.count = min (seen.length : Int) m.max)
    (hkeys : ∀ k, peek m k ≠ none → k ∈ seen)
    (hnd : (kvs.map Prod.fst).Nodup) (hdisj : ∀ k, k ∈ kvs.map Prod.fst → k ∉ seen) :
    (addAll m kvs).count = min (((seen.length + kvs.length : Nat)) : Int) m.max := by
  induction kvs generalizing m seen with
  | nil => simpa [addAll] using hcnt
  | cons p rest ih =>
    simp only [List.map_cons, List.nodup_cons] at hnd
    have hp : peek m p.1 = none := by
      by_contra hne
      exact hdisj p.1 (by simp) (hkeys p.1 hne)
    have hle : m.count ≤ m.max := by rw [hcnt]; exact min_le_right _ _
    obtain ⟨h2, hs2, hm2, hc2, hk2⟩ :=
      Add_absent_step_one_shard h hs p.2.1 p.2.2.1 p.2.2.2 hp hle hmax
    have hstep := ih (p.1 :: seen) (Add m p.1 p.2.1 p.2.2.1 p.2.2.2) h2 hs2 (by rw [hm2]; exact hmax)
      (by
        rw [hc2, hm2, hcnt]
        simp only [List.length_cons, Nat.cast_add, Nat.cast_one]
        omega)
      (by
        intro k hk
        rcases hk2 k hk with h3 | h3
        · rw [h3]; exact List.mem_cons_self _ _
        · exact List.mem_cons_of_mem _ (hkeys k h3))
      hnd.2
      (by
        intro k hk hmem
        rcases List.mem_cons.1 hmem with h3 | h3
        · rw [h3] at hk; exact hnd.1 hk
        · exact hdisj k (List.mem_cons_of_mem _ hk) h3)
    have hfold : addAll m (p :: rest) = addAll (Add m p.1 p.2.1 p.2.2.1 p.2.2.2) rest := rfl
    rw [hfold, hstep, hm2]
    simp only [List.length_cons]
    congr 2
    omega

/-- The bound of C2 where the eviction cannot miss: with one shard and
`max_entries = M > 0`, starting from `New(1, M)` and adding distinct keys one at a time,
`Len()` is `min(j, M)` after the `j`-th `Add`, for every `j`; in particular `Len() <= M`
throughout. -/
theorem capacity_bound_one_shard {V : Type} (M : Int) (hM : 0 < M) (numCPU : Nat)
    (kvs : List (String × V × Int × (Nat → Nat))) (hnd : (kvs.map Prod.fst).Nodup)
    (j : Nat) (hj : j ≤ kvs.length) :
    Len (addAll (New 1 M numCPU : LruCache V) (kvs.take j)) = min (j : Int) M := by
  have hinv : Inv (New 1 M numCPU : LruCache V) := by
    have : (New 1 M numCPU : LruCache V) = New 1 M 1 := rfl
    rw [this]; exact inv_New 1 M 1 Nat.one_pos
  have hnd2 : ((kvs.take j).map Prod.fst).Nodup :=
    ((List.take_sublist j kvs).map Prod.fst).nodup hnd
  have := addAll_one_shard (kvs.take j) [] (New 1 M numCPU : LruCache V) hinv rfl hM
    (by
      show (0 : Int) = min ((0 : Nat) : Int) M
      omega)
    (by
      intro k hk
      exfalso; apply hk
      exact peek_of_miss (by
        have : cacheOf (New 1 M numCPU : LruCache V) (getMM (New 1 M numCPU : LruCache V) k) = [] := by
          have h0 : getMM (New 1 M numCPU : LruCache V) k = 0 := Nat.mod_one _
          rw [h0]; rfl
        rw [this]; rfl))
    hnd2 (by intro k _ hk; simp at hk)
  unfold Len
  rw [this]
  simp only [List.length_nil, Nat.zero_add, List.length_take]
  rw [Nat.min_eq_left hj]
  rfl

theorem capacity_bound_one_shard_witness :
    (0 : Int) < 10 ∧
    Len (addAll (New 1 10 4 : LruCache Nat)
      [("tk0", 0, 100, fun _ => 0), ("tk1", 1, 101, fun _ => 0), ("tk2", 2, 102, fun _ => 0),
       ("tk3", 3, 103, fun _ => 0), ("tk4", 4, 104, fun _ => 0), ("tk5", 5, 105, fun _ => 0),
       ("tk6", 6, 106, fun _ => 0), ("tk7", 7, 107, fun _ => 0), ("tk8", 8, 108, fun _ => 0),
       ("tk9", 9, 109, fun _ => 0), ("tk10", 10, 110, fun _ => 0),
       ("tk11", 11, 111, fun _ => 0), ("tk12", 12, 112, fun _ => 0)]) = 10 ∧
    Len (addAll (New 1 10 4 : LruCache Nat) (List.take 13
      [("tk0", 0, 100, fun _ => 0), ("tk1", 1, 101, fun _ => 0), ("tk2", 2, 102, fun _ => 0),
       ("tk3", 3, 103, fun _ => 0), ("tk4", 4, 104, fun _ => 0), ("tk5", 5, 105, fun _ => 0),
       ("tk6", 6, 106, fun _ => 0), ("tk7", 7, 107, fun _ => 0), ("tk8", 8, 108, fun _ => 0),
       ("tk9", 9, 109, fun _ => 0), ("tk10", 10, 110, fun _ => 0),
       ("tk11", 11, 111, fun _ => 0), ("tk12", 12, 112, fun _ => 0)])) = min ((13 : Nat) : Int) 10 :=
  ⟨by decide, by decide,
    capacity_bound_one_shard 10 (by decide) 4
      [("tk0", 0, 100, fun _ => 0), ("tk1", 1, 101, fun _ => 0), ("tk2", 2, 102, fun _ => 0),
       ("tk3", 3, 103, fun _ => 0), ("tk4", 4, 104, fun _ => 0), ("tk5", 5, 105, fun _ => 0),
       ("tk6", 6, 106, fun _ => 0), ("tk7", 7, 107, fun _ => 0), ("tk8", 8, 108, fun _ => 0),
       ("tk9", 9, 109, fun _ => 0), ("tk10", 10, 110, fun _ => 0),
       ("tk11", 11, 111, fun _ => 0), ("tk12", 12, 112, fun _ => 0)]
      (by decide) 13 (by decide)⟩


/-! ## Lists ordered by last use -/

theorem timed_sublist {V : Type} {T : Int} {l l2 : List (entry V)} (hs : l2.Sublist l)
    (h : SortedByTime l ∧ ∀ kv, kv ∈ l → kv.last_time ≤ T) :
    SortedByTime l2 ∧ ∀ kv, kv ∈ l2 → kv.last_time ≤ T :=
  ⟨List.Pairwise.sublist hs h.1, fun kv hkv => h.2 kv (hs.subset hkv)⟩

theorem timed_cons {V : Type} {T now : Int} {l : List (entry V)} {e : entry V}
    (h : SortedByTime l ∧ ∀ kv, kv ∈ l → kv.last_time ≤ T) (hT : T ≤ now)
    (he : e.last_time = now) :
    SortedByTime (e :: l) ∧ ∀ kv, kv ∈ e :: l → kv.last_time ≤ now := by
  refine ⟨List.pairwise_cons.2 ⟨fun b hb => ?_, h.1⟩, fun kv hkv => ?_⟩
  · rw [he]; exact le_trans (h.2 b hb) hT
  · rcases List.mem_cons.1 hkv with h1 | h1
    · rw [h1, he]
    · exact le_trans (h.2 kv h1) hT

theorem TimeInv.mono_time {V : Type} {T T2 : Int} {m : LruCache V} (h : TimeInv T m)
    (hT : T ≤ T2) : TimeInv T2 m :=
  fun i => ⟨(h i).1, fun kv hkv => le_trans ((h i).2 kv hkv) hT⟩

theorem TimeInv.update_time {V : Type} {T : Int} {m m2 : LruCache V} (h : TimeInv T m) {i : Nat}
    {l : List (entry V)} (hl : m2.lls = m.lls.set i l)
    (hok : SortedByTime l ∧ ∀ kv, kv ∈ l → kv.last_time ≤ T) : TimeInv T m2 := by
  intro j
  rw [llOf_of_set hl]
  split
  · exact hok
  · exact h j

theorem TimeInv.of_lls {V : Type} {T : Int} {m m2 : LruCache V} (h : TimeInv T m)
    (hl : m2.lls = m.lls) : TimeInv T m2 := by
  intro j
  have : llOf m2 j = llOf m j := by unfold llOf; rw [hl]
  rw [this]; exact h j

theorem timeInv_New {V : Type} (T : Int) (shard : Nat) (max_entries : Int) (numCPU : Nat) :
    TimeInv T (New shard max_entries numCPU : LruCache V) := by
  intro i
  have h1 : llOf (New shard max_entries numCPU : LruCache V) i = [] := by
    simp only [llOf, New, List.getD_eq_getElem?_getD, List.getElem?_replicate]
    split <;> split <;> rfl
  rw [h1]
  exact ⟨List.Pairwise.nil, by simp⟩

theorem timeInv_Get {V : Type} {T : Int} {m : LruCache V} (h : TimeInv T m) (k : String)
    {now : Int} (hT : T ≤ now) : TimeInv now (Get m k now).1 := by
  cases hg : mapGet (cacheOf m (getMM m k)) k with
  | none => rw [Get_miss now hg]; exact h.mono_time hT
  | some el =>
    cases hf : findEl (llOf m (getMM m k)) el with
    | none => rw [Get_dangling now hg hf]; exact h.mono_time hT
    | some kv =>
      rw [Get_hit now hg hf]
      exact (h.mono_time hT).update_time (i := getMM m k) rfl
        (timed_cons (timed_sublist (listRemove_sublist _ _) (h _)) hT rfl)

theorem timeInv_Remove {V : Type} {T : Int} {m : LruCache V} (h : TimeInv T m) (k : String) :
    TimeInv T (Remove m k) := by
  cases hg : mapGet (cacheOf m (getMM m k)) k with
  | none => rw [Remove_miss hg]; exact h
  | some el =>
    rw [Remove_hit hg]
    exact h.update_time (i := getMM m k) rfl (timed_sublist (listRemove_sublist _ _) (h _))

theorem timeInv_removeBack {V : Type} {T : Int} {m : LruCache V} (h : TimeInv T m) (s : Nat)
    (kv : entry V) : TimeInv T (removeBack m s kv) :=
  h.update_time (i := s) rfl (timed_sublist (List.dropLast_sublist _) (h _))

theorem timeInv_pushNew {V : Type} {T : Int} {m : LruCache V} (h : TimeInv T m) (i : Nat)
    (k : String) (v : V) {now : Int} (hT : T ≤ now) : TimeInv now (pushNew m i k v now) :=
  (h.mono_time hT).update_time (i := i) rfl (timed_cons (h _) hT rfl)

theorem timeInv_sampleLoop {V : Type} {T : Int} (t lifeline max_count : Int)
    (rnd : Nat → Nat) (fuel loop : Nat) {m : LruCache V} (out : Int) (h : TimeInv T m) :
    TimeInv T (sampleLoop t lifeline max_count rnd fuel loop m out).1 := by
  induction fuel generalizing loop m out with
  | zero => exact h
  | succ f ih =>
    unfold sampleLoop
    by_cases ho : out < max_count
    · simp only [ho, if_true]
      cases hb : (llOf m (rnd loop % m.shard)).getLast? with
      | none => exact ih _ _ h
      | some kv =>
        by_cases hc : t ≤ 0 ∨ kv.last_time < lifeline
        · simp only [hc, if_true]; exact ih _ _ (timeInv_removeBack h _ _)
        · simp only [hc, if_false]; exact ih _ _ h
    · simp only [ho, if_false]; exact h

theorem lls_foldl_clearShard {V : Type} (l : List Nat) (acc : LruCache V × Int) :
    (l.foldl clearShard acc).1.lls = acc.1.lls := by
  induction l generalizing acc with
  | nil => rfl
  | cons s rest ih =>
    rw [List.foldl_cons, ih]
    rfl

theorem timeInv_Clear {V : Type} {T : Int} {m : LruCache V} (h : TimeInv T m) :
    TimeInv T (Clear m).1 :=
  h.of_lls (lls_foldl_clearShard _ _)

theorem sweepLoop_sublist {V : Type} (lifeline : Int) (fuel : Nat) (ll : List (entry V))
    (cache : List (String × Nat)) (c : Int) :
    (sweepLoop lifeline fuel ll cache c).1.Sublist ll := by
  induction fuel generalizing ll cache c with
  | zero => exact List.Sublist.refl _
  | succ f ih =>
    unfold sweepLoop
    cases hb : ll.getLast? with
    | none => exact List.Sublist.refl _
    | some kv =>
      by_cases ho : kv.last_time < lifeline
      · simp only [ho, if_true]
        exact (ih _ _ _).trans (List.dropLast_sublist ll)
      · simp only [ho, if_false]; exact List.Sublist.refl _

theorem timeInv_foldl_sweepShard {V : Type} {T : Int} (lifeline : Int) (l : List Nat)
    {acc : LruCache V × Int} (h : TimeInv T acc.1) :
    TimeInv T (l.foldl (sweepShard lifeline) acc).1 := by
  induction l generalizing acc with
  | nil => exact h
  | cons s rest ih =>
    apply ih
    exact h.update_time (i := s) rfl (timed_sublist (sweepLoop_sublist _ _ _ _ _) (h _))

theorem timeInv_RemoveOldest {V : Type} {T : Int} {m : LruCache V} (h : TimeInv T m)
    (t max_count now : Int) (rnd : Nat → Nat) :
    TimeInv T (RemoveOldest m t max_count now rnd).1 := by
  unfold RemoveOldest
  by_cases h1 : max_count ≤ 0
  · by_cases h2 : t ≤ 0
    · simp only [h1, h2, if_true]; exact timeInv_Clear h
    · simp only [h1, h2, if_true, if_false]; exact timeInv_foldl_sweepShard _ _ h
  · by_cases h3 : m.count ≤ max_count
    · simp only [h1, h3, if_true, if_false]; exact timeInv_Clear h
    · simp only [h1, h3, if_false]; exact timeInv_sampleLoop _ _ _ _ _ _ _ h

theorem timeInv_Add {V : Type} {T : Int} {m : LruCache V} (h : TimeInv T m) (k : String)
    (v : V) {now : Int} (rnd : Nat → Nat) (hT : T ≤ now) : TimeInv now (Add m k v now rnd) := by
  cases hg : mapGet (cacheOf m (getMM m k)) k with
  | some el =>
    cases hf : findEl (llOf m (getMM m k)) el with
    | none => rw [Add_dangling v now rnd hg hf]; exact h.mono_time hT
    | some kv =>
      rw [Add_hit v now rnd hg hf]
      exact (h.mono_time hT).update_time (i := getMM m k) rfl
        (timed_cons (timed_sublist (listRemove_sublist _ _) (h _)) hT rfl)
  | none =>
    rw [Add_new v now rnd hg]
    split
    · exact timeInv_RemoveOldest (timeInv_pushNew h _ k v hT) _ _ _ _
    · exact timeInv_pushNew h _ k v hT

theorem timeInv_run {V : Type} {T : Int} {m : LruCache V} (ops : List (Op V))
    (h : TimeInv T m) (hT : ∀ t, t ∈ ops.filterMap Op.clock → T ≤ t) (hm : ClockMono ops) :
    ∃ T2, TimeInv T2 (run m ops) := by
  induction ops generalizing m T with
  | nil => exact ⟨T, h⟩
  | cons op rest ih =>
    unfold ClockMono at hm
    cases op with
    | add k v now rnd =>
      simp only [List.filterMap_cons, Op.clock, List.pairwise_cons] at hm hT
      exact ih (timeInv_Add h k v rnd (hT now (List.mem_cons_self _ _))) hm.1 hm.2
    | get k now =>
      simp only [List.filterMap_cons, Op.clock, List.pairwise_cons] at hm hT
      exact ih (timeInv_Get h k (hT now (List.mem_cons_self _ _))) hm.1 hm.2
    | remove k =>
      simp only [List.filterMap_cons, Op.clock] at hm hT
      exact ih (timeInv_Remove h k) hT hm
    | removeOldest t c now rnd =>
      simp only [List.filterMap_cons, Op.clock, List.pairwise_cons] at hm hT
      exact ih ((timeInv_RemoveOldest h t c now rnd).mono_time (hT now (List.mem_cons_self _ _)))
        hm.1 hm.2
    | clear =>
      simp only [List.filterMap_cons, Op.clock] at hm hT
      exact ih (timeInv_Clear h) hT hm

/-- Under a clock that never runs backwards every list of a reachable state is ordered by
last use. -/
theorem timeInv_reach {V : Type} (shard : Nat) (max_entries : Int) (numCPU : Nat)
    (ops : List (Op V)) (hm : ClockMono ops) :
    ∃ T, TimeInv T (run (New shard max_entries numCPU) ops) := by
  cases hc : ops.filterMap Op.clock with
  | nil =>
    exact timeInv_run ops (timeInv_New 0 shard max_entries numCPU)
      (by intro t ht; rw [hc] at ht; simp at ht) hm
  | cons a rest =>
    refine timeInv_run ops (timeInv_New a shard max_entries numCPU) ?_ hm
    intro t ht
    unfold ClockMono at hm
    rw [hc] at ht hm
    rcases List.mem_cons.1 ht with h1 | h1
    · rw [h1]
    · exact (List.pairwise_cons.1 hm).1 t h1


/-! ## `shard` and `max` never change -/

theorem frame_foldl_clearShard {V : Type} (l : List Nat) (acc : LruCache V × Int) :
    (l.foldl clearShard acc).1.shard = acc.1.shard ∧
    (l.foldl clearShard acc).1.max = acc.1.max := by
  induction l generalizing acc with
  | nil => exact ⟨rfl, rfl⟩
  | cons s rest ih => rw [List.foldl_cons]; exact ⟨(ih _).1, (ih _).2⟩

theorem frame_foldl_sweepShard {V : Type} (lifeline : Int) (l : List Nat)
    (acc : LruCache V × Int) :
    (l.foldl (sweepShard lifeline) acc).1.shard = acc.1.shard ∧
    (l.foldl (sweepShard lifeline) acc).1.max = acc.1.max := by
  induction l generalizing acc with
  | nil => exact ⟨rfl, rfl⟩
  | cons s rest ih => rw [List.foldl_cons]; exact ⟨(ih _).1, (ih _).2⟩

theorem frame_sampleLoop {V : Type} (t lifeline max_count : Int) (rnd : Nat → Nat)
    (fuel loop : Nat) (m : LruCache V) (out : Int) :
    (sampleLoop t lifeline max_count rnd fuel loop m out).1.shard = m.shard ∧
    (sampleLoop t lifeline max_count rnd fuel loop m out).1.max = m.max := by
  induction fuel generalizing loop m out with
  | zero => exact ⟨rfl, rfl⟩
  | succ f ih =>
    unfold sampleLoop
    by_cases ho : out < max_count
    · simp only [ho, if_true]
      cases hb : (llOf m (rnd loop % m.shard)).getLast? with
      | none => exact ih _ _ _
      | some kv =>
        by_cases hc : t ≤ 0 ∨ kv.last_time < lifeline
        · simp only [hc, if_true]; exact ih _ (removeBack m _ kv) _
        · simp only [hc, if_false]; exact ih _ _ _
    · rw [if_neg ho]; exact ⟨rfl, rfl⟩

theorem frame_Clear {V : Type} (m : LruCache V) :
    (Clear m).1.shard = m.shard ∧ (Clear m).1.max = m.max :=
  frame_foldl_clearShard _ _

theorem frame_RemoveOldest {V : Type} (m : LruCache V) (t max_count now : Int)
    (rnd : Nat → Nat) :
    (RemoveOldest m t max_count now rnd).1.shard = m.shard ∧
    (RemoveOldest m t max_count now rnd).1.max = m.max := by
  unfold RemoveOldest
  by_cases h1 : max_count ≤ 0
  · by_cases h2 : t ≤ 0
    · simp only [h1, h2, if_true]; exact frame_Clear m
    · simp only [h1, h2, if_true, if_false]; exact frame_foldl_sweepShard _ _ _
  · by_cases h3 : m.count ≤ max_count
    · simp only [h1, h3, if_true, if_false]; exact frame_Clear m
    · simp only [h1, h3, if_false]; exact frame_sampleLoop _ _ _ _ _ _ _ _

theorem frame_Get {V : Type} (m : LruCache V) (k : String) (now : Int) :
    (Get m k now).1.shard = m.shard ∧ (Get m k now).1.max = m.max := by
  cases hg : mapGet (cacheOf m (getMM m k)) k with
  | none => rw [Get_miss now hg]; exact ⟨rfl, rfl⟩
  | some el =>
    cases hf : findEl (llOf m (getMM m k)) el with
    | none => rw [Get_dangling now hg hf]; exact ⟨rfl, rfl⟩
    | some kv => rw [Get_hit now hg hf]; exact ⟨rfl, rfl⟩

theorem frame_Remove {V : Type} (m : LruCache V) (k : String) :
    (Remove m k).shard = m.shard ∧ (Remove m k).max = m.max := by
  cases hg : mapGet (cacheOf m (getMM m k)) k with
  | none => rw [Remove_miss hg]; exact ⟨rfl, rfl⟩
  | some el => rw [Remove_hit hg]; exact ⟨rfl, rfl⟩

theorem frame_Add {V : Type} (m : LruCache V) (k : String) (v : V) (now : Int)
    (rnd : Nat → Nat) :
    (Add m k v now rnd).shard = m.shard ∧ (Add m k v now rnd).max = m.max := by
  cases hg : mapGet (cacheOf m (getMM m k)) k with
  | some el =>
    cases hf : findEl (llOf m (getMM m k)) el with
    | none => rw [Add_dangling v now rnd hg hf]; exact ⟨rfl, rfl⟩
    | some kv => rw [Add_hit v now rnd hg hf]; exact ⟨rfl, rfl⟩
  | none =>
    rw [Add_new v now rnd hg]
    split
    · exact frame_RemoveOldest (pushNew m (getMM m k) k v now) 0 1 now rnd
    · exact ⟨rfl, rfl⟩

theorem frame_step {V : Type} (m : LruCache V) (op : Op V) :
    (step m op).shard = m.shard ∧ (step m op).max = m.max := by
  cases op with
  | add k v now rnd => exact frame_Add m k v now rnd
  | get k now => exact frame_Get m k now
  | remove k => exact frame_Remove m k
  | removeOldest t c now rnd => exact frame_RemoveOldest m t c now rnd
  | clear => exact frame_Clear m

theorem frame_run {V : Type} (m : LruCache V) (ops : List (Op V)) :
    (run m ops).shard = m.shard ∧ (run m ops).max = m.max := by
  induction ops generalizing m with
  | nil => exact ⟨rfl, rfl⟩
  | cons op rest ih =>
    have h1 := ih (step m op)
    have h2 := frame_step m op
    exact ⟨h1.1.trans h2.1, h1.2.trans h2.2⟩

/-! ## Lockstep and the time of the last use -/

/-- In a state with `Inv` index and order of every shard are in lockstep. -/
theorem inv_lockstep {V : Type} {m : LruCache V} (h : Inv m) : Lockstep m := by
  intro i _
  have hnd := (h.weak.shards i).2.1
  refine ⟨hnd, ?_, ?_⟩
  · intro k el hg
    refine ⟨(h.weak.shards i).2.2.2.1 k el hg, ?_⟩
    intro x y hx hy hxe hye
    have e1 := findEl_of_mem hnd hx
    have e2 := findEl_of_mem hnd hy
    rw [hxe] at e1
    rw [hye, e1] at e2
    simpa using e2
  · intro x hx
    refine ⟨⟨x.key, h.order_in_index i x hx⟩, ?_⟩
    intro k k2 hk hk2
    obtain ⟨y, hy, hyid, hykey⟩ := (h.weak.shards i).2.2.2.1 k x.id hk
    obtain ⟨z, hz, hzid, hzkey⟩ := (h.weak.shards i).2.2.2.1 k2 x.id hk2
    have e1 := findEl_of_mem hnd hy
    have e2 := findEl_of_mem hnd hz
    rw [hyid] at e1
    rw [hzid, e1] at e2
    simp only [Option.some.injEq] at e2
    rw [← hykey, ← hzkey, e2]

/-- Index and order are in lockstep in every state built by `Add`, `Get` and `Remove`. -/
theorem lockstep_built {V : Type} (shard : Nat) (max_entries : Int) (numCPU : Nat)
    (hcpu : 0 < numCPU) (ops : List (Op V)) (hb : ops.all Op.basic = true) :
    Lockstep (run (New shard max_entries numCPU) ops) :=
  inv_lockstep (inv_built shard max_entries numCPU hcpu ops hb)

theorem peek_Remove_self {V : Type} {m : LruCache V} (h : WeakInv m) (k : String) :
    peek (Remove m k) k = none := by
  have h1 := Get_Remove_self h k 0
  rw [Get_snd (weakInv_Remove h k)] at h1
  cases hp : peek (Remove m k) k with
  | none => rfl
  | some kv => rw [hp] at h1; simp at h1

theorem peek_Remove_ne {V : Type} {m : LruCache V} (h : WeakInv m) {k k2 : String}
    (hk : k2 ≠ k) : peek (Remove m k) k2 = peek m k2 := by
  cases hg : mapGet (cacheOf m (getMM m k)) k with
  | none => rw [Remove_miss hg]
  | some el =>
    have hR := Remove_hit hg
    rw [@peek_of_set V m (Remove m k) h (getMM m k) (listRemove (llOf m (getMM m k)) el)
      (mapDelete (cacheOf m (getMM m k)) k) (getMM_lt h k) (by rw [hR]) (by rw [hR])
      (by rw [hR]) k2]
    by_cases hi : getMM m k2 = getMM m k
    · rw [if_pos hi, mapGet_delete_ne _ hk]
      unfold peek
      rw [hi]
      cases hg2 : mapGet (cacheOf m (getMM m k)) k2 with
      | none => rfl
      | some el2 =>
        simp only
        have hne : el2 ≠ el := by
          intro he
          obtain ⟨x, hx, hxid, hxkey⟩ := (h.shards (getMM m k)).2.2.2.1 k2 el2 hg2
          obtain ⟨y, hy, hyid, hykey⟩ := (h.shards (getMM m k)).2.2.2.1 k el hg
          have e1 := findEl_of_mem (h.shards (getMM m k)).2.1 hx
          have e2 := findEl_of_mem (h.shards (getMM m k)).2.1 hy
          rw [hxid, he] at e1
          rw [hyid, e1] at e2
          simp only [Option.some.injEq] at e2
          rw [e2, hykey] at hxkey
          exact hk hxkey.symm
        exact findEl_listRemove_ne _ hne
    · rw [if_neg hi]

theorem peek_Add {V : Type} {m : LruCache V} (h : Inv m) (k : String) (v : V) (now : Int)
    (rnd : Nat → Nat) (k2 : String) (kv : entry V)
    (hp : peek (Add m k v now rnd) k2 = some kv) :
    (k2 = k ∧ kv.last_time = now) ∨ (k2 ≠ k ∧ peek m k2 = some kv) := by
  cases hpk : peek m k with
  | some x =>
    obtain ⟨hmem, hkey, hg⟩ := peek_some h.weak hpk
    have hf := findEl_of_mem (h.weak.shards (getMM m k)).2.1 hmem
    have hadd := Add_hit v now rnd hg hf
    have := @peek_touch V m (Add m k v now rnd) h.weak k x (entry.mk x.id now x.key v) hpk rfl
      (by rw [hadd]) (by rw [hadd]) (by rw [hadd]) k2
    rw [this] at hp
    by_cases hk : k2 = k
    · rw [if_pos hk] at hp
      simp only [Option.some.injEq] at hp
      exact Or.inl ⟨hk, by rw [← hp]⟩
    · rw [if_neg hk] at hp; exact Or.inr ⟨hk, hp⟩
  | none =>
    have hg := peek_none h.weak hpk
    have hp1 := peek_pushNew h.weak v now hg k2
    have hfin : peek (pushNew m (getMM m k) k v now) k2 = some kv →
        (k2 = k ∧ kv.last_time = now) ∨ (k2 ≠ k ∧ peek m k2 = some kv) := by
      intro hq
      rw [hp1] at hq
      by_cases hk : k2 = k
      · rw [if_pos hk] at hq
        simp only [Option.some.injEq] at hq
        exact Or.inl ⟨hk, by rw [← hq]⟩
      · rw [if_neg hk] at hq; exact Or.inr ⟨hk, hq⟩
    rcases Add_absent_cases v now rnd hg with h1 | ⟨s, b, _, hb, h1⟩
    · rw [h1] at hp; exact hfin hp
    · have hinv1 := inv_pushNew h k v now hg
      rw [h1] at hp
      by_cases hkb : k2 = b.key
      · rw [hkb, peek_removeBack_self hinv1.weak hb (peek_of_mem hinv1 (getLast?_mem hb)).1] at hp
        simp at hp
      · rw [peek_removeBack_ne hinv1.weak hb hkb] at hp
        exact hfin hp

theorem peek_Get {V : Type} {m : LruCache V} (h : Inv m) (k : String) (now : Int)
    (k2 : String) (kv : entry V) (hp : peek (Get m k now).1 k2 = some kv) :
    (k2 = k ∧ kv.last_time = now) ∨ (k2 ≠ k ∧ peek m k2 = some kv) := by
  cases hpk : peek m k with
  | some x =>
    obtain ⟨hmem, hkey, hg⟩ := peek_some h.weak hpk
    have hf := findEl_of_mem (h.weak.shards (getMM m k)).2.1 hmem
    have hget := Get_hit now hg hf
    have := @peek_touch V m (Get m k now).1 h.weak k x (entry.mk x.id now x.key x.value) hpk rfl
      (by rw [hget]) (by rw [hget]) (by rw [hget]) k2
    rw [this] at hp
    by_cases hk : k2 = k
    · rw [if_pos hk] at hp
      simp only [Option.some.injEq] at hp
      exact Or.inl ⟨hk, by rw [← hp]⟩
    · rw [if_neg hk] at hp; exact Or.inr ⟨hk, hp⟩
  | none =>
    rw [Get_miss now (peek_none h.weak hpk)] at hp
    by_cases hk : k2 = k
    · rw [hk, hpk] at hp; simp at hp
    · exact Or.inr ⟨hk, hp⟩

theorem run_append {V : Type} (m : LruCache V) (ops : List (Op V)) (op : Op V) :
    run m (ops ++ [op]) = step (run m ops) op := by
  unfold run; rw [List.foldl_append]; rfl

theorem lastUse_append {V : Type} (ops : List (Op V)) (op : Op V) (k : String) :
    lastUse (ops ++ [op]) k = match Op.touch k op with
      | some t => some t
      | none => lastUse ops k := by
  unfold lastUse
  rw [List.filterMap_append]
  cases ht : Op.touch k op with
  | none => simp [List.filterMap_cons, ht]
  | some t => simp [List.filterMap_cons, ht]

/-- In a state built by `Add`, `Get` and `Remove` the `last_time` of the node of a stored key
is the time of the last `Add` or `Get` of the key. -/
theorem last_time_eq_lastUse {V : Type} (shard : Nat) (max_entries : Int) (numCPU : Nat)
    (hcpu : 0 < numCPU) (ops : List (Op V)) (hb : ops.all Op.basic = true) (k : String)
    (kv : entry V) (hp : peek (run (New shard max_entries numCPU) ops) k = some kv) :
    lastUse ops k = some kv.last_time := by
  induction ops using List.reverseRecOn generalizing kv with
  | nil =>
    exfalso
    have : peek (New shard max_entries numCPU : LruCache V) k = none := by
      apply peek_of_miss
      have hw := weakInv_New (V := V) shard max_entries numCPU hcpu
      cases hg : mapGet (cacheOf (New shard max_entries numCPU : LruCache V)
          (getMM (New shard max_entries numCPU : LruCache V) k)) k with
      | none => rfl
      | some el =>
        obtain ⟨x, hx, _, _⟩ := (hw.shards _).2.2.2.1 k el hg
        have h1 : llOf (New shard max_entries numCPU : LruCache V)
            (getMM (New shard max_entries numCPU : LruCache V) k) = [] := by
          simp only [llOf, New, List.getD_eq_getElem?_getD, List.getElem?_replicate]
          split <;> split <;> rfl
        rw [h1] at hx; simp at hx
    rw [show run (New shard max_entries numCPU : LruCache V) [] = New shard max_entries numCPU
      from rfl, this] at hp
    simp at hp
  | append_singleton l op ih =>
    rw [List.all_append, Bool.and_eq_true] at hb
    have hinv := inv_built shard max_entries numCPU hcpu l hb.1
    rw [run_append] at hp
    rw [lastUse_append]
    cases op with
    | add k1 v now rnd =>
      rcases peek_Add hinv k1 v now rnd k kv hp with ⟨h1, h2⟩ | ⟨h1, h2⟩
      · simp only [Op.touch, h1, if_true, h2]
      · have hne : ¬ k1 = k := fun hh => h1 hh.symm
        simp only [Op.touch, hne, if_false]
        exact ih hb.1 kv h2
    | get k1 now =>
      rcases peek_Get hinv k1 now k kv hp with ⟨h1, h2⟩ | ⟨h1, h2⟩
      · simp only [Op.touch, h1, if_true, h2]
      · have hne : ¬ k1 = k := fun hh => h1 hh.symm
        simp only [Op.touch, hne, if_false]
        exact ih hb.1 kv h2
    | remove k1 =>
      simp only [Op.touch]
      by_cases hk : k = k1
      · rw [hk] at hp
        have : peek (step (run (New shard max_entries numCPU) l) (Op.remove k1)) k1 = none :=
          peek_Remove_self hinv.weak k1
        rw [this] at hp; simp at hp
      · have : peek (step (run (New shard max_entries numCPU) l) (Op.remove k1)) k
            = peek (run (New shard max_entries numCPU) l) k := peek_Remove_ne hinv.weak hk
        rw [this] at hp
        exact ih hb.1 kv hp
    | removeOldest t c now rnd => simp [Op.basic] at hb
    | clear => simp [Op.basic] at hb

/-! ## One shard at its bound -/

theorem count_one_shard {V : Type} {m : LruCache V} (h : Inv m) (hs : m.shard = 1) :
    m.count = ((llOf m 0).length : Int) := by
  have hl := h.weak.lls_len
  rw [hs] at hl
  rw [h.count_eq]
  unfold llOf
  match hm : m.lls, hl with
  | [a], _ => simp

theorem dropLast_cons_of_ne_nil {α : Type} (a : α) {l : List α} (h : l ≠ []) :
    (a :: l).dropLast = a :: l.dropLast := by
  cases l with
  | nil => exact absurd rfl h
  | cons b r => rfl

theorem Add_at_bound {V : Type} {m : LruCache V} (h : Inv m) (hs : m.shard = 1)
    (hmax : 1 ≤ m.max) (hcnt : m.count = m.max) {k : String} (v : V) (now : Int)
    (rnd : Nat → Nat) (hp : peek m k = none) :
    ∃ l b, llOf m 0 = l ++ [b] ∧
      llOf (Add m k v now rnd) 0 = entry.mk m.next now k v :: l ∧
      peek m b.key = some b ∧
      peek (Add m k v now rnd) b.key = none ∧
      peek (Add m k v now rnd) k = some (entry.mk m.next now k v) ∧
      (∀ k2, k2 ≠ b.key → k2 ≠ k → peek (Add m k v now rnd) k2 = peek m k2) ∧
      (Add m k v now rnd).count = m.max := by
  have hg := peek_none h.weak hp
  have hmm : getMM m k = 0 := by unfold getMM; rw [hs]; exact Nat.mod_one _
  have h0 : 0 < m.shard := by rw [hs]; exact Nat.one_pos
  obtain ⟨kv, hb, hadd⟩ := Add_absent_one_shard h.weak hs v now rnd hg ⟨by omega, by omega⟩
  have hne : llOf m 0 ≠ [] := by
    intro he
    have := count_one_shard h hs
    rw [he] at this
    simp only [List.length_nil, Nat.cast_zero] at this
    omega
  rw [getLast?_cons_of_ne_nil _ hne] at hb
  have hinv1 := inv_pushNew h k v now hg
  rw [hmm] at hinv1
  have hll1 := llOf_pushNew_self h.weak h0 k v now
  have hb1 : (llOf (pushNew m 0 k v now) 0).getLast? = some kv := by
    rw [hll1, getLast?_cons_of_ne_nil _ hne]; exact hb
  have hp1 := peek_pushNew h.weak v now hg
  rw [hmm] at hp1
  have hpb := (peek_of_mem h (getLast?_mem hb)).2
  have hkne : k ≠ kv.key := by
    intro he; rw [← he, hp] at hpb; simp at hpb
  refine ⟨(llOf m 0).dropLast, kv, dropLast_append_getLast hb, ?_, hpb, ?_, ?_, ?_, ?_⟩
  · rw [hadd, llOf_removeBack_self hinv1.weak h0, hll1, dropLast_cons_of_ne_nil _ hne]
  · rw [hadd]
    exact peek_removeBack_self hinv1.weak hb1 (peek_of_mem hinv1 (getLast?_mem hb1)).1
  · rw [hadd, peek_removeBack_ne hinv1.weak hb1 hkne, hp1, if_pos rfl]
  · intro k2 h1 h2
    rw [hadd, peek_removeBack_ne hinv1.weak hb1 h1, hp1, if_neg h2]
  · rw [hadd]
    show m.count + 1 - 1 = m.max
    omega

/-- C7: in a one-shard cache `New(1, M)` with `M >= 1`, in a state built by `Add`, `Get` and
`Remove` with `Len() == M`, `Add(k, v)` of a key that is not stored removes exactly the back
node `b` of the recency order of shard 0: `b.key` was stored and is not found afterwards,
`k` is found with `v`, every other key is found as before, the new node is the front of the
order with the old nodes except `b` behind it, and `Len() == M`.  When the clock never ran
backwards, `b` is a node whose `last_time` is the smallest of the list; the `last_time` of the
node of a stored key is the time of the last `Add` or `Get` of the key in the history. -/
theorem add_at_capacity_evicts_back {V : Type} (M : Int) (hM : 1 ≤ M) (numCPU : Nat)
    (ops : List (Op V)) (hb : ops.all Op.basic = true)
    (hlen : Len (run (New 1 M numCPU) ops) = M) (k : String) (v : V) (now : Int)
    (rnd : Nat → Nat) (t0 : Int) (hk : (Get (run (New 1 M numCPU) ops) k t0).2.2 = false) :
    ∃ l b, llOf (run (New 1 M numCPU) ops) 0 = l ++ [b] ∧
      llOf (Add (run (New 1 M numCPU) ops) k v now rnd) 0
        = entry.mk (run (New 1 M numCPU) ops).next now k v :: l ∧
      (∀ t, (Get (run (New 1 M numCPU) ops) b.key t).2 = (some b.value, true)) ∧
      (∀ t, (Get (Add (run (New 1 M numCPU) ops) k v now rnd) b.key t).2 = (none, false)) ∧
      (∀ t, (Get (Add (run (New 1 M numCPU) ops) k v now rnd) k t).2 = (some v, true)) ∧
      (∀ k2 t, k2 ≠ b.key → k2 ≠ k →
        (Get (Add (run (New 1 M numCPU) ops) k v now rnd) k2 t).2
          = (Get (run (New 1 M numCPU) ops) k2 t).2) ∧
      Len (Add (run (New 1 M numCPU) ops) k v now rnd) = M ∧
      (ClockMono ops →
        ∀ x, x ∈ llOf (run (New 1 M numCPU) ops) 0 → b.last_time ≤ x.last_time) ∧
      (∀ k2 x, peek (run (New 1 M numCPU) ops) k2 = some x →
        x ∈ llOf (run (New 1 M numCPU) ops) 0 ∧ lastUse ops k2 = some x.last_time) := by
  have hnew : (New 1 M numCPU : LruCache V) = New 1 M 1 := rfl
  have hinv : Inv (run (New 1 M numCPU) ops) := by
    rw [hnew]; exact inv_built 1 M 1 Nat.one_pos ops hb
  have hfr := frame_run (New 1 M numCPU : LruCache V) ops
  have hs : (run (New 1 M numCPU) ops).shard = 1 := hfr.1
  have hmx : (run (New 1 M numCPU) ops).max = M := hfr.2
  have hp : peek (run (New 1 M numCPU) ops) k = none := by
    rw [Get_snd hinv.weak] at hk
    cases hpk : peek (run (New 1 M numCPU) ops) k with
    | none => rfl
    | some kv => rw [hpk] at hk; simp at hk
  obtain ⟨l, b, h1, h2, h3, h4, h5, h6, h7⟩ :=
    Add_at_bound hinv hs (by rw [hmx]; exact hM) (by rw [hmx]; exact hlen) v now rnd hp
  have hw2 := weakInv_Add hinv.weak k v now rnd
  refine ⟨l, b, h1, h2, ?_, ?_, ?_, ?_, ?_, ?_, ?_⟩
  · intro t; rw [Get_snd hinv.weak, h3]
  · intro t; rw [Get_snd hw2, h4]
  · intro t; rw [Get_snd hw2, h5]
  · intro k2 t hk1 hk2; rw [Get_snd hw2, Get_snd hinv.weak, h6 k2 hk1 hk2]
  · unfold Len; rw [h7, hmx]
  · intro hc x hx
    obtain ⟨T, hT⟩ := timeInv_reach 1 M numCPU ops hc
    have hsorted := (hT 0).1
    unfold SortedByTime at hsorted
    rw [h1] at hsorted hx
    rcases List.mem_append.1 hx with hx1 | hx1
    · exact (List.pairwise_append.1 hsorted).2.2 x hx1 b (List.mem_singleton_self b)
    · simp at hx1; rw [hx1]
  · intro k2 x hx
    have hmem := (peek_some hinv.weak hx).1
    have h0 : getMM (run (New 1 M numCPU) ops) k2 = 0 := by
      unfold getMM; rw [hs]; exact Nat.mod_one _
    rw [h0] at hmem
    refine ⟨hmem, ?_⟩
    have hx1 : peek (run (New 1 M 1) ops) k2 = some x := hx
    exact last_time_eq_lastUse 1 M 1 Nat.one_pos ops hb k2 x hx1

theorem add_at_capacity_evicts_back_witness :
    llOf (run (New 1 2 1 : LruCache Nat)
      [Op.add "a" 1 10 (fun _ => 0), Op.add "b" 2 11 (fun _ => 0), Op.get "a" 12]) 0
      = [entry.mk 0 12 "a" 1, entry.mk 1 11 "b" 2] ∧
    llOf (Add (run (New 1 2 1 : LruCache Nat)
      [Op.add "a" 1 10 (fun _ => 0), Op.add "b" 2 11 (fun _ => 0), Op.get "a" 12])
      "c" 3 13 (fun _ => 0)) 0 = [entry.mk 2 13 "c" 3, entry.mk 0 12 "a" 1] ∧
    Len (Add (run (New 1 2 1 : LruCache Nat)
      [Op.add "a" 1 10 (fun _ => 0), Op.add "b" 2 11 (fun _ => 0), Op.get "a" 12])
      "c" 3 13 (fun _ => 0)) = 2 :=
  ⟨by decide, by decide,
    (add_at_capacity_evicts_back 2 (by decide) 1
      [Op.add "a" 1 10 (fun _ => 0), Op.add "b" 2 11 (fun _ => 0), Op.get "a" 12]
      (by decide) (by decide) "c" 3 13 (fun _ => 0) 0 (by decide)).elim
      (fun _ hl => hl.elim (fun _ h => h.2.2.2.2.2.2.1))⟩

/-! ## The round budget `uint32(float32(max_count) * 1.1)` -/

theorem leadBit_le (fuel p : Nat) (hp : 0 < p) (hf : p ≤ fuel) : 2 ^ leadBit fuel p ≤ p := by
  induction fuel generalizing p with
  | zero => omega
  | succ f ih =>
    unfold leadBit
    by_cases h2 : p < 2
    · simp only [h2, if_true]; simpa using hp
    · simp only [h2, if_false]
      have := ih (p / 2) (by omega) (by omega)
      rw [pow_succ]
      omega

theorem ulp24_pos (p : Nat) : 0 < ulp24 p := by
  unfold ulp24; exact pow_pos (by decide) _

theorem ulp24_le (p : Nat) (hp : 0 < p) : ulp24 p = 1 ∨ ulp24 p * 2 ^ 23 ≤ p := by
  unfold ulp24
  by_cases h : leadBit p p ≤ 23
  · left; rw [Nat.sub_eq_zero_of_le h]; rfl
  · right
    rw [← pow_add, Nat.sub_add_cancel (by omega)]
    exact leadBit_le p p hp (Nat.le_refl _)

theorem roundEven_bounds (p u : Nat) (hu : 0 < u) :
    2 * p ≤ 2 * roundEven p u + u ∧ 2 * roundEven p u ≤ 2 * p + u := by
  have hdm := Nat.div_add_mod p u
  have hlt := Nat.mod_lt p hu
  have h1 : (p / u + 1) * u = u * (p / u) + u := by rw [Nat.add_mul, Nat.mul_comm]; simp
  have h2 : p / u * u = u * (p / u) := Nat.mul_comm _ _
  unfold roundEven
  simp only
  split
  · rw [h2]; omega
  · split
    · rw [h1]; omega
    · split
      · rw [h2]; omega
      · rw [h1]; omega

theorem roundEven_one (p : Nat) : roundEven p 1 = p := by
  unfold roundEven; simp [Nat.mod_one]

/-- Rounding to 24 significant bits changes a positive number by at most one part in
`2^24`. -/
theorem round24_bounds (p : Nat) (hp : 0 < p) :
    2 ^ 24 * p ≤ 2 ^ 24 * roundEven p (ulp24 p) + p ∧
    2 ^ 24 * roundEven p (ulp24 p) ≤ 2 ^ 24 * p + p := by
  rcases ulp24_le p hp with h | h
  · rw [h, roundEven_one]; omega
  · have := roundEven_bounds p (ulp24 p) (ulp24_pos p)
    norm_num at h ⊢
    omega

theorem le_budget_nat (k : Nat) (hk0 : 0 < k) (hk31 : k ≤ 3900000000) :
    k ≤ (float32Mul11 (float32OfNat k) / 2 ^ 23) % 2 ^ 32 := by
  unfold float32Mul11 float32OfNat
  have hx := round24_bounds k hk0
  have hxpos : 0 < roundEven k (ulp24 k) * 9227469 := by
    norm_num at hx ⊢; omega
  have hy := round24_bounds (roundEven k (ulp24 k) * 9227469) hxpos
  norm_num at hx hy hk31 ⊢
  have hlt : roundEven (roundEven k (ulp24 k) * 9227469) (ulp24 (roundEven k (ulp24 k) * 9227469))
      / 8388608 < 4294967296 := by
    apply Nat.div_lt_of_lt_mul; omega
  rw [Nat.mod_eq_of_lt hlt, Nat.le_div_iff_mul_le (by decide)]
  omega

/-- While `max_count * 1.1` fits a `uint32` the round budget is at least `max_count`. -/
theorem le_maxLoopOf (n : Int) (h0 : 0 < n) (h31 : n ≤ 3900000000) :
    n ≤ (maxLoopOf n : Int) := by
  obtain ⟨k, rfl⟩ := Int.eq_ofNat_of_zero_le (le_of_lt h0)
  have hk0 : 0 < k := by exact_mod_cast h0
  have hk31 : k ≤ 3900000000 := by exact_mod_cast h31
  unfold maxLoopOf
  simp only [Int.toNat_ofNat]
  exact_mod_cast le_budget_nat k hk0 hk31


/-! ## The bounded trim on one shard -/

theorem getLast?_append_singleton {α : Type} (l : List α) (a : α) :
    (l ++ [a]).getLast? = some a := by
  simp

theorem key_ne_of_mem_dropLast {V : Type} {m : LruCache V} (h : Inv m) {s : Nat}
    {kv x : entry V} (hb : (llOf m s).getLast? = some kv) (hx : x ∈ (llOf m s).dropLast) :
    x.key ≠ kv.key := by
  intro he
  have h1 := h.order_in_index s x ((List.dropLast_sublist _).subset hx)
  have h2 := h.order_in_index s kv (getLast?_mem hb)
  rw [he, h2] at h1
  simp only [Option.some.injEq] at h1
  exact id_ne_of_mem_dropLast (h.weak.shards s).2.1 hb hx h1.symm

/-- On one shard, with no age filter, the sampling loop removes the back node in every
round until `max_count` removals are counted: with `d` removals to go, enough rounds left and
at least `d` nodes `rem` at the back of the list, exactly the nodes of `rem` are removed. -/
theorem sampleLoop_trim {V : Type} (lifeline n : Int) (rnd : Nat → Nat) (d : Nat) :
    ∀ (fuel loop : Nat) (m : LruCache V) (out : Int) (keep rem : List (entry V)),
      Inv m → m.shard = 1 → llOf m 0 = keep ++ rem → rem.length = d → out + (d : Int) = n →
      d ≤ fuel →
      (sampleLoop 0 lifeline n rnd fuel loop m out).2 = n ∧
      (sampleLoop 0 lifeline n rnd fuel loop m out).1.count = m.count - (d : Int) ∧
      llOf (sampleLoop 0 lifeline n rnd fuel loop m out).1 0 = keep ∧
      Inv (sampleLoop 0 lifeline n rnd fuel loop m out).1 ∧
      (∀ x, x ∈ rem → peek (sampleLoop 0 lifeline n rnd fuel loop m out).1 x.key = none) ∧
      (∀ k, (∀ x, x ∈ rem → x.key ≠ k) →
        peek (sampleLoop 0 lifeline n rnd fuel loop m out).1 k = peek m k) := by
  induction d with
  | zero =>
    intro fuel loop m out keep rem hinv hs hll hlen hout hfuel
    have hrem : rem = [] := List.length_eq_zero.1 hlen
    rw [sampleLoop_done _ _ _ _ _ _ _ _ (by simp at hout; omega)]
    subst hrem
    refine ⟨by simp at hout; exact hout, by simp, by simpa using hll, hinv, by simp, ?_⟩
    intro k _; rfl
  | succ d ih =>
    intro fuel loop m out keep rem hinv hs hll hlen hout hfuel
    obtain ⟨f, rfl⟩ : ∃ f, fuel = f + 1 := ⟨fuel - 1, by omega⟩
    have hne : rem ≠ [] := by intro h0; rw [h0] at hlen; simp at hlen
    obtain ⟨kv, hkv⟩ : ∃ kv, rem.getLast? = some kv := by
      cases hr : rem.getLast? with
      | none => exact absurd (List.getLast?_eq_none_iff.1 hr) hne
      | some kv => exact ⟨kv, rfl⟩
    have hrem := dropLast_append_getLast hkv
    have hll2 : llOf m 0 = (keep ++ rem.dropLast) ++ [kv] := by
      rw [hll, List.append_assoc, ← hrem]
    have hb : (llOf m (rnd loop % m.shard)).getLast? = some kv := by
      rw [hs, Nat.mod_one, hll2]; exact getLast?_append_singleton _ _
    have hb0 : (llOf m 0).getLast? = some kv := by
      rw [hll2]; exact getLast?_append_singleton _ _
    have h0 : 0 < m.shard := by rw [hs]; exact Nat.one_pos
    have hstep : sampleLoop 0 lifeline n rnd (f + 1) loop m out
        = sampleLoop 0 lifeline n rnd f (loop + 1) (removeBack m 0 kv) (out + 1) := by
      conv_lhs => unfold sampleLoop
      have h1 : out < n := by omega
      have h2 : ((0 : Int) ≤ 0 ∨ kv.last_time < lifeline) := Or.inl (le_refl _)
      simp only [h1, if_true, hb, h2]
      rw [hs, Nat.mod_one]
    have hinv2 := inv_removeBack hinv hb0
    have hll3 : llOf (removeBack m 0 kv) 0 = keep ++ rem.dropLast := by
      rw [llOf_removeBack_self hinv.weak h0, hll2, List.dropLast_concat]
    have hlen3 : rem.dropLast.length = d := by
      rw [List.length_dropLast, hlen]; rfl
    obtain ⟨r1, r2, r3, r4, r5, r6⟩ := ih f (loop + 1) (removeBack m 0 kv) (out + 1) keep
      rem.dropLast hinv2 hs hll3 hlen3 (by push_cast at hout ⊢; omega) (by omega)
    rw [hstep]
    have hkeys : ∀ x, x ∈ rem.dropLast → x.key ≠ kv.key := by
      intro x hx
      apply key_ne_of_mem_dropLast hinv hb0
      rw [hll2, List.dropLast_concat]
      exact List.mem_append_right _ hx
    refine ⟨r1, ?_, r3, r4, ?_, ?_⟩
    · rw [r2]; show m.count - 1 - (d : Int) = m.count - ((d + 1 : Nat) : Int)
      push_cast; omega
    · intro x hx
      rw [hrem] at hx
      rcases List.mem_append.1 hx with hx1 | hx1
      · exact r5 x hx1
      · simp only [List.mem_singleton] at hx1
        rw [hx1, r6 kv.key hkeys]
        exact peek_removeBack_self hinv.weak hb0 (peek_of_mem hinv (getLast?_mem hb0)).1
    · intro k hk
      rw [r6 k (fun x hx => hk x ((List.dropLast_sublist _).subset hx))]
      exact peek_removeBack_ne hinv.weak hb0
        (fun he => hk kv (List.mem_of_getLast?_eq_some hkv) he.symm)

theorem RemoveOldest_trim {V : Type} {m : LruCache V} (h : Inv m) (hs : m.shard = 1)
    (n : Int) (hn0 : 0 < n) (hnL : n < m.count) (hn31 : n ≤ 3900000000) (now : Int)
    (rnd : Nat → Nat) :
    (RemoveOldest m 0 n now rnd).2 = n ∧
    (RemoveOldest m 0 n now rnd).1.count = m.count - n ∧
    WeakInv (RemoveOldest m 0 n now rnd).1 ∧
    ∃ keep rem, llOf m 0 = keep ++ rem ∧ (rem.length : Int) = n ∧
      llOf (RemoveOldest m 0 n now rnd).1 0 = keep ∧
      (∀ x, x ∈ rem → peek m x.key = some x ∧ peek (RemoveOldest m 0 n now rnd).1 x.key = none) ∧
      (∀ k, (∀ x, x ∈ rem → x.key ≠ k) → peek (RemoveOldest m 0 n now rnd).1 k = peek m k) := by
  obtain ⟨d, rfl⟩ := Int.eq_ofNat_of_zero_le (le_of_lt hn0)
  have hcnt := count_one_shard h hs
  have hdlen : d < (llOf m 0).length := by
    rw [hcnt] at hnL; exact_mod_cast hnL
  have hR : RemoveOldest m 0 (d : Int) now rnd
      = sampleLoop 0 (now - 0) (d : Int) rnd
          (if maxLoopOf (d : Int) < m.shard then m.shard else maxLoopOf (d : Int)) 0 m 0 := by
    unfold RemoveOldest
    have h1 : ¬ ((d : Int) ≤ 0) := by omega
    have h2 : ¬ (m.count ≤ (d : Int)) := by omega
    simp only [h1, h2, if_false]
  have hfuel : d ≤ (if maxLoopOf (d : Int) < m.shard then m.shard else maxLoopOf (d : Int)) := by
    have := le_maxLoopOf (d : Int) hn0 hn31
    have h3 : d ≤ maxLoopOf (d : Int) := by exact_mod_cast this
    split <;> omega
  have hsplit : llOf m 0 = (llOf m 0).take ((llOf m 0).length - d)
      ++ (llOf m 0).drop ((llOf m 0).length - d) := (List.take_append_drop _ _).symm
  have hlen : ((llOf m 0).drop ((llOf m 0).length - d)).length = d := by
    rw [List.length_drop]; omega
  obtain ⟨r1, r2, r3, r4, r5, r6⟩ := sampleLoop_trim (now - 0) (d : Int) rnd d _ 0 m 0 _ _ h hs
    hsplit hlen (by omega) hfuel
  rw [hR]
  refine ⟨r1, r2, r4.weak, _, _, hsplit, by rw [hlen], r3, ?_, r6⟩
  intro x hx
  refine ⟨(peek_of_mem h ((List.drop_sublist _ _).subset hx)).2, r5 x hx⟩

/-- C8 (amended): in a one-shard cache, in a state built by `Add`, `Get` and `Remove` that
holds `L` entries, `RemoveOldest(0, n)` with `0 < n < L` and `n <= 3900000000` (so that the
round budget `n * 1.1` fits its type `uint32`) returns `n` and leaves `Len() == L - n`; the nodes removed are the `n` nodes `rem` at the back
of the recency order: their keys were stored and are not found afterwards, the other nodes
`keep` stay in their order and every other key is found as before.  When the clock never ran
backwards no removed node was used later than a node that stays; the `last_time` of the node
of a stored key is the time of the last `Add` or `Get` of the key in the history. -/
theorem removeOldest_bounded_trim {V : Type} (max_entries : Int) (numCPU : Nat)
    (ops : List (Op V)) (hb : ops.all Op.basic = true) (n : Int) (hn0 : 0 < n)
    (hnL : n < Len (run (New 1 max_entries numCPU) ops)) (hn31 : n ≤ 3900000000) (now : Int)
    (rnd : Nat → Nat) :
    (RemoveOldest (run (New 1 max_entries numCPU) ops) 0 n now rnd).2 = n ∧
    Len (RemoveOldest (run (New 1 max_entries numCPU) ops) 0 n now rnd).1
      = Len (run (New 1 max_entries numCPU) ops) - n ∧
    ∃ keep rem, llOf (run (New 1 max_entries numCPU) ops) 0 = keep ++ rem ∧
      (rem.length : Int) = n ∧
      llOf (RemoveOldest (run (New 1 max_entries numCPU) ops) 0 n now rnd).1 0 = keep ∧
      (∀ x t, x ∈ rem →
        (Get (run (New 1 max_entries numCPU) ops) x.key t).2 = (some x.value, true) ∧
        (Get (RemoveOldest (run (New 1 max_entries numCPU) ops) 0 n now rnd).1 x.key t).2
          = (none, false)) ∧
      (∀ k t, (∀ x, x ∈ rem → x.key ≠ k) →
        (Get (RemoveOldest (run (New 1 max_entries numCPU) ops) 0 n now rnd).1 k t).2
          = (Get (run (New 1 max_entries numCPU) ops) k t).2) ∧
      (ClockMono ops → ∀ x y, x ∈ rem → y ∈ keep → x.last_time ≤ y.last_time) ∧
      (∀ k x, peek (run (New 1 max_entries numCPU) ops) k = some x →
        lastUse ops k = some x.last_time) := by
  have hnew : (New 1 max_entries numCPU : LruCache V) = New 1 max_entries 1 := rfl
  have hinv : Inv (run (New 1 max_entries numCPU) ops) := by
    rw [hnew]; exact inv_built 1 max_entries 1 Nat.one_pos ops hb
  have hs : (run (New 1 max_entries numCPU) ops).shard = 1 :=
    (frame_run (New 1 max_entries numCPU : LruCache V) ops).1
  obtain ⟨r1, r2, hw, keep, rem, r3, r4, r5, r6, r7⟩ :=
    RemoveOldest_trim hinv hs n hn0 hnL hn31 now rnd
  refine ⟨r1, r2, keep, rem, r3, r4, r5, ?_, ?_, ?_, ?_⟩
  · intro x t hx
    rw [Get_snd hinv.weak, Get_snd hw, (r6 x hx).1, (r6 x hx).2]
    exact ⟨rfl, rfl⟩
  · intro k t hk
    rw [Get_snd hinv.weak, Get_snd hw, r7 k hk]
  · intro hc x y hx hy
    obtain ⟨T, hT⟩ := timeInv_reach 1 max_entries numCPU ops hc
    have hsorted := (hT 0).1
    unfold SortedByTime at hsorted
    rw [r3] at hsorted
    exact (List.pairwise_append.1 hsorted).2.2 y hy x hx
  · intro k x hx
    have hx1 : peek (run (New 1 max_entries 1) ops) k = some x := hx
    exact last_time_eq_lastUse 1 max_entries 1 Nat.one_pos ops hb k x hx1

set_option maxRecDepth 100000 in
theorem removeOldest_bounded_trim_witness :
    Len (run (New 1 0 4 : LruCache Nat)
      [Op.add "tk0" 0 100 (fun _ => 0), Op.add "tk1" 1 101 (fun _ => 0),
       Op.add "tk2" 2 102 (fun _ => 0), Op.add "tk3" 3 103 (fun _ => 0),
       Op.add "tk4" 4 104 (fun _ => 0), Op.add "tk5" 5 105 (fun _ => 0),
       Op.add "tk6" 6 106 (fun _ => 0), Op.add "tk7" 7 107 (fun _ => 0),
       Op.add "tk8" 8 108 (fun _ => 0), Op.add "tk9" 9 109 (fun _ => 0),
       Op.add "tk10" 10 110 (fun _ => 0), Op.add "tk11" 11 111 (fun _ => 0),
       Op.add "tk12" 12 112 (fun _ => 0)]) = 13 ∧
    (RemoveOldest (run (New 1 0 4 : LruCache Nat)
      [Op.add "tk0" 0 100 (fun _ => 0), Op.add "tk1" 1 101 (fun _ => 0),
       Op.add "tk2" 2 102 (fun _ => 0), Op.add "tk3" 3 103 (fun _ => 0),
       Op.add "tk4" 4 104 (fun _ => 0), Op.add "tk5" 5 105 (fun _ => 0),
       Op.add "tk6" 6 106 (fun _ => 0), Op.add "tk7" 7 107 (fun _ => 0),
       Op.add "tk8" 8 108 (fun _ => 0), Op.add "tk9" 9 109 (fun _ => 0),
       Op.add "tk10" 10 110 (fun _ => 0), Op.add "tk11" 11 111 (fun _ => 0),
       Op.add "tk12" 12 112 (fun _ => 0)]) 0 3 200 (fun _ => 0)).2 = 3 ∧
    Len (RemoveOldest (run (New 1 0 4 : LruCache Nat)
      [Op.add "tk0" 0 100 (fun _ => 0), Op.add "tk1" 1 101 (fun _ => 0),
       Op.add "tk2" 2 102 (fun _ => 0), Op.add "tk3" 3 103 (fun _ => 0),
       Op.add "tk4" 4 104 (fun _ => 0), Op.add "tk5" 5 105 (fun _ => 0),
       Op.add "tk6" 6 106 (fun _ => 0), Op.add "tk7" 7 107 (fun _ => 0),
       Op.add "tk8" 8 108 (fun _ => 0), Op.add "tk9" 9 109 (fun _ => 0),
       Op.add "tk10" 10 110 (fun _ => 0), Op.add "tk11" 11 111 (fun _ => 0),
       Op.add "tk12" 12 112 (fun _ => 0)]) 0 3 200 (fun _ => 0)).1 = 10 :=
  ⟨by decide,
    (removeOldest_bounded_trim 0 4
      [Op.add "tk0" 0 100 (fun _ => 0), Op.add "tk1" 1 101 (fun _ => 0),
       Op.add "tk2" 2 102 (fun _ => 0), Op.add "tk3" 3 103 (fun _ => 0),
       Op.add "tk4" 4 104 (fun _ => 0), Op.add "tk5" 5 105 (fun _ => 0),
       Op.add "tk6" 6 106 (fun _ => 0), Op.add "tk7" 7 107 (fun _ => 0),
       Op.add "tk8" 8 108 (fun _ => 0), Op.add "tk9" 9 109 (fun _ => 0),
       Op.add "tk10" 10 110 (fun _ => 0), Op.add "tk11" 11 111 (fun _ => 0),
       Op.add "tk12" 12 112 (fun _ => 0)]
      (by decide) 3 (by decide) (by decide) (by decide) 200 (fun _ => 0)).1,
    by decide⟩


/-! ## More entries than the round budget can count -/

theorem bigKey_injective : Function.Injective bigKey := by
  intro i j h
  unfold bigKey at h
  have h2 : List.replicate i 'a' = List.replicate j 'a' := by
    injection h
  have := congrArg List.length h2
  simpa using this

theorem sampleLoop_out_le {V : Type} (t lifeline max_count : Int) (rnd : Nat → Nat)
    (fuel loop : Nat) (m : LruCache V) (out : Int) :
    (sampleLoop t lifeline max_count rnd fuel loop m out).2 ≤ out + (fuel : Int) := by
  induction fuel generalizing loop m out with
  | zero => simp [sampleLoop]
  | succ f ih =>
    unfold sampleLoop
    by_cases ho : out < max_count
    · simp only [ho, if_true]
      cases hb : (llOf m (rnd loop % m.shard)).getLast? with
      | none =>
        have := ih (loop + 1) m out
        simp only
        push_cast; omega
      | some kv =>
        by_cases hc : t ≤ 0 ∨ kv.last_time < lifeline
        · simp only [hc, if_true]
          have := ih (loop + 1) (removeBack m (rnd loop % m.shard) kv) (out + 1)
          push_cast; omega
        · simp only [hc, if_false]
          have := ih (loop + 1) m out
          push_cast; omega
    · rw [if_neg ho]; push_cast; omega

theorem maxLoopOf_lt (n : Int) : maxLoopOf n < 2 ^ 32 := by
  unfold maxLoopOf; exact Nat.mod_lt _ (by decide)

/-- Without a bound (`max_entries <= 0`) `Add` of keys that are not stored and differ from
one another evicts nothing: the counter grows by one with every `Add`. -/
theorem addAll_unbounded {V : Type} (kvs : List (String × V × Int × (Nat → Nat)))
    (seen : List String) (m : LruCache V) (h : Inv m) (hmax : m.max ≤ 0)
    (hkeys : ∀ k, peek m k ≠ none → k ∈ seen)
    (hnd : (kvs.map Prod.fst).Nodup) (hdisj : ∀ k, k ∈ kvs.map Prod.fst → k ∉ seen) :
    (addAll m kvs).count = m.count + (kvs.length : Int) ∧ Inv (addAll m kvs) ∧
    (addAll m kvs).shard = m.shard := by
  induction kvs generalizing m seen with
  | nil => exact ⟨by simp [addAll], h, rfl⟩
  | cons p rest ih =>
    simp only [List.map_cons, List.nodup_cons] at hnd
    have hp : peek m p.1 = none := by
      by_contra hne
      exact hdisj p.1 (by simp) (hkeys p.1 hne)
    have hg := peek_none h.weak hp
    have hadd : Add m p.1 p.2.1 p.2.2.1 p.2.2.2 = pushNew m (getMM m p.1) p.1 p.2.1 p.2.2.1 := by
      rw [Add_new _ _ _ hg, if_neg (fun hh => by omega)]
    have hinv2 := inv_pushNew h p.1 p.2.1 p.2.2.1 hg
    have hstep := ih (p.1 :: seen) (pushNew m (getMM m p.1) p.1 p.2.1 p.2.2.1) hinv2 hmax
      (by
        intro k hk
        rw [peek_pushNew h.weak _ _ hg] at hk
        by_cases hkp : k = p.1
        · rw [hkp]; exact List.mem_cons_self _ _
        · rw [if_neg hkp] at hk; exact List.mem_cons_of_mem _ (hkeys k hk))
      hnd.2
      (by
        intro k hk hmem
        rcases List.mem_cons.1 hmem with h3 | h3
        · rw [h3] at hk; exact hnd.1 hk
        · exact hdisj k (List.mem_cons_of_mem _ hk) h3)
    have hfold : addAll m (p :: rest) = addAll (Add m p.1 p.2.1 p.2.2.1 p.2.2.2) rest := rfl
    rw [hfold, hadd]
    refine ⟨?_, hstep.2.1, hstep.2.2⟩
    rw [hstep.1]
    simp only [pushNew, List.length_cons]
    push_cast; omega

theorem run_adds {V : Type} (m : LruCache V) (kvs : List (String × V × Int × (Nat → Nat))) :
    run m (kvs.map (fun p => Op.add p.1 p.2.1 p.2.2.1 p.2.2.2)) = addAll m kvs := by
  induction kvs generalizing m with
  | nil => rfl
  | cons p rest ih => exact ih _

theorem distinctAdds_eq (n : Nat) :
    distinctAdds n = ((List.range n).map
      (fun i => ((bigKey i, i, (0 : Int), fun _ => 0) : String × Nat × Int × (Nat → Nat)))).map
        (fun p => Op.add p.1 p.2.1 p.2.2.1 p.2.2.2) := by
  unfold distinctAdds
  rw [List.map_map]
  rfl

theorem distinctAdds_basic (n : Nat) : (distinctAdds n).all Op.basic = true := by
  unfold distinctAdds
  rw [List.all_eq_true]
  intro op hop
  obtain ⟨i, _, rfl⟩ := List.mem_map.1 hop
  rfl

theorem distinctAdds_state (n : Nat) :
    (run (New 1 0 1 : LruCache Nat) (distinctAdds n)).count = (n : Int) ∧
    (run (New 1 0 1 : LruCache Nat) (distinctAdds n)).shard = 1 := by
  rw [distinctAdds_eq, run_adds]
  have hnd : (((List.range n).map
      (fun i => ((bigKey i, i, (0 : Int), fun _ => 0) : String × Nat × Int × (Nat → Nat)))).map
        Prod.fst).Nodup := by
    rw [List.map_map]
    exact List.Nodup.map bigKey_injective (List.nodup_range _)
  have h := addAll_unbounded _ [] (New 1 0 1 : LruCache Nat) (inv_New 1 0 1 Nat.one_pos)
    (le_refl _)
    (by
      intro k hk
      exfalso; apply hk
      exact peek_of_miss (by
        have h0 : getMM (New 1 0 1 : LruCache Nat) k = 0 := Nat.mod_one _
        rw [h0]; rfl))
    hnd (by intro k _ hk; exact absurd hk (List.not_mem_nil k))
  refine ⟨?_, h.2.2⟩
  rw [h.1, List.length_map, List.length_range]
  show (0 : Int) + (n : Int) = (n : Int)
  omega

theorem Len_eq_count {V : Type} (m : LruCache V) : Len m = m.count := rfl

/-- With one shard `RemoveOldest(0, n)` returns less than `2^32` whatever `n` is: the round
budget `max_loop` is a `uint32`. -/
theorem RemoveOldest_lt_budget {V : Type} (m : LruCache V) (hs : m.shard = 1) (n : Int)
    (hn0 : 0 < n) (hnL : n < m.count) (now : Int) (rnd : Nat → Nat) :
    (RemoveOldest m 0 n now rnd).2 < 2 ^ 32 := by
  unfold RemoveOldest
  have h1 : ¬ (n ≤ 0) := by omega
  have h2 : ¬ (m.count ≤ n) := by omega
  simp only [h1, h2, if_false]
  have hle := sampleLoop_out_le 0 (now - 0) n rnd
    (if maxLoopOf n < m.shard then m.shard else maxLoopOf n) 0 m 0
  have hml := maxLoopOf_lt n
  have hfuel : ((if maxLoopOf n < m.shard then m.shard else maxLoopOf n : Nat) : Int)
      < 2 ^ 32 := by
    rw [hs]
    split
    · norm_num
    · exact_mod_cast hml
  omega

/-- C8 (counterexample): one shard, no bound, `2^32 + 1` keys added by `distinctAdds`, then
`RemoveOldest(0, 2^32)`.  Here `0 < n < L` with `n = 2^32` and `L = 2^32 + 1`, but the round
budget `max_loop` is a `uint32`, so fewer than `2^32` rounds run and the call returns less
than `n`. -/
theorem removeOldest_trim_budget_exceeded :
    (distinctAdds 4294967297).all Op.basic = true ∧
    (4294967296 : Int) < Len (run (New 1 0 1 : LruCache Nat) (distinctAdds 4294967297)) ∧
    (RemoveOldest (run (New 1 0 1 : LruCache Nat) (distinctAdds 4294967297)) 0 4294967296 0
      (fun _ => 0)).2 < 4294967296 := by
  have hst := distinctAdds_state 4294967297
  have hlen : (4294967296 : Int)
      < (run (New 1 0 1 : LruCache Nat) (distinctAdds 4294967297)).count := by
    rw [hst.1]; norm_num
  have h := RemoveOldest_lt_budget (run (New 1 0 1 : LruCache Nat) (distinctAdds 4294967297))
    hst.2 4294967296 (by norm_num) hlen 0 (fun _ => 0)
  have e : (2 : Int) ^ 32 = 4294967296 := by norm_num
  rw [e] at h
  refine ⟨distinctAdds_basic _, ?_, h⟩
  rw [Len_eq_count]
  exact hlen

/-! ## The age sweep on one shard -/

/-- The sweep of a list `keep ++ rem` whose back part `rem` is old and whose front part
`keep` does not end in an old node: exactly `rem` is removed. -/
theorem sweepLoop_split {V : Type} (lifeline : Int) (d : Nat) :
    ∀ (fuel : Nat) (keep rem : List (entry V)) (cache : List (String × Nat)) (c : Int),
      rem.length = d → d ≤ fuel → (∀ x, x ∈ rem → x.last_time < lifeline) →
      (∀ x, keep.getLast? = some x → ¬ x.last_time < lifeline) →
      (sweepLoop lifeline fuel (keep ++ rem) cache c).1 = keep ∧
      (sweepLoop lifeline fuel (keep ++ rem) cache c).2.2 = c + (d : Int) ∧
      (∀ k, mapGet (sweepLoop lifeline fuel (keep ++ rem) cache c).2.1 k
        = if k ∈ rem.map entry.key then none else mapGet cache k) := by
  induction d with
  | zero =>
    intro fuel keep rem cache c hlen _ _ hkeep
    have hrem : rem = [] := List.length_eq_zero.1 hlen
    subst hrem
    rw [List.append_nil]
    cases fuel with
    | zero => exact ⟨rfl, by simp [sweepLoop], by intro k; simp [sweepLoop]⟩
    | succ f =>
      have hval : sweepLoop lifeline (f + 1) keep cache c = (keep, cache, c) := by
        conv_lhs => unfold sweepLoop
        cases hb : keep.getLast? with
        | none => rfl
        | some kv =>
          have hno := hkeep kv hb
          simp only [hno, if_false]
      rw [hval]
      exact ⟨rfl, by simp, by intro k; simp⟩
  | succ d ih =>
    intro fuel keep rem cache c hlen hfuel hold hkeep
    obtain ⟨f, rfl⟩ : ∃ f, fuel = f + 1 := ⟨fuel - 1, by omega⟩
    have hne : rem ≠ [] := by intro h0; rw [h0] at hlen; simp at hlen
    obtain ⟨kv, hkv⟩ : ∃ kv, rem.getLast? = some kv := by
      cases hr : rem.getLast? with
      | none => exact absurd (List.getLast?_eq_none_iff.1 hr) hne
      | some kv => exact ⟨kv, rfl⟩
    have hrem := dropLast_append_getLast hkv
    have hll : keep ++ rem = (keep ++ rem.dropLast) ++ [kv] := by
      rw [List.append_assoc, ← hrem]
    have hb : (keep ++ rem).getLast? = some kv := by
      rw [hll]; exact getLast?_append_singleton _ _
    have hkvold : kv.last_time < lifeline := hold kv (getLast?_mem hkv)
    have hstep : sweepLoop lifeline (f + 1) (keep ++ rem) cache c
        = sweepLoop lifeline f (keep ++ rem.dropLast) (mapDelete cache kv.key) (c + 1) := by
      conv_lhs => unfold sweepLoop
      simp only [hb, hkvold, if_true]
      rw [hll, List.dropLast_concat]
    have hlen3 : rem.dropLast.length = d := by
      rw [List.length_dropLast, hlen]; rfl
    obtain ⟨r1, r2, r3⟩ := ih f keep rem.dropLast (mapDelete cache kv.key) (c + 1) hlen3
      (by omega) (fun x hx => hold x ((List.dropLast_sublist _).subset hx)) hkeep
    rw [hstep]
    refine ⟨r1, by rw [r2]; push_cast; omega, ?_⟩
    intro k
    have hmap : rem.map entry.key = rem.dropLast.map entry.key ++ [kv.key] := by
      conv_lhs => rw [hrem]
      simp
    rw [r3 k, hmap]
    simp only [List.mem_append, List.mem_singleton]
    by_cases h1 : k ∈ rem.dropLast.map entry.key
    · rw [if_pos h1, if_pos (Or.inl h1)]
    · rw [if_neg h1]
      by_cases h2 : k = kv.key
      · rw [if_pos (Or.inr h2), h2, mapGet_delete_self]
      · rw [if_neg (fun h => h.elim h1 h2), mapGet_delete_ne _ h2]

/-- A list ordered by last use is a fresh front part followed by an old back part. -/
theorem sorted_filter_split {V : Type} (lifeline : Int) (ll : List (entry V))
    (hs : SortedByTime ll) :
    ll = ll.filter (fun x => decide (¬ x.last_time < lifeline))
      ++ ll.filter (fun x => decide (x.last_time < lifeline)) := by
  induction ll with
  | nil => rfl
  | cons a l ih =>
    unfold SortedByTime at hs
    rw [List.pairwise_cons] at hs
    have ih2 := ih hs.2
    by_cases ha : a.last_time < lifeline
    · have hall : ∀ x, x ∈ l → x.last_time < lifeline :=
        fun x hx => lt_of_le_of_lt (hs.1 x hx) ha
      have h1 : (a :: l).filter (fun x => decide (¬ x.last_time < lifeline)) = [] := by
        rw [List.filter_eq_nil_iff]
        intro x hx
        rcases List.mem_cons.1 hx with h | h
        · rw [h]; simp [ha]
        · simp [hall x h]
      have h2 : (a :: l).filter (fun x => decide (x.last_time < lifeline)) = a :: l := by
        rw [List.filter_eq_self]
        intro x hx
        rcases List.mem_cons.1 hx with h | h
        · rw [h]; simp [ha]
        · simp [hall x h]
      rw [h1, h2]; rfl
    · rw [List.filter_cons_of_pos (by simp [ha]), List.filter_cons_of_neg (by simp [ha])]
      rw [List.cons_append, ← ih2]

/-- The age sweep of one shard whose list is ordered by last use removes exactly the nodes
older than `lifeline`, deletes their keys from the index and counts them. -/
theorem sweepLoop_sorted {V : Type} (lifeline : Int) (ll : List (entry V))
    (cache : List (String × Nat)) (hs : SortedByTime ll) :
    (sweepLoop lifeline ll.length ll cache 0).1
      = ll.filter (fun x => decide (¬ x.last_time < lifeline)) ∧
    (sweepLoop lifeline ll.length ll cache 0).2.2
      = ((ll.filter (fun x => decide (x.last_time < lifeline))).length : Int) ∧
    (∀ k, mapGet (sweepLoop lifeline ll.length ll cache 0).2.1 k
      = if k ∈ (ll.filter (fun x => decide (x.last_time < lifeline))).map entry.key then none
        else mapGet cache k) := by
  have hsplit := sorted_filter_split lifeline ll hs
  have hlen : (ll.filter (fun x => decide (x.last_time < lifeline))).length ≤ ll.length :=
    List.length_filter_le _ _
  have h := sweepLoop_split lifeline _ ll.length
    (ll.filter (fun x => decide (¬ x.last_time < lifeline)))
    (ll.filter (fun x => decide (x.last_time < lifeline))) cache 0 rfl hlen
    (by intro x hx; simpa using (List.mem_filter.1 hx).2)
    (by
      intro x hx
      have := (List.mem_filter.1 (getLast?_mem hx)).2
      simpa using this)
  rw [← hsplit] at h
  refine ⟨h.1, by rw [h.2.1]; simp, h.2.2⟩


/-- One more round than the list has nodes does not change the result of the sweep. -/
theorem sweepLoop_fuel_succ {V : Type} (lifeline : Int) (fuel : Nat) (ll : List (entry V))
    (cache : List (String × Nat)) (c : Int) (h : ll.length ≤ fuel) :
    sweepLoop lifeline (fuel + 1) ll cache c = sweepLoop lifeline fuel ll cache c := by
  induction fuel generalizing ll cache c with
  | zero =>
    have hnil : ll = [] := List.length_eq_zero.1 (Nat.le_zero.1 h)
    subst hnil
    rfl
  | succ f ih =>
    conv_lhs => unfold sweepLoop
    conv_rhs => unfold sweepLoop
    cases hb : ll.getLast? with
    | none => rfl
    | some kv =>
      by_cases ho : kv.last_time < lifeline
      · simp only [ho, if_true]
        exact ih _ _ _ (by rw [List.length_dropLast]; omega)
      · simp only [ho, if_false]

/-- The inner loop of the age sweep ends by itself: with at least as many rounds as the list
has nodes the result does not depend on the number of rounds. -/
theorem sweepLoop_enough {V : Type} (lifeline : Int) (extra : Nat) (ll : List (entry V))
    (cache : List (String × Nat)) (c : Int) :
    sweepLoop lifeline (ll.length + extra) ll cache c
      = sweepLoop lifeline ll.length ll cache c := by
  induction extra with
  | zero => rfl
  | succ e ih =>
    rw [← Nat.add_assoc, sweepLoop_fuel_succ lifeline _ ll cache c (Nat.le_add_right _ _), ih]

/-! ## The age sweep over all shards -/

theorem sweepShard_fst {V : Type} (lifeline : Int) (acc : LruCache V × Int) (s : Nat) :
    (sweepShard lifeline acc s).1.shard = acc.1.shard ∧
    (sweepShard lifeline acc s).1.lls
      = acc.1.lls.set s
          (sweepLoop lifeline (llOf acc.1 s).length (llOf acc.1 s) (cacheOf acc.1 s) 0).1 ∧
    (sweepShard lifeline acc s).1.caches
      = acc.1.caches.set s
          (sweepLoop lifeline (llOf acc.1 s).length (llOf acc.1 s) (cacheOf acc.1 s) 0).2.1 ∧
    (sweepShard lifeline acc s).1.count
      = (if 0 < (sweepLoop lifeline (llOf acc.1 s).length (llOf acc.1 s) (cacheOf acc.1 s) 0).2.2
          then acc.1.count
            - (sweepLoop lifeline (llOf acc.1 s).length (llOf acc.1 s) (cacheOf acc.1 s) 0).2.2
          else acc.1.count) ∧
    (sweepShard lifeline acc s).2
      = acc.2 + (sweepLoop lifeline (llOf acc.1 s).length (llOf acc.1 s) (cacheOf acc.1 s) 0).2.2 :=
  ⟨rfl, rfl, rfl, rfl, rfl⟩

/-- The state after the age sweep has passed the shards `0 .. n - 1`. -/
theorem sweep_range {V : Type} (lifeline : Int) {m : LruCache V} (h : WeakInv m)
    (hs : ∀ i, SortedByTime (llOf m i)) (n : Nat) (hn : n ≤ m.shard) :
    ((List.range n).foldl (sweepShard lifeline) (m, 0)).1.shard = m.shard ∧
    ((List.range n).foldl (sweepShard lifeline) (m, 0)).1.lls.length = m.shard ∧
    ((List.range n).foldl (sweepShard lifeline) (m, 0)).1.caches.length = m.shard ∧
    (∀ j, llOf ((List.range n).foldl (sweepShard lifeline) (m, 0)).1 j
      = if j < n then (llOf m j).filter (fun x => decide (¬ x.last_time < lifeline))
        else llOf m j) ∧
    (∀ j, n ≤ j →
      cacheOf ((List.range n).foldl (sweepShard lifeline) (m, 0)).1 j = cacheOf m j) ∧
    (∀ j k, j < n →
      mapGet (cacheOf ((List.range n).foldl (sweepShard lifeline) (m, 0)).1 j) k
        = if k ∈ ((llOf m j).filter (fun x => decide (x.last_time < lifeline))).map entry.key
          then none else mapGet (cacheOf m j) k) ∧
    ((List.range n).foldl (sweepShard lifeline) (m, 0)).1.count
      = m.count - ((((List.range n).map (fun j =>
          ((llOf m j).filter (fun x => decide (x.last_time < lifeline))).length)).sum : Nat) : Int) ∧
    ((List.range n).foldl (sweepShard lifeline) (m, 0)).2
      = ((((List.range n).map (fun j =>
          ((llOf m j).filter (fun x => decide (x.last_time < lifeline))).length)).sum : Nat) : Int) := by
  induction n with
  | zero =>
    refine ⟨rfl, h.lls_len, h.caches_len, ?_, ?_, ?_, ?_, ?_⟩
    · intro j; simp
    · intro j _; rfl
    · intro j k hj; omega
    · simp
    · simp
  | succ n ih =>
    obtain ⟨i1, i2, i3, i4, i5, i6, i7, i8⟩ := ih (by omega)
    rw [List.range_succ, List.foldl_append, List.foldl_cons, List.foldl_nil]
    generalize hR : (List.range n).foldl (sweepShard lifeline) (m, 0) = R at *
    obtain ⟨f1, f2, f3, f4, f5⟩ := sweepShard_fst lifeline R n
    have hll : llOf R.1 n = llOf m n := by rw [i4 n, if_neg (Nat.lt_irrefl n)]
    have hcc : cacheOf R.1 n = cacheOf m n := i5 n (Nat.le_refl n)
    rw [hll, hcc] at f2 f3 f4 f5
    obtain ⟨s1, s2, s3⟩ := sweepLoop_sorted lifeline (llOf m n) (cacheOf m n) (hs n)
    have hsum : (((List.range n ++ [n]).map (fun j =>
          ((llOf m j).filter (fun x => decide (x.last_time < lifeline))).length)).sum : Nat)
        = ((List.range n).map (fun j =>
          ((llOf m j).filter (fun x => decide (x.last_time < lifeline))).length)).sum
          + ((llOf m n).filter (fun x => decide (x.last_time < lifeline))).length := by
      simp
    refine ⟨f1.trans i1, by rw [f2]; simpa using i2, by rw [f3]; simpa using i3, ?_, ?_, ?_,
      ?_, ?_⟩
    · intro j
      rw [llOf_of_set f2, i2, s1, i4 j]
      by_cases hj : n = j
      · subst hj
        rw [if_pos ⟨rfl, by omega⟩, if_pos (Nat.lt_succ_self _)]
      · rw [if_neg (fun hh => hj hh.1)]
        by_cases hj2 : j < n
        · rw [if_pos hj2, if_pos (by omega)]
        · rw [if_neg hj2, if_neg (by omega)]
    · intro j hj
      rw [cacheOf_of_set f3, if_neg (fun hh => by omega)]
      exact i5 j (by omega)
    · intro j k hj
      rw [cacheOf_of_set f3, i3]
      by_cases hjn : n = j
      · subst hjn
        rw [if_pos ⟨rfl, by omega⟩]
        exact s3 k
      · rw [if_neg (fun hh => hjn hh.1)]
        exact i6 j k (by omega)
    · rw [f4, s2, i7, hsum]
      push_cast
      split <;> omega
    · rw [f5, s2, i8, hsum]
      push_cast
      rfl

/-- The node found for a key after the age sweep, in a state with `Inv` whose lists are
ordered by last use: old keys are gone, the others are found as before. -/
theorem peek_sweep {V : Type} (lifeline : Int) {m : LruCache V} (h : Inv m)
    (hs : ∀ i, SortedByTime (llOf m i)) (k : String) :
    peek ((List.range m.shard).foldl (sweepShard lifeline) (m, 0)).1 k
      = if isOld m lifeline k = true then none else peek m k := by
  obtain ⟨i1, _, _, i4, _, i6, _, _⟩ := sweep_range lifeline h.weak hs m.shard (Nat.le_refl _)
  have hlt := getMM_lt h.weak k
  have hmm : getMM ((List.range m.shard).foldl (sweepShard lifeline) (m, 0)).1 k = getMM m k := by
    unfold getMM; rw [i1]
  have hnd := (h.weak.shards (getMM m k)).2.1
  unfold isOld
  cases hp : peek m k with
  | none =>
    simp only [Bool.false_eq_true, if_false]
    have hg := peek_none h.weak hp
    apply peek_of_miss
    rw [hmm, i6 _ k hlt, hg]
    split <;> rfl
  | some x =>
    obtain ⟨hmem, hkey, hg⟩ := peek_some h.weak hp
    simp only [decide_eq_true_eq]
    by_cases hold : x.last_time < lifeline
    · rw [if_pos hold]
      apply peek_of_miss
      rw [hmm, i6 _ k hlt, if_pos]
      exact List.mem_map.2 ⟨x, List.mem_filter.2 ⟨hmem, by simpa using hold⟩, hkey⟩
    · rw [if_neg hold]
      have hnot : k ∉ ((llOf m (getMM m k)).filter
          (fun x => decide (x.last_time < lifeline))).map entry.key := by
        intro hc
        obtain ⟨y, hy, hyk⟩ := List.mem_map.1 hc
        obtain ⟨hy1, hy2⟩ := List.mem_filter.1 hy
        have hgy := h.order_in_index _ y hy1
        rw [hyk, hg] at hgy
        simp only [Option.some.injEq] at hgy
        have e1 := findEl_of_mem hnd hy1
        have e2 := findEl_of_mem hnd hmem
        rw [← hgy, e2] at e1
        simp only [Option.some.injEq] at e1
        rw [← e1] at hy2
        exact hold (by simpa using hy2)
      unfold peek
      rw [hmm, i6 _ k hlt, if_neg hnot, hg, i4, if_pos hlt]
      simp only
      exact findEl_of_mem (((List.filter_sublist _).map entry.id).nodup hnd)
        (List.mem_filter.2 ⟨hmem, by simpa using hold⟩)


/-! ## Counting the stored keys -/

theorem mem_storedKeys {V : Type} {m : LruCache V} (h : WeakInv m) (k : String) :
    k ∈ storedKeys m ↔ peek m k ≠ none := by
  unfold storedKeys
  rw [List.mem_flatMap]
  constructor
  · rintro ⟨i, _, hk⟩
    have hne : mapGet (cacheOf m i) k ≠ none := by
      rw [Ne, mapGet_none_iff]; exact fun hc => hc hk
    cases hg : mapGet (cacheOf m i) k with
    | none => exact absurd hg hne
    | some el =>
      have hr := (h.shards i).2.2.2.2 k el hg
      have hr2 : getMM m k = i := hr
      intro hp
      have := peek_none h hp
      rw [hr2, hg] at this
      simp at this
  · intro hp
    refine ⟨getMM m k, List.mem_range.2 (getMM_lt h k), ?_⟩
    by_contra hc
    exact hp (peek_of_miss ((mapGet_none_iff _ _).2 hc))

theorem storedKeys_nodup {V : Type} {m : LruCache V} (h : WeakInv m) :
    (storedKeys m).Nodup := by
  unfold storedKeys
  rw [List.nodup_flatMap]
  refine ⟨fun i _ => (h.shards i).2.2.1, ?_⟩
  refine List.Pairwise.imp_of_mem ?_ (List.nodup_range m.shard)
  intro a b _ _ hab
  rw [Function.onFun, List.disjoint_left]
  intro k hka hkb
  have route : ∀ i, k ∈ (cacheOf m i).map Prod.fst → getMM m k = i := by
    intro i hk
    cases hg : mapGet (cacheOf m i) k with
    | none => exact absurd hk ((mapGet_none_iff _ _).1 hg)
    | some el => exact (h.shards i).2.2.2.2 k el hg
  exact hab ((route a hka).symm.trans (route b hkb))

theorem length_filter_flatMap {α β : Type} (l : List α) (f : α → List β) (p : β → Bool) :
    ((l.flatMap f).filter p).length = (l.map (fun a => ((f a).filter p).length)).sum := by
  induction l with
  | nil => rfl
  | cons a r ih =>
    rw [List.flatMap_cons, List.filter_append, List.length_append, ih]
    rfl

/-- In a state with `Inv` the keys of the nodes of a shard are the keys of its index. -/
theorem keys_perm {V : Type} {m : LruCache V} (h : Inv m) (i : Nat) :
    ((llOf m i).map entry.key).Perm ((cacheOf m i).map Prod.fst) := by
  have hnd := (h.weak.shards i).2.1
  have hn1 : ((llOf m i).map entry.key).Nodup := by
    apply List.Nodup.map_on _ (List.Nodup.of_map entry.id hnd)
    intro x hx y hy hxy
    have gx := h.order_in_index i x hx
    have gy := h.order_in_index i y hy
    rw [hxy, gy] at gx
    simp only [Option.some.injEq] at gx
    have e1 := findEl_of_mem hnd hx
    have e2 := findEl_of_mem hnd hy
    rw [← gx, e2] at e1
    simp only [Option.some.injEq] at e1
    exact e1.symm
  rw [List.perm_ext_iff_of_nodup hn1 (h.weak.shards i).2.2.1]
  intro k
  constructor
  · intro hk
    obtain ⟨x, hx, hxk⟩ := List.mem_map.1 hk
    have gx := h.order_in_index i x hx
    rw [hxk] at gx
    by_contra hc
    rw [← mapGet_none_iff, gx] at hc
    simp at hc
  · intro hk
    cases hg : mapGet (cacheOf m i) k with
    | none => exact absurd hk ((mapGet_none_iff _ _).1 hg)
    | some el =>
      obtain ⟨x, hx, _, hxk⟩ := (h.weak.shards i).2.2.2.1 k el hg
      exact List.mem_map.2 ⟨x, hx, hxk⟩

theorem count_old_shard {V : Type} (lifeline : Int) {m : LruCache V} (h : Inv m) (i : Nat) :
    (((cacheOf m i).map Prod.fst).filter (isOld m lifeline)).length
      = ((llOf m i).filter (fun x => decide (x.last_time < lifeline))).length := by
  rw [← ((keys_perm h i).filter (isOld m lifeline)).length_eq, List.filter_map,
    List.length_map]
  congr 1
  apply List.filter_congr
  intro x hx
  simp only [Function.comp, isOld, (peek_of_mem h hx).2]

theorem count_old {V : Type} (lifeline : Int) {m : LruCache V} (h : Inv m) :
    ((storedKeys m).filter (isOld m lifeline)).length
      = ((List.range m.shard).map (fun j =>
          ((llOf m j).filter (fun x => decide (x.last_time < lifeline))).length)).sum := by
  unfold storedKeys
  rw [length_filter_flatMap]
  congr 1
  apply List.map_congr_left
  intro j _
  exact count_old_shard lifeline h j


/-! ## `RemoveOldest(T, 0)` -/

theorem RemoveOldest_sweep {V : Type} (m : LruCache V) (T now : Int) (rnd : Nat → Nat)
    (hT : 0 < T) :
    RemoveOldest m T 0 now rnd = (List.range m.shard).foldl (sweepShard (now - T)) (m, 0) := by
  unfold RemoveOldest
  have h1 : ¬ (T ≤ 0) := by omega
  simp only [le_refl, if_true, h1, if_false]

theorem isOld_iff {V : Type} (m : LruCache V) (lifeline : Int) (k : String) :
    isOld m lifeline k = true ↔ ∃ kv, peek m k = some kv ∧ kv.last_time < lifeline := by
  unfold isOld
  cases hp : peek m k with
  | none => simp
  | some kv => simp

theorem age_sweep {V : Type} {m : LruCache V} (h : Inv m) (hs : ∀ i, SortedByTime (llOf m i))
    (T now : Int) (rnd : Nat → Nat) (hT : 0 < T) :
    (∀ k t, (Get (RemoveOldest m T 0 now rnd).1 k t).2
      = if isOld m (now - T) k = true then (none, false) else (Get m k t).2) ∧
    (RemoveOldest m T 0 now rnd).2
      = (((storedKeys m).filter (isOld m (now - T))).length : Int) ∧
    Len (RemoveOldest m T 0 now rnd).1 = Len m - (RemoveOldest m T 0 now rnd).2 ∧
    (storedKeys m).Nodup ∧
    (∀ k t, k ∈ storedKeys m ↔ (Get m k t).2.2 = true) := by
  have hw2 := weakInv_RemoveOldest h.weak T 0 now rnd
  obtain ⟨_, _, _, _, _, _, i7, i8⟩ :=
    sweep_range (now - T) h.weak hs m.shard (Nat.le_refl _)
  refine ⟨?_, ?_, ?_, storedKeys_nodup h.weak, ?_⟩
  · intro k t
    rw [Get_snd hw2, Get_snd h.weak, RemoveOldest_sweep m T now rnd hT, peek_sweep (now - T) h hs]
    by_cases ho : isOld m (now - T) k = true
    · rw [if_pos ho, if_pos ho]
    · rw [if_neg ho, if_neg ho]
  · rw [RemoveOldest_sweep m T now rnd hT, i8, count_old (now - T) h]
  · unfold Len
    rw [RemoveOldest_sweep m T now rnd hT, i7, i8]
  · intro k t
    rw [mem_storedKeys h.weak, Get_snd h.weak]
    cases hp : peek m k with
    | none => simp
    | some kv => simp

/-- C5: in a state built from `New` by `Add`, `Get` and `Remove` under a clock that never
runs backwards, `RemoveOldest(T, 0)` with `T > 0` called at time `now` removes exactly the
old keys, the stored keys whose node has `last_time < now - T`: afterwards `Get` finds none
of them and finds every other key with the value it had; the call returns the number of old
keys among the stored keys (a list without repetition of the keys that `Get` finds) and
`Len()` drops by that number.  The `last_time` of the node of a stored key is the time of the
last `Add` or `Get` of the key in the history. -/
theorem removeOldest_age_sweep {V : Type} (shard : Nat) (max_entries : Int) (numCPU : Nat)
    (hcpu : 0 < numCPU) (ops : List (Op V)) (hb : ops.all Op.basic = true)
    (hc : ClockMono ops) (T now : Int) (rnd : Nat → Nat) (hT : 0 < T) :
    (∀ k t, (Get (RemoveOldest (run (New shard max_entries numCPU) ops) T 0 now rnd).1 k t).2
      = if isOld (run (New shard max_entries numCPU) ops) (now - T) k = true
        then (none, false) else (Get (run (New shard max_entries numCPU) ops) k t).2) ∧
    (RemoveOldest (run (New shard max_entries numCPU) ops) T 0 now rnd).2
      = (((storedKeys (run (New shard max_entries numCPU) ops)).filter
          (isOld (run (New shard max_entries numCPU) ops) (now - T))).length : Int) ∧
    Len (RemoveOldest (run (New shard max_entries numCPU) ops) T 0 now rnd).1
      = Len (run (New shard max_entries numCPU) ops)
        - (RemoveOldest (run (New shard max_entries numCPU) ops) T 0 now rnd).2 ∧
    (storedKeys (run (New shard max_entries numCPU) ops)).Nodup ∧
    (∀ k t, k ∈ storedKeys (run (New shard max_entries numCPU) ops)
      ↔ (Get (run (New shard max_entries numCPU) ops) k t).2.2 = true) ∧
    (∀ k, isOld (run (New shard max_entries numCPU) ops) (now - T) k = true
      ↔ ∃ kv, peek (run (New shard max_entries numCPU) ops) k = some kv ∧
          kv.last_time < now - T) ∧
    (∀ k kv, peek (run (New shard max_entries numCPU) ops) k = some kv →
      lastUse ops k = some kv.last_time) := by
  have hinv := inv_built shard max_entries numCPU hcpu ops hb
  obtain ⟨T0, hT0⟩ := timeInv_reach shard max_entries numCPU ops hc
  obtain ⟨a1, a2, a3, a4, a5⟩ := age_sweep hinv (fun i => (hT0 i).1) T now rnd hT
  exact ⟨a1, a2, a3, a4, a5, fun k => isOld_iff _ _ k,
    fun k kv hp => last_time_eq_lastUse shard max_entries numCPU hcpu ops hb k kv hp⟩

set_option maxRecDepth 100000 in
theorem removeOldest_age_sweep_witness :
    (RemoveOldest (run (New 2 0 4) testHistory) 100 0 310 (fun _ => 0)).2 = 3 ∧
    Len (RemoveOldest (run (New 2 0 4) testHistory) 100 0 310 (fun _ => 0)).1 = 10 ∧
    (Get (RemoveOldest (run (New 2 0 4) testHistory) 100 0 310 (fun _ => 0)).1 "tk0" 311).2
      = (none, false) ∧
    (Get (RemoveOldest (run (New 2 0 4) testHistory) 100 0 310 (fun _ => 0)).1 "tk3" 311).2
      = (some 3, true) ∧
    (RemoveOldest (run (New 2 0 4) testHistory) 100 0 310 (fun _ => 0)).2
      = (((storedKeys (run (New 2 0 4) testHistory)).filter
          (isOld (run (New 2 0 4) testHistory) (310 - 100))).length : Int) :=
  ⟨by decide, by decide, by decide, by decide,
    (removeOldest_age_sweep 2 0 4 (by decide) testHistory (by decide) (by decide) 100 310
      (fun _ => 0) (by decide)).2.1⟩

/-! ## `Remove` twice, the routing of keys, the order by last use -/

theorem Remove_absent {V : Type} {m : LruCache V} (h : WeakInv m) (k : String) (t0 : Int)
    (hk : (Get m k t0).2.2 = false) : Remove m k = m := by
  apply Remove_miss
  apply peek_none h
  rw [Get_snd h] at hk
  cases hp : peek m k with
  | none => rfl
  | some kv => rw [hp] at hk; simp at hk

theorem Remove_idem {V : Type} {m : LruCache V} (h : WeakInv m) (k : String) :
    Remove (Remove m k) k = Remove m k := by
  have h1 := Get_Remove_self h k 0
  exact Remove_absent (weakInv_Remove h k) k 0 (by rw [h1])

theorem Remove_present_len {V : Type} (m : LruCache V) (k : String) (t0 : Int)
    (hk : (Get m k t0).2.2 = true) : Len (Remove m k) = Len m - 1 := by
  cases hg : mapGet (cacheOf m (getMM m k)) k with
  | none => rw [Get_miss t0 hg] at hk; simp at hk
  | some el => rw [Remove_hit hg]; rfl

/-- C12: in every state reachable from `New` by public operations, `Remove(k)` of a key that
is not stored returns the state unchanged (counter, lists, indexes); `Remove(k)` twice gives
the same state as `Remove(k)` once; `Remove(k)` of a stored key lowers `Len()` by exactly
one. -/
theorem remove_idempotent {V : Type} (shard : Nat) (max_entries : Int) (numCPU : Nat)
    (hcpu : 0 < numCPU) (ops : List (Op V)) (k : String) (t0 : Int) :
    ((Get (run (New shard max_entries numCPU) ops) k t0).2.2 = false →
      Remove (run (New shard max_entries numCPU) ops) k = run (New shard max_entries numCPU) ops) ∧
    Remove (Remove (run (New shard max_entries numCPU) ops) k) k
      = Remove (run (New shard max_entries numCPU) ops) k ∧
    ((Get (run (New shard max_entries numCPU) ops) k t0).2.2 = true →
      Len (Remove (run (New shard max_entries numCPU) ops) k)
        = Len (run (New shard max_entries numCPU) ops) - 1) :=
  ⟨Remove_absent (weakInv_reach shard max_entries numCPU hcpu ops) k t0,
    Remove_idem (weakInv_reach shard max_entries numCPU hcpu ops) k,
    Remove_present_len _ k t0⟩

theorem remove_idempotent_witness :
    Len (run (New 2 0 4 : LruCache Nat) [Op.add "d" 7 10 (fun _ => 0), Op.add "a" 8 11 (fun _ => 0)])
      = 2 ∧
    Len (Remove (run (New 2 0 4 : LruCache Nat)
      [Op.add "d" 7 10 (fun _ => 0), Op.add "a" 8 11 (fun _ => 0)]) "a") = 1 ∧
    Remove (Remove (run (New 2 0 4 : LruCache Nat)
      [Op.add "d" 7 10 (fun _ => 0), Op.add "a" 8 11 (fun _ => 0)]) "a") "a"
      = Remove (run (New 2 0 4 : LruCache Nat)
        [Op.add "d" 7 10 (fun _ => 0), Op.add "a" 8 11 (fun _ => 0)]) "a" :=
  ⟨by decide, by decide,
    (remove_idempotent 2 0 4 (by decide)
      [Op.add "d" 7 10 (fun _ => 0), Op.add "a" 8 11 (fun _ => 0)] "a" 0).2.1⟩

theorem keys_routed {V : Type} {m : LruCache V} (h : WeakInv m) (i : Nat) (k : String)
    (hk : k ∈ (cacheOf m i).map Prod.fst) : getMM m k = i := by
  cases hg : mapGet (cacheOf m i) k with
  | none => exact absurd hk ((mapGet_none_iff _ _).1 hg)
  | some el => exact (h.shards i).2.2.2.2 k el hg

/-- C17: the shard of a key is `ChecksumIEEE(key) % shard_count`, a function of the key and
of the shard count fixed by `New` alone, and an index below the shard count; in every state
reachable from `New` by public operations every key of the index of shard `i` is routed to
shard `i`, so no key is in the indexes of two shards. -/
theorem shard_routing_stable {V : Type} (shard : Nat) (max_entries : Int) (numCPU : Nat)
    (hcpu : 0 < numCPU) (ops : List (Op V)) (k : String) :
    getMM (run (New shard max_entries numCPU) ops) k
      = ChecksumIEEE k % (if shard = 0 then numCPU else shard) ∧
    getMM (run (New shard max_entries numCPU) ops) k
      < (run (New shard max_entries numCPU) ops).shard ∧
    (run (New shard max_entries numCPU) ops).shard = (if shard = 0 then numCPU else shard) ∧
    (∀ i k2, k2 ∈ (cacheOf (run (New shard max_entries numCPU) ops) i).map Prod.fst →
      getMM (run (New shard max_entries numCPU) ops) k2 = i) ∧
    (∀ i j k2, k2 ∈ (cacheOf (run (New shard max_entries numCPU) ops) i).map Prod.fst →
      k2 ∈ (cacheOf (run (New shard max_entries numCPU) ops) j).map Prod.fst → i = j) := by
  have hw := weakInv_reach shard max_entries numCPU hcpu ops
  have hs : (run (New shard max_entries numCPU) ops).shard
      = (if shard = 0 then numCPU else shard) :=
    (frame_run (New shard max_entries numCPU : LruCache V) ops).1
  refine ⟨by unfold getMM; rw [hs], getMM_lt hw k, hs, keys_routed hw, ?_⟩
  intro i j k2 hi hj
  exact (keys_routed hw i k2 hi).symm.trans (keys_routed hw j k2 hj)

set_option maxRecDepth 100000 in
theorem shard_routing_stable_witness :
    ChecksumIEEE "a" = 3904355907 ∧ ChecksumIEEE "123456789" = 3421780262 ∧
    getMM (run (New 0 0 4 : LruCache Nat) [Op.add "a" 1 0 (fun _ => 0), Op.clear]) "a"
      = ChecksumIEEE "a" % (if 0 = 0 then 4 else 0) :=
  ⟨by decide, by decide,
    (shard_routing_stable 0 0 4 (by decide) [Op.add "a" 1 0 (fun _ => 0), Op.clear] "a").1⟩

/-- C19: in every state reachable from `New` by public operations under a clock that never
runs backwards, the list of every shard is ordered by last use, `last_time` never increases
from front to back; so when a node of the list is not older than a cutoff, no node nearer
the front is older than the cutoff. -/
theorem recency_order_sorted {V : Type} (shard : Nat) (max_entries : Int) (numCPU : Nat)
    (ops : List (Op V)) (hc : ClockMono ops) (i : Nat) :
    SortedByTime (llOf (run (New shard max_entries numCPU) ops) i) ∧
    (∀ (lifeline : Int) l1 x l2, llOf (run (New shard max_entries numCPU) ops) i = l1 ++ x :: l2 →
      ¬ x.last_time < lifeline → ∀ y, y ∈ l1 → ¬ y.last_time < lifeline) := by
  obtain ⟨T, hT⟩ := timeInv_reach shard max_entries numCPU ops hc
  refine ⟨(hT i).1, ?_⟩
  intro lifeline l1 x l2 hl hx y hy
  have hs := (hT i).1
  unfold SortedByTime at hs
  rw [hl] at hs
  have := (List.pairwise_append.1 hs).2.2 y hy x (List.mem_cons_self _ _)
  omega

theorem recency_order_sorted_witness :
    llOf (run (New 1 0 1 : LruCache Nat)
      [Op.add "a" 1 0 (fun _ => 0), Op.clear, Op.add "a" 2 100 (fun _ => 0),
       Op.add "b" 3 101 (fun _ => 0), Op.get "a" 102, Op.removeOldest 500 1 103 (fun _ => 0)]) 0
      = [entry.mk 1 102 "a" 2, entry.mk 2 101 "b" 3, entry.mk 0 0 "a" 1] ∧
    SortedByTime (llOf (run (New 1 0 1 : LruCache Nat)
      [Op.add "a" 1 0 (fun _ => 0), Op.clear, Op.add "a" 2 100 (fun _ => 0),
       Op.add "b" 3 101 (fun _ => 0), Op.get "a" 102, Op.removeOldest 500 1 103 (fun _ => 0)]) 0) :=
  ⟨by decide,
    (recency_order_sorted 1 0 1
      [Op.add "a" 1 0 (fun _ => 0), Op.clear, Op.add "a" 2 100 (fun _ => 0),
       Op.add "b" 3 101 (fun _ => 0), Op.get "a" 102, Op.removeOldest 500 1 103 (fun _ => 0)]
      (by decide) 0).1⟩

/-! ## What the nodes left behind by `Clear` do -/

/-- C13 (failing input): `New(1, 0)`, `Add("a", 1)`, `Clear()`, `Clear()`.  After the first
`Clear` no key is stored and `Len()` is 0, but the node of `"a"` is still on the list of
shard 0: the second `Clear` returns 1, not 0, and changes the state (`Len()` becomes -1).
Same defect as C4: `ll = list.New()` assigns a local variable. -/
theorem clear_again_returns_one :
    storedKeys (Clear (Add (New 1 0 1 : LruCache Nat) "a" 1 0 (fun _ => 0))).1 = [] ∧
    Len (Clear (Add (New 1 0 1 : LruCache Nat) "a" 1 0 (fun _ => 0))).1 = 0 ∧
    (Clear (Clear (Add (New 1 0 1 : LruCache Nat) "a" 1 0 (fun _ => 0))).1).2 = 1 ∧
    (Clear (Clear (Add (New 1 0 1 : LruCache Nat) "a" 1 0 (fun _ => 0))).1).1
      ≠ (Clear (Add (New 1 0 1 : LruCache Nat) "a" 1 0 (fun _ => 0))).1 := by
  decide

/-- C15 (failing input): `New(1, 0)`, `Add("a", 1)`, `Clear()`, `Clear()`.  No key is stored
in the state reached (`Get` finds none, the index of shard 0 is empty), yet `Len()` is -1:
it is not the number of entries and it is negative.  Same defect as C4: the second `Clear`
subtracts the length of the list that the first one did not replace. -/
theorem len_negative_no_entries :
    storedKeys (run (New 1 0 1 : LruCache Nat)
      [Op.add "a" 1 0 (fun _ => 0), Op.clear, Op.clear]) = [] ∧
    (Get (run (New 1 0 1 : LruCache Nat)
      [Op.add "a" 1 0 (fun _ => 0), Op.clear, Op.clear]) "a" 1).2 = (none, false) ∧
    Len (run (New 1 0 1 : LruCache Nat)
      [Op.add "a" 1 0 (fun _ => 0), Op.clear, Op.clear]) = -1 := by
  decide

/-- C16 (failing input): `New(1, 0)`, `Add("a", 1)`, `Add("b", 2)`, `Clear()`, then
`RemoveOldest(0, 1)`.  `Len()` is 0, so `max_count >= count` sends the call to `Clear()`,
which returns the length of the list of shard 0; the list still holds the two nodes that the
first `Clear` did not remove: the call returns 2, more than `max_count = 1`.  Same defect as
C4. -/
theorem removeOldest_returns_more_than_max_count :
    Len (run (New 1 0 1 : LruCache Nat)
      [Op.add "a" 1 0 (fun _ => 0), Op.add "b" 2 1 (fun _ => 0), Op.clear]) = 0 ∧
    llOf (run (New 1 0 1 : LruCache Nat)
      [Op.add "a" 1 0 (fun _ => 0), Op.add "b" 2 1 (fun _ => 0), Op.clear]) 0
      = [entry.mk 1 1 "b" 2, entry.mk 0 0 "a" 1] ∧
    (RemoveOldest (run (New 1 0 1 : LruCache Nat)
      [Op.add "a" 1 0 (fun _ => 0), Op.add "b" 2 1 (fun _ => 0), Op.clear]) 0 1 2
      (fun _ => 0)).2 = 2 := by
  decide

/-- C20 (failing input): `New(1, 0)`, `Add("a", 1)` at time 0, `Clear()`, `Add("a", 2)` at
time 100, then `RemoveOldest(50, 0)` at time 100.  The key `"a"` was added at time
`100 >= 100 - 50` and `Get("a")` would return `(2, true)`; but the node of the first `Add`
is still at the back of the list, it is older than the cutoff, and the sweep that unlinks it
deletes its key `"a"` from the index: afterwards `Get("a")` finds nothing.  Same defect as
C4. -/
theorem sweep_removes_fresh_key_after_clear :
    llOf (run (New 1 0 1 : LruCache Nat)
      [Op.add "a" 1 0 (fun _ => 0), Op.clear, Op.add "a" 2 100 (fun _ => 0)]) 0
      = [entry.mk 1 100 "a" 2, entry.mk 0 0 "a" 1] ∧
    (Get (run (New 1 0 1 : LruCache Nat)
      [Op.add "a" 1 0 (fun _ => 0), Op.clear, Op.add "a" 2 100 (fun _ => 0)]) "a" 100).2
      = (some 2, true) ∧
    (RemoveOldest (run (New 1 0 1 : LruCache Nat)
      [Op.add "a" 1 0 (fun _ => 0), Op.clear, Op.add "a" 2 100 (fun _ => 0)]) 50 0 100
      (fun _ => 0)).2 = 1 ∧
    (Get (RemoveOldest (run (New 1 0 1 : LruCache Nat)
      [Op.add "a" 1 0 (fun _ => 0), Op.clear, Op.add "a" 2 100 (fun _ => 0)]) 50 0 100
      (fun _ => 0)).1 "a" 100).2 = (none, false) := by
  decide

/-! ## A cache without a bound keeps every key -/

theorem addAll_unbounded_peek {V : Type} (kvs : List (String × V × Int × (Nat → Nat)))
    (seen : List String) (m : LruCache V) (h : Inv m) (hmax : m.max ≤ 0)
    (hkeys : ∀ k, peek m k ≠ none → k ∈ seen)
    (hnd : (kvs.map Prod.fst).Nodup) (hdisj : ∀ k, k ∈ kvs.map Prod.fst → k ∉ seen) :
    (∀ p, p ∈ kvs → ∃ kv, peek (addAll m kvs) p.1 = some kv ∧ kv.value = p.2.1) ∧
    (∀ k, k ∉ kvs.map Prod.fst → peek (addAll m kvs) k = peek m k) := by
  induction kvs generalizing m seen with
  | nil => exact ⟨fun p hp => absurd hp (List.not_mem_nil p), fun k _ => rfl⟩
  | cons p rest ih =>
    simp only [List.map_cons, List.nodup_cons] at hnd
    have hp : peek m p.1 = none := by
      by_contra hne
      exact hdisj p.1 (by simp) (hkeys p.1 hne)
    have hg := peek_none h.weak hp
    have hadd : Add m p.1 p.2.1 p.2.2.1 p.2.2.2 = pushNew m (getMM m p.1) p.1 p.2.1 p.2.2.1 := by
      rw [Add_new _ _ _ hg, if_neg (fun hh => by omega)]
    have hinv2 := inv_pushNew h p.1 p.2.1 p.2.2.1 hg
    have hstep := ih (p.1 :: seen) (pushNew m (getMM m p.1) p.1 p.2.1 p.2.2.1) hinv2 hmax
      (by
        intro k hk
        rw [peek_pushNew h.weak _ _ hg] at hk
        by_cases hkp : k = p.1
        · rw [hkp]; exact List.mem_cons_self _ _
        · rw [if_neg hkp] at hk; exact List.mem_cons_of_mem _ (hkeys k hk))
      hnd.2
      (by
        intro k hk hmem
        rcases List.mem_cons.1 hmem with h3 | h3
        · rw [h3] at hk; exact hnd.1 hk
        · exact hdisj k (List.mem_cons_of_mem _ hk) h3)
    have hfold : addAll m (p :: rest) = addAll (Add m p.1 p.2.1 p.2.2.1 p.2.2.2) rest := rfl
    rw [hfold, hadd]
    constructor
    · intro q hq
      rcases List.mem_cons.1 hq with hqp | hqr
      · rw [hqp, hstep.2 p.1 hnd.1, peek_pushNew h.weak _ _ hg, if_pos rfl]
        exact ⟨_, rfl, rfl⟩
      · exact hstep.1 q hqr
    · intro k hk
      have hk1 : k ≠ p.1 := fun hh => hk (by rw [hh]; exact List.mem_cons_self _ _)
      have hk2 : k ∉ rest.map Prod.fst := fun hh => hk (List.mem_cons_of_mem _ hh)
      rw [hstep.2 k hk2, peek_pushNew h.weak _ _ hg, if_neg hk1]

theorem peek_New {V : Type} (shard : Nat) (max_entries : Int) (numCPU : Nat)
    (hcpu : 0 < numCPU) (k : String) :
    peek (New shard max_entries numCPU : LruCache V) k = none := by
  apply peek_of_miss
  have hw := weakInv_New (V := V) shard max_entries numCPU hcpu
  cases hg : mapGet (cacheOf (New shard max_entries numCPU : LruCache V)
      (getMM (New shard max_entries numCPU : LruCache V) k)) k with
  | none => rfl
  | some el =>
    obtain ⟨x, hx, _, _⟩ := (hw.shards _).2.2.2.1 k el hg
    have h1 : llOf (New shard max_entries numCPU : LruCache V)
        (getMM (New shard max_entries numCPU : LruCache V) k) = [] := by
      simp only [llOf, New, List.getD_eq_getElem?_getD, List.getElem?_replicate]
      split <;> split <;> rfl
    rw [h1] at hx; simp at hx

/-- C11: a cache built with `max_entries <= 0` (any shard count, `numCPU >= 1` standing for
`runtime.NumCPU()`) never evicts in `Add`: in every state reached from `New` by public
operations `Add` of a key that the index does not hold is the insertion alone (no call of
`RemoveOldest`).  After the `Add` of `n` keys that differ from one another to the fresh cache,
`Len()` is `n` and `Get` of each of them returns the value it was added with and `true`. -/
theorem unbounded_adds_all_kept {V : Type} (shard : Nat) (max_entries : Int) (numCPU : Nat)
    (hcpu : 0 < numCPU) (hmax : max_entries ≤ 0)
    (kvs : List (String × V × Int × (Nat → Nat))) (hnd : (kvs.map Prod.fst).Nodup) :
    (∀ (ops : List (Op V)) (k : String) (v : V) (now : Int) (rnd : Nat → Nat),
      mapGet (cacheOf (run (New shard max_entries numCPU) ops)
        (getMM (run (New shard max_entries numCPU) ops) k)) k = none →
      Add (run (New shard max_entries numCPU) ops) k v now rnd
        = pushNew (run (New shard max_entries numCPU) ops)
            (getMM (run (New shard max_entries numCPU) ops) k) k v now) ∧
    Len (addAll (New shard max_entries numCPU) kvs) = (kvs.length : Int) ∧
    (∀ p, p ∈ kvs → ∀ t,
      (Get (addAll (New shard max_entries numCPU) kvs) p.1 t).2 = (some p.2.1, true)) := by
  have hinv : Inv (New shard max_entries numCPU : LruCache V) := inv_New shard max_entries numCPU hcpu
  have hm0 : (New shard max_entries numCPU : LruCache V).max ≤ 0 := hmax
  have hpk : ∀ k, peek (New shard max_entries numCPU : LruCache V) k ≠ none → k ∈ ([] : List String) := by
    intro k hk
    exact absurd (peek_New shard max_entries numCPU hcpu k) hk
  have h1 := addAll_unbounded kvs [] _ hinv hm0 hpk hnd (fun k _ hk => List.not_mem_nil k hk)
  have h2 := addAll_unbounded_peek kvs [] _ hinv hm0 hpk hnd (fun k _ hk => List.not_mem_nil k hk)
  refine ⟨?_, ?_, ?_⟩
  · intro ops k v now rnd hg
    have hmx : (run (New shard max_entries numCPU : LruCache V) ops).max = max_entries :=
      (frame_run _ ops).2
    rw [Add_new _ _ _ hg, if_neg (fun hh => by rw [hmx] at hh; omega)]
  · rw [Len_eq_count, h1.1]
    show (0 : Int) + _ = _
    omega
  · intro p hp t
    obtain ⟨kv, hkv, hval⟩ := h2.1 p hp
    rw [Get_snd h1.2.1.weak, hkv]
    show (some kv.value, true) = _
    rw [hval]

set_option maxRecDepth 100000 in
theorem unbounded_adds_all_kept_witness :
    (0 : Int) ≤ 0 ∧
    Len (addAll (New 2 0 4 : LruCache Nat)
      [("a", 1, 0, fun _ => 0), ("b", 2, 1, fun _ => 0), ("c", 3, 2, fun _ => 0)]) = 3 ∧
    (Get (addAll (New 2 0 4 : LruCache Nat)
      [("a", 1, 0, fun _ => 0), ("b", 2, 1, fun _ => 0), ("c", 3, 2, fun _ => 0)]) "a" 5).2
      = (some 1, true) :=
  ⟨by decide,
    (unbounded_adds_all_kept 2 0 4 (by decide) (by decide)
      [("a", 1, 0, fun _ => 0), ("b", 2, 1, fun _ => 0), ("c", 3, 2, fun _ => 0)]
      (by decide)).2.1,
    (unbounded_adds_all_kept 2 0 4 (by decide) (by decide)
      [("a", 1, 0, fun _ => 0), ("b", 2, 1, fun _ => 0), ("c", 3, 2, fun _ => 0)]
      (by decide)).2.2 ("a", 1, 0, fun _ => 0) (List.mem_cons_self _ _) 5⟩

/-! ## The value that `Get` returns -/

theorem mapGet_of_delete {cache : List (String × Nat)} {key k : String} {el : Nat}
    (h : mapGet (mapDelete cache key) k = some el) : mapGet cache k = some el := by
  by_cases hk : k = key
  · rw [hk, mapGet_delete_self] at h; simp at h
  · rw [mapGet_delete_ne _ hk] at h; exact h

/-- When the list of one shard is replaced by a sublist and the index of that shard by a part
of itself, every node that `peek` finds afterwards is the node it found before. -/
theorem peek_shrink_set {V : Type} {m m2 : LruCache V} (h : WeakInv m) {s : Nat}
    {l : List (entry V)} {c : List (String × Nat)} (hlt : s < m.shard)
    (hs : m2.shard = m.shard) (hl : m2.lls = m.lls.set s l)
    (hc : m2.caches = m.caches.set s c) (hsub : l.Sublist (llOf m s))
    (hpart : ∀ k el, mapGet c k = some el → mapGet (cacheOf m s) k = some el)
    {k : String} {x : entry V} (hp : peek m2 k = some x) : peek m k = some x := by
  rw [peek_of_set h hlt hs hl hc k] at hp
  by_cases hi : getMM m k = s
  · rw [if_pos hi] at hp
    cases hg : mapGet c k with
    | none => rw [hg] at hp; simp at hp
    | some el =>
      rw [hg] at hp
      simp only at hp
      obtain ⟨hx, hid⟩ := findEl_some hp
      have hx2 := hsub.subset hx
      have hf := findEl_of_mem (h.shards s).2.1 hx2
      unfold peek
      rw [hi, hpart k el hg]
      simp only
      rw [← hid]; exact hf
  · rw [if_neg hi] at hp; exact hp

theorem peek_removeBack_some {V : Type} {m : LruCache V} (h : WeakInv m) {s : Nat}
    {kv : entry V} (hb : (llOf m s).getLast? = some kv) {k : String} {x : entry V}
    (hp : peek (removeBack m s kv) k = some x) : peek m k = some x :=
  @peek_shrink_set V m (removeBack m s kv) h s (llOf m s).dropLast
    (mapDelete (cacheOf m s) kv.key) (getLast?_lt_shard h hb) rfl rfl rfl
    (List.dropLast_sublist _) (fun _ _ hg => mapGet_of_delete hg) k x hp

theorem sweepLoop_part {V : Type} (lifeline : Int) (fuel : Nat) (ll : List (entry V))
    (cache : List (String × Nat)) (c : Int) (k : String) (el : Nat)
    (hg : mapGet (sweepLoop lifeline fuel ll cache c).2.1 k = some el) :
    mapGet cache k = some el := by
  induction fuel generalizing ll cache c with
  | zero => exact hg
  | succ n ih =>
    unfold sweepLoop at hg
    cases hb : ll.getLast? with
    | none => rw [hb] at hg; exact hg
    | some kv =>
      rw [hb] at hg
      simp only at hg
      by_cases ho : kv.last_time < lifeline
      · rw [if_pos ho] at hg
        exact mapGet_of_delete (ih _ _ _ hg)
      · rw [if_neg ho] at hg; exact hg

theorem peek_sweepShard_some {V : Type} (lifeline : Int) {a : LruCache V × Int}
    (h : WeakInv a.1) {s : Nat} (hlt : s < a.1.shard) {k : String} {x : entry V}
    (hp : peek (sweepShard lifeline a s).1 k = some x) : peek a.1 k = some x := by
  obtain ⟨h1, h2, h3, _, _⟩ := sweepShard_fst lifeline a s
  exact peek_shrink_set h hlt h1 h2 h3 (sweepLoop_sublist _ _ _ _ _)
    (fun k el hg => sweepLoop_part _ _ _ _ _ k el hg) hp

theorem peek_foldl_sweepShard_some {V : Type} (lifeline : Int) (l : List Nat)
    {a : LruCache V × Int} (h : WeakInv a.1) (hl : ∀ s, s ∈ l → s < a.1.shard)
    {k : String} {x : entry V}
    (hp : peek (l.foldl (sweepShard lifeline) a).1 k = some x) : peek a.1 k = some x := by
  induction l generalizing a with
  | nil => exact hp
  | cons s rest ih =>
    rw [List.foldl_cons] at hp
    have hsh := (sweepShard_fst lifeline a s).1
    have h1 := ih (weakInv_sweepShard lifeline h s)
      (fun j hj => by rw [hsh]; exact hl j (List.mem_cons_of_mem _ hj)) hp
    exact peek_sweepShard_some lifeline h (hl s (List.mem_cons_self _ _)) h1

theorem peek_clearShard_some {V : Type} {a : LruCache V × Int}
    (h : WeakInv a.1) {s : Nat} (hlt : s < a.1.shard) {k : String} {x : entry V}
    (hp : peek (clearShard a s).1 k = some x) : peek a.1 k = some x :=
  @peek_shrink_set V a.1 (clearShard a s).1 h s (llOf a.1 s) [] hlt rfl
    (show a.1.lls = a.1.lls.set s (a.1.lls.getD s []) from (set_getD_self _ _ _).symm)
    rfl (List.Sublist.refl _) (fun k el hg => by simp [mapGet] at hg) k x hp

theorem peek_foldl_clearShard_some {V : Type} (l : List Nat)
    {a : LruCache V × Int} (h : WeakInv a.1) (hl : ∀ s, s ∈ l → s < a.1.shard)
    {k : String} {x : entry V}
    (hp : peek (l.foldl clearShard a).1 k = some x) : peek a.1 k = some x := by
  induction l generalizing a with
  | nil => exact hp
  | cons s rest ih =>
    rw [List.foldl_cons] at hp
    have h1 := ih (weakInv_clearShard h s)
      (fun j hj => hl j (List.mem_cons_of_mem _ hj)) hp
    exact peek_clearShard_some h (hl s (List.mem_cons_self _ _)) h1

theorem peek_sampleLoop_some {V : Type} (t lifeline max_count : Int) (rnd : Nat → Nat)
    (fuel loop : Nat) {m : LruCache V} (out : Int) (h : WeakInv m) {k : String} {x : entry V}
    (hp : peek (sampleLoop t lifeline max_count rnd fuel loop m out).1 k = some x) :
    peek m k = some x := by
  induction fuel generalizing loop m out with
  | zero => exact hp
  | succ n ih =>
    unfold sampleLoop at hp
    by_cases ho : out < max_count
    · rw [if_pos ho] at hp
      simp only at hp
      cases hb : (llOf m (rnd loop % m.shard)).getLast? with
      | none => rw [hb] at hp; exact ih _ _ h hp
      | some kv =>
        rw [hb] at hp
        simp only at hp
        by_cases hc : t ≤ 0 ∨ kv.last_time < lifeline
        · rw [if_pos hc] at hp
          exact peek_removeBack_some h hb (ih _ _ (weakInv_removeBack h hb) hp)
        · rw [if_neg hc] at hp; exact ih _ _ h hp
    · rw [if_neg ho] at hp; exact hp

theorem peek_RemoveOldest_some {V : Type} {m : LruCache V} (h : WeakInv m)
    (t max_count now : Int) (rnd : Nat → Nat) {k : String} {x : entry V}
    (hp : peek (RemoveOldest m t max_count now rnd).1 k = some x) : peek m k = some x := by
  have hr : ∀ s, s ∈ List.range m.shard → s < m.shard := fun s hs => List.mem_range.1 hs
  unfold RemoveOldest at hp
  simp only at hp
  by_cases h1 : max_count ≤ 0
  · rw [if_pos h1] at hp
    by_cases h2 : t ≤ 0
    · rw [if_pos h2] at hp
      exact peek_foldl_clearShard_some (a := (m, 0)) _ h hr hp
    · rw [if_neg h2] at hp
      exact peek_foldl_sweepShard_some (a := (m, 0)) _ _ h hr hp
  · rw [if_neg h1] at hp
    by_cases h3 : m.count ≤ max_count
    · rw [if_pos h3] at hp
      exact peek_foldl_clearShard_some (a := (m, 0)) _ h hr hp
    · rw [if_neg h3] at hp
      exact peek_sampleLoop_some _ _ _ _ _ _ _ h hp

theorem peek_Clear_some {V : Type} {m : LruCache V} (h : WeakInv m) {k : String}
    {x : entry V} (hp : peek (Clear m).1 k = some x) : peek m k = some x :=
  peek_foldl_clearShard_some (a := (m, 0)) _ h
    (fun _ hs => List.mem_range.1 hs) hp

/-- The node that `Get` finds for a key after `Add(k, v)`: the key is `k` and the value is
`v`, or the key is another one and the node is the one found before. -/
theorem peek_Add_value {V : Type} {m : LruCache V} (h : WeakInv m) (k : String) (v : V)
    (now : Int) (rnd : Nat → Nat) {k2 : String} {x : entry V}
    (hp : peek (Add m k v now rnd) k2 = some x) :
    (k2 = k ∧ x.value = v) ∨ (k2 ≠ k ∧ ∃ x0, peek m k2 = some x0 ∧ x0.value = x.value) := by
  cases hg : mapGet (cacheOf m (getMM m k)) k with
  | some el =>
    obtain ⟨kv, hmem, hid, hkey⟩ := (h.shards (getMM m k)).2.2.2.1 k el hg
    have hf := findEl_of_mem (h.shards (getMM m k)).2.1 hmem
    rw [hid] at hf
    have hpk : peek m k = some kv := by
      unfold peek; rw [hg]; exact hf
    have hadd := Add_hit v now rnd hg hf
    have hpt := @peek_touch V m (Add m k v now rnd) h k kv (entry.mk kv.id now kv.key v) hpk rfl
      (by rw [hadd]) (by rw [hadd, hid]) (by rw [hadd]) k2
    rw [hpt] at hp
    by_cases hk : k2 = k
    · rw [if_pos hk] at hp
      simp only [Option.some.injEq] at hp
      exact Or.inl ⟨hk, by rw [← hp]⟩
    · rw [if_neg hk] at hp
      exact Or.inr ⟨hk, x, hp, rfl⟩
  | none =>
    have hpush : peek (pushNew m (getMM m k) k v now) k2 = some x := by
      rcases Add_absent_cases v now rnd hg with h1 | ⟨_, kv, _, hb, h1⟩
      · rw [h1] at hp; exact hp
      · rw [h1] at hp
        exact peek_removeBack_some (weakInv_pushNew h k v now) hb hp
    rw [peek_pushNew h v now hg k2] at hpush
    by_cases hk : k2 = k
    · rw [if_pos hk] at hpush
      simp only [Option.some.injEq] at hpush
      exact Or.inl ⟨hk, by rw [← hpush]⟩
    · rw [if_neg hk] at hpush
      exact Or.inr ⟨hk, x, hpush, rfl⟩

/-- What `Get(k)` does to a state that satisfies `WeakInv`. -/
theorem Get_frame {V : Type} {m : LruCache V} (h : WeakInv m) (k : String) (now : Int) :
    Len (Get m k now).1 = Len m ∧
    (Get m k now).1.caches = m.caches ∧
    storedKeys (Get m k now).1 = storedKeys m ∧
    (∀ k2 x, peek (Get m k now).1 k2 = some x →
      ∃ x0, peek m k2 = some x0 ∧ x0.value = x.value) ∧
    (∀ k2 t, (Get (Get m k now).1 k2 t).2 = (Get m k2 t).2) ∧
    ((Get m k now).2.2 = true →
      ∃ l1 kv l2, llOf m (getMM m k) = l1 ++ kv :: l2 ∧ kv.key = k ∧
        peek m k = some kv ∧
        (Get m k now).2 = (some kv.value, true) ∧
        llOf (Get m k now).1 (getMM m k) = entry.mk kv.id now k kv.value :: (l1 ++ l2) ∧
        (∀ j, j ≠ getMM m k → llOf (Get m k now).1 j = llOf m j)) ∧
    ((Get m k now).2.2 = false → Get m k now = (m, none, false)) := by
  cases hp : peek m k with
  | none =>
    have hget := Get_miss now (peek_none h hp)
    rw [hget]
    refine ⟨rfl, rfl, rfl, fun k2 x hx => ⟨x, hx, rfl⟩, fun _ _ => rfl, ?_, fun _ => rfl⟩
    intro hh
    simp at hh
  | some kv =>
    obtain ⟨hmem, hkey, hg⟩ := peek_some h hp
    have hf := findEl_of_mem (h.shards (getMM m k)).2.1 hmem
    have hget := Get_hit now hg hf
    have h2 := weakInv_Get h k now
    have hpk : ∀ k2, peek (Get m k now).1 k2
        = if k2 = k then some (entry.mk kv.id now kv.key kv.value) else peek m k2 := by
      intro k2
      exact @peek_touch V m (Get m k now).1 h k kv (entry.mk kv.id now kv.key kv.value) hp rfl
        (by rw [hget]) (by rw [hget]) (by rw [hget]) k2
    have hc : (Get m k now).1.caches = m.caches := by rw [hget]
    have hs : (Get m k now).1.shard = m.shard := by rw [hget]
    refine ⟨by rw [hget]; rfl, hc, ?_, ?_, ?_, ?_, ?_⟩
    · unfold storedKeys cacheOf
      rw [hc, hs]
    · intro k2 x hx
      rw [hpk] at hx
      by_cases hk2 : k2 = k
      · rw [if_pos hk2] at hx
        simp only [Option.some.injEq] at hx
        exact ⟨kv, by rw [hk2]; exact hp, by rw [← hx]⟩
      · rw [if_neg hk2] at hx
        exact ⟨x, hx, rfl⟩
    · intro k2 t
      rw [Get_snd h2, Get_snd h, hpk]
      by_cases hk2 : k2 = k
      · rw [if_pos hk2, hk2, hp]
      · rw [if_neg hk2]
    · intro _
      obtain ⟨l1, l2, hsplit⟩ := List.append_of_mem hmem
      refine ⟨l1, kv, l2, hsplit, hkey, rfl, by rw [hget], ?_, ?_⟩
      · rw [llOf_of_set (show (Get m k now).1.lls = _ by rw [hget]),
          if_pos ⟨rfl, by rw [h.lls_len]; exact getMM_lt h k⟩, hkey, hsplit]
        rw [listRemove_split (by rw [← hsplit]; exact (h.shards (getMM m k)).2.1)]
      · intro j hj
        rw [llOf_of_set (show (Get m k now).1.lls = _ by rw [hget]),
          if_neg (fun hh => hj hh.1.symm)]
    · intro hh
      rw [hget] at hh
      simp at hh

theorem peek_step_value {V : Type} {m : LruCache V} (h : WeakInv m) (op : Op V) {k : String}
    {x : entry V} (hp : peek (step m op) k = some x) :
    Op.addValue k op = some x.value ∨
    (Op.addValue k op = none ∧ ∃ x0, peek m k = some x0 ∧ x0.value = x.value) := by
  cases op with
  | add k1 v now rnd =>
    rcases peek_Add_value h k1 v now rnd hp with ⟨h1, h2⟩ | ⟨h1, h2⟩
    · left
      simp only [Op.addValue, h1, if_true, h2]
    · right
      have hne : ¬ k1 = k := fun hh => h1 hh.symm
      exact ⟨by simp only [Op.addValue, hne, if_false], h2⟩
  | get k1 now =>
    right
    exact ⟨rfl, (Get_frame h k1 now).2.2.2.1 k x hp⟩
  | remove k1 =>
    right
    refine ⟨rfl, x, ?_, rfl⟩
    by_cases hk : k = k1
    · rw [hk] at hp
      have : peek (step m (Op.remove k1)) k1 = none := peek_Remove_self h k1
      rw [this] at hp; simp at hp
    · have : peek (step m (Op.remove k1)) k = peek m k := peek_Remove_ne h hk
      rw [this] at hp
      exact hp
  | removeOldest t c now rnd =>
    right
    exact ⟨rfl, x, peek_RemoveOldest_some h t c now rnd hp, rfl⟩
  | clear =>
    right
    exact ⟨rfl, x, peek_Clear_some h hp, rfl⟩

theorem lastAdd_append {V : Type} (ops : List (Op V)) (op : Op V) (k : String) :
    lastAdd (ops ++ [op]) k = match Op.addValue k op with
      | some v => some v
      | none => lastAdd ops k := by
  unfold lastAdd
  rw [List.filterMap_append]
  cases ht : Op.addValue k op with
  | none => simp [List.filterMap_cons, ht]
  | some t => simp [List.filterMap_cons, ht]

/-- In every state reached from `New` by public operations the value of the node that `Get`
finds for a key is the value of the last `Add` of the key. -/
theorem value_eq_lastAdd {V : Type} (shard : Nat) (max_entries : Int) (numCPU : Nat)
    (hcpu : 0 < numCPU) (ops : List (Op V)) (k : String)
    (kv : entry V) (hp : peek (run (New shard max_entries numCPU) ops) k = some kv) :
    lastAdd ops k = some kv.value := by
  induction ops using List.reverseRecOn generalizing kv with
  | nil =>
    exfalso
    rw [show run (New shard max_entries numCPU : LruCache V) [] = New shard max_entries numCPU
      from rfl, peek_New shard max_entries numCPU hcpu k] at hp
    simp at hp
  | append_singleton l op ih =>
    have hw := weakInv_reach shard max_entries numCPU hcpu l
    rw [run_append] at hp
    rw [lastAdd_append]
    rcases peek_step_value hw op hp with h1 | ⟨h1, x0, h2, h3⟩
    · rw [h1]
    · rw [h1]
      simp only
      rw [← h3]
      exact ih x0 h2

/-- C14: in every state `s` reached from `New` by public operations, `Get(k)` leaves `Len()`,
every index (so the stored keys) and the result of every later `Get` (so the values)
unchanged.  When it finds `k` it returns `(v, true)` where `v` is the value of the last
`Add(k, v)` of the history, the node of `k` becomes the front of the list of its shard with
the other nodes behind it in their old order, and the lists of the other shards are
unchanged.  When it does not find `k` it returns `(nil, false)` and the state is unchanged. -/
theorem get_keeps_store {V : Type} (shard : Nat) (max_entries : Int) (numCPU : Nat)
    (hcpu : 0 < numCPU) (ops : List (Op V)) (k : String) (now : Int) :
    Len (Get (run (New shard max_entries numCPU) ops) k now).1
      = Len (run (New shard max_entries numCPU) ops) ∧
    (Get (run (New shard max_entries numCPU) ops) k now).1.caches
      = (run (New shard max_entries numCPU) ops).caches ∧
    storedKeys (Get (run (New shard max_entries numCPU) ops) k now).1
      = storedKeys (run (New shard max_entries numCPU) ops) ∧
    (∀ k2 t, (Get (Get (run (New shard max_entries numCPU) ops) k now).1 k2 t).2
      = (Get (run (New shard max_entries numCPU) ops) k2 t).2) ∧
    ((Get (run (New shard max_entries numCPU) ops) k now).2.2 = true →
      ∃ v l1 kv l2,
        (Get (run (New shard max_entries numCPU) ops) k now).2 = (some v, true) ∧
        lastAdd ops k = some v ∧
        llOf (run (New shard max_entries numCPU) ops)
          (getMM (run (New shard max_entries numCPU) ops) k) = l1 ++ kv :: l2 ∧
        kv.key = k ∧
        llOf (Get (run (New shard max_entries numCPU) ops) k now).1
          (getMM (run (New shard max_entries numCPU) ops) k)
            = entry.mk kv.id now k v :: (l1 ++ l2) ∧
        (∀ j, j ≠ getMM (run (New shard max_entries numCPU) ops) k →
          llOf (Get (run (New shard max_entries numCPU) ops) k now).1 j
            = llOf (run (New shard max_entries numCPU) ops) j)) ∧
    ((Get (run (New shard max_entries numCPU) ops) k now).2.2 = false →
      Get (run (New shard max_entries numCPU) ops) k now
        = (run (New shard max_entries numCPU) ops, none, false)) := by
  have hw := weakInv_reach shard max_entries numCPU hcpu ops
  obtain ⟨h1, h2, h3, _, h5, h6, h7⟩ := Get_frame hw k now
  refine ⟨h1, h2, h3, h5, ?_, h7⟩
  intro hk
  obtain ⟨l1, kv, l2, hsplit, hkey, hpk, hres, hll, hoth⟩ := h6 hk
  exact ⟨kv.value, l1, kv, l2, hres,
    value_eq_lastAdd shard max_entries numCPU hcpu ops k kv hpk, hsplit, hkey, hll, hoth⟩

set_option maxRecDepth 100000 in
theorem get_keeps_store_witness :
    (Get (run (New 1 0 1 : LruCache Nat)
      [Op.add "a" 1 0 (fun _ => 0), Op.clear, Op.add "a" 5 1 (fun _ => 0),
       Op.add "b" 2 2 (fun _ => 0), Op.add "c" 3 3 (fun _ => 0)]) "a" 4).2 = (some 5, true) ∧
    lastAdd
      [Op.add "a" 1 0 (fun _ => 0), Op.clear, Op.add "a" 5 1 (fun _ => 0),
       Op.add "b" 2 2 (fun _ => 0), Op.add "c" 3 3 (fun _ => 0)] "a" = some 5 ∧
    llOf (Get (run (New 1 0 1 : LruCache Nat)
      [Op.add "a" 1 0 (fun _ => 0), Op.clear, Op.add "a" 5 1 (fun _ => 0),
       Op.add "b" 2 2 (fun _ => 0), Op.add "c" 3 3 (fun _ => 0)]) "a" 4).1 0
      = [entry.mk 1 4 "a" 5, entry.mk 3 3 "c" 3, entry.mk 2 2 "b" 2, entry.mk 0 0 "a" 1] ∧
    Len (Get (run (New 1 0 1 : LruCache Nat)
      [Op.add "a" 1 0 (fun _ => 0), Op.clear, Op.add "a" 5 1 (fun _ => 0),
       Op.add "b" 2 2 (fun _ => 0), Op.add "c" 3 3 (fun _ => 0)]) "a" 4).1
      = Len (run (New 1 0 1 : LruCache Nat)
      [Op.add "a" 1 0 (fun _ => 0), Op.clear, Op.add "a" 5 1 (fun _ => 0),
       Op.add "b" 2 2 (fun _ => 0), Op.add "c" 3 3 (fun _ => 0)]) :=
  ⟨by decide, by decide, by decide,
    (get_keeps_store 1 0 1 (by decide)
      [Op.add "a" 1 0 (fun _ => 0), Op.clear, Op.add "a" 5 1 (fun _ => 0),
       Op.add "b" 2 2 (fun _ => 0), Op.add "c" 3 3 (fun _ => 0)] "a" 4).1⟩

/-! ## `Clear`, `Len` and the bound of `RemoveOldest` where index and order are in lockstep -/

theorem sum_map_eq_range {α : Type} (l : List α) (f : α → Nat) (d : α) :
    (l.map f).sum = ((List.range l.length).map (fun i => f (l.getD i d))).sum := by
  induction l with
  | nil => rfl
  | cons a rest ih =>
    rw [List.length_cons, List.range_succ_eq_map, List.map_cons, List.map_cons, List.sum_cons,
      List.sum_cons, List.map_map, ih]
    rfl

theorem foldl_clearShard_out {V : Type} (l : List Nat) (a : LruCache V × Int) :
    (l.foldl clearShard a).2
      = a.2 + (((l.map (fun s => (llOf a.1 s).length)).sum : Nat) : Int) ∧
    (l.foldl clearShard a).1.count
      = a.1.count - (((l.map (fun s => (llOf a.1 s).length)).sum : Nat) : Int) := by
  induction l generalizing a with
  | nil => simp
  | cons s rest ih =>
    rw [List.foldl_cons]
    obtain ⟨h1, h2⟩ := ih (clearShard a s)
    have hl : ∀ j, llOf (clearShard a s).1 j = llOf a.1 j := fun _ => rfl
    simp only [hl] at h1 h2
    rw [h1, h2]
    simp only [List.map_cons, List.sum_cons, clearShard]
    push_cast
    constructor <;> omega

theorem count_eq_range {V : Type} {m : LruCache V} (h : Inv m) :
    m.count = ((((List.range m.shard).map (fun s => (llOf m s).length)).sum : Nat) : Int) := by
  rw [h.count_eq, sum_map_eq_range m.lls List.length [], h.weak.lls_len]
  rfl

/-- Where index and order are in lockstep (`Inv`: the states built by `Add`, `Get` and
`Remove`), `Clear()` returns `Len()` and leaves the counter at 0. -/
theorem Clear_out {V : Type} {m : LruCache V} (h : Inv m) :
    (Clear m).2 = Len m ∧ Len (Clear m).1 = 0 := by
  obtain ⟨h1, h2⟩ := foldl_clearShard_out (List.range m.shard) (m, 0)
  have hc := count_eq_range h
  unfold Clear Len
  rw [h1, h2]
  simp only
  constructor <;> omega

/-- Where index and order are in lockstep `Len()` is the number of keys of the indexes. -/
theorem Len_eq_stored {V : Type} {m : LruCache V} (h : Inv m) :
    Len m = ((storedKeys m).length : Int) := by
  have hc := count_eq_range h
  have hf := length_filter_flatMap (List.range m.shard)
    (fun i => (cacheOf m i).map Prod.fst) (fun _ => true)
  simp only [List.filter_true] at hf
  have hl : ∀ s, (llOf m s).length = ((cacheOf m s).map Prod.fst).length := by
    intro s
    have := (keys_perm h s).length_eq
    simpa using this
  unfold Len storedKeys
  rw [hc, hf]
  simp only [hl]

theorem sampleLoop_le_max {V : Type} (t lifeline max_count : Int) (rnd : Nat → Nat)
    (fuel loop : Nat) (m : LruCache V) (out : Int) (ho : out ≤ max_count) :
    (sampleLoop t lifeline max_count rnd fuel loop m out).2 ≤ max_count := by
  induction fuel generalizing loop m out with
  | zero => exact ho
  | succ n ih =>
    unfold sampleLoop
    by_cases h1 : out < max_count
    · rw [if_pos h1]
      simp only
      cases hb : (llOf m (rnd loop % m.shard)).getLast? with
      | none => exact ih _ _ _ ho
      | some kv =>
        simp only
        by_cases hc : t ≤ 0 ∨ kv.last_time < lifeline
        · rw [if_pos hc]; exact ih _ _ _ (by omega)
        · rw [if_neg hc]; exact ih _ _ _ ho
    · rw [if_neg h1]; exact ho

/-- Where index and order are in lockstep `RemoveOldest(t, max_count)` with `max_count > 0`
returns at most `max_count`. -/
theorem RemoveOldest_le_max {V : Type} {m : LruCache V} (h : Inv m) (t max_count now : Int)
    (rnd : Nat → Nat) (hpos : 0 < max_count) :
    (RemoveOldest m t max_count now rnd).2 ≤ max_count := by
  unfold RemoveOldest
  simp only
  rw [if_neg (by omega)]
  by_cases h3 : m.count ≤ max_count
  · rw [if_pos h3, (Clear_out h).1]
    exact h3
  · rw [if_neg h3]
    exact sampleLoop_le_max _ _ _ _ _ _ _ _ (by omega)

/-! ## A `Get` that returns a value older than the last `Add` -/

/-- C18 (failing schedule): `New(1, 0)`; `Add("a", 1)` completes; goroutine G calls
`Get("a")` and runs `getMM` (line 102), which reads the map of shard 0 before `mx.Lock()`;
`Clear()` completes and puts a new map into `m.caches[0]`; `Add("a", 2)` completes (it finds
no key in the new map and pushes a new element; `max` is 0, so it calls no eviction); G
then locks and looks the key up in the map it holds, the old one: its `Get("a")` returns
`(1, true)`, not the value 2 of the last completed `Add("a", .)`, which no `Remove`
followed.  A `Get` that starts after the second `Add` returns `(2, true)`. -/
theorem get_stale_after_concurrent_clear :
    raceRefs = (0, 0) ∧
    getMMShared raceReadded "a" = (0, 1) ∧
    raceReadded.max = 0 ∧
    raceReadded.maps = [[("a", 0)], [("a", 1)]] ∧
    raceReadded.lls = [[1, 0]] ∧
    (GetLocked raceReadded raceRefs "a" 2).2 = (some 1, true) ∧
    (GetLocked raceReadded (getMMShared raceReadded "a") "a" 2).2 = (some 2, true) := by
  decide

/-! ## `TestEvict` with three shards -/

/-- The history of `TestEvict` (`New(0, 10)`, then `Add` of `tk0 .. tk12`) on a machine with
`NumCPU = 3`: the keys `tk0 .. tk10` are routed to the shards 0 and 1, so shard 2 is empty
when `Add("tk10")` makes the counter 11 and calls `RemoveOldest(0, 1)`; the three rounds of
that call all sample shard 2 and delete nothing.  The evictions of `tk11` and `tk12` delete
one key each: `Len()` is 11 at the end, where the test asserts 10. -/
theorem testEvict_three_shards_len_eleven :
    (New 0 10 3 : LruCache Nat).shard = 3 ∧
    llOf (addAll (New 0 10 3 : LruCache Nat)
      [("tk0", 0, 0, fun _ => 0), ("tk1", 1, 1, fun _ => 0), ("tk2", 2, 2, fun _ => 0),
       ("tk3", 3, 3, fun _ => 0), ("tk4", 4, 4, fun _ => 0), ("tk5", 5, 5, fun _ => 0),
       ("tk6", 6, 6, fun _ => 0), ("tk7", 7, 7, fun _ => 0), ("tk8", 8, 8, fun _ => 0),
       ("tk9", 9, 9, fun _ => 0), ("tk10", 10, 10, fun _ => 2)]) 2 = [] ∧
    Len (addAll (New 0 10 3 : LruCache Nat)
      [("tk0", 0, 0, fun _ => 0), ("tk1", 1, 1, fun _ => 0), ("tk2", 2, 2, fun _ => 0),
       ("tk3", 3, 3, fun _ => 0), ("tk4", 4, 4, fun _ => 0), ("tk5", 5, 5, fun _ => 0),
       ("tk6", 6, 6, fun _ => 0), ("tk7", 7, 7, fun _ => 0), ("tk8", 8, 8, fun _ => 0),
       ("tk9", 9, 9, fun _ => 0), ("tk10", 10, 10, fun _ => 2)]) = 11 ∧
    Len (addAll (New 0 10 3 : LruCache Nat)
      [("tk0", 0, 0, fun _ => 0), ("tk1", 1, 1, fun _ => 0), ("tk2", 2, 2, fun _ => 0),
       ("tk3", 3, 3, fun _ => 0), ("tk4", 4, 4, fun _ => 0), ("tk5", 5, 5, fun _ => 0),
       ("tk6", 6, 6, fun _ => 0), ("tk7", 7, 7, fun _ => 0), ("tk8", 8, 8, fun _ => 0),
       ("tk9", 9, 9, fun _ => 0), ("tk10", 10, 10, fun _ => 2), ("tk11", 11, 11, fun _ => 0),
       ("tk12", 12, 12, fun _ => 0)]) = 11 := by
  decide

end Zlru
